import Mathlib

/-!
# Verification of the `spart` spatial-index library specification

This development gives a shallow embedding of the spatial indexes described by
the repository's specification (quadtree/octree, k-d tree, R-tree, R*-tree)
and proves the specification's quantified properties about them.

The repository ships only the Python test-suite and example drivers of its
binding layer; the index core itself is not part of the source tree.  Every
definition of the core below is therefore modelled from the specification
text (each such definition carries a doc comment saying so).  Conventions of
the embedding:

* Coordinates are rationals (`Fin d → ℚ`), exact arithmetic standing in for
  the 64-bit floats of the implementation.  Comparisons are performed on
  squared distances, exactly as the specification prescribes for hot paths;
  true Euclidean distances appear in theorem statements through `Real.sqrt`.
* The opaque point payload is a type parameter `α` with decidable equality,
  the "abstract payload capability" admitted by the specification.
* The quadtree and octree are one dimension-generic structure (`d = 2` and
  `d = 3`); likewise the k-d trees, and the R/R* trees, which share one node
  shape and differ only in their insertion policies.
* The quad/octree subdivision recursion has no structural bound (a full leaf
  of coincident points subdivides forever), so insertion takes an explicit
  depth budget `fuel` and returns `none` when it is exhausted; every other
  operation is structurally recursive and total.
-/

set_option maxHeartbeats 1000000

namespace Spart

/-! ## Geometry primitives -/

/-- Coordinates of a `d`-dimensional point. -/
abbrev Coords (d : ℕ) := Fin d → ℚ

/-- Modelled from the spec: squared Euclidean distance ("sum of squared
coordinate differences"), the form the spec mandates for comparisons. -/
def d2 {d : ℕ} (q p : Coords d) : ℚ := ∑ i, (q i - p i) ^ 2

/-- True Euclidean distance between coordinate vectors, used in statements. -/
noncomputable def edist {d : ℕ} (q p : Coords d) : ℝ := Real.sqrt (d2 q p)

theorem d2_nonneg {d : ℕ} (q p : Coords d) : 0 ≤ d2 q p :=
  Finset.sum_nonneg fun _ _ => sq_nonneg _

theorem d2_self {d : ℕ} (q : Coords d) : d2 q q = 0 := by
  simp [d2]

theorem d2_eq_zero_iff {d : ℕ} (q p : Coords d) : d2 q p = 0 ↔ q = p := by
  constructor
  · intro h
    funext i
    have h0 : ∀ j ∈ Finset.univ (α := Fin d), (0:ℚ) ≤ (q j - p j) ^ 2 :=
      fun j _ => sq_nonneg _
    have hz := (Finset.sum_eq_zero_iff_of_nonneg h0).mp h i (Finset.mem_univ i)
    have : q i - p i = 0 := by
      exact (pow_eq_zero_iff (n := 2) (by norm_num)).mp hz
    linarith
  · rintro rfl; exact d2_self q

theorem edist_le_edist_iff {d : ℕ} {q p p' : Coords d} :
    edist q p ≤ edist q p' ↔ d2 q p ≤ d2 q p' := by
  unfold edist
  rw [Real.sqrt_le_sqrt_iff (by exact_mod_cast d2_nonneg q p')]
  exact ⟨fun h => by exact_mod_cast h, fun h => by exact_mod_cast h⟩

/-- For `r ≥ 0`, being within Euclidean distance `r` is the same as the
squared distance being at most `r·r`. -/
theorem edist_le_iff_d2_le {d : ℕ} {q p : Coords d} {r : ℚ} (hr : 0 ≤ r) :
    edist q p ≤ (r : ℝ) ↔ d2 q p ≤ r * r := by
  unfold edist
  rw [Real.sqrt_le_left (by exact_mod_cast hr)]
  constructor
  · intro h
    have : ((d2 q p : ℚ) : ℝ) ≤ ((r * r : ℚ) : ℝ) := by push_cast; nlinarith
    exact_mod_cast this
  · intro h
    have : ((d2 q p : ℚ) : ℝ) ≤ ((r * r : ℚ) : ℝ) := by exact_mod_cast h
    push_cast at this
    nlinarith

/-- An axis-aligned box, minimum and maximum corner per axis. -/
structure Box (d : ℕ) where
  lo : Coords d
  hi : Coords d
  deriving DecidableEq

/-- Modelled from the spec: a point is inside a box iff on every axis its
coordinate lies in the closed interval `[min, max]` (closed on all sides). -/
def Box.memB {d : ℕ} (b : Box d) (c : Coords d) : Prop :=
  ∀ i, b.lo i ≤ c i ∧ c i ≤ b.hi i

instance {d : ℕ} (b : Box d) (c : Coords d) : Decidable (b.memB c) := by
  unfold Box.memB; infer_instance

/-- Modelled from the spec: squared `min_distance(box, point)` — per axis the
point's coordinate is clamped into `[min, max]`, and the distance from the
clamped coordinate to the original is accumulated. -/
def minD2 {d : ℕ} (b : Box d) (q : Coords d) : ℚ :=
  ∑ i, (q i - max (b.lo i) (min (b.hi i) (q i))) ^ 2

theorem minD2_nonneg {d : ℕ} (b : Box d) (q : Coords d) : 0 ≤ minD2 b q :=
  Finset.sum_nonneg fun _ _ => sq_nonneg _

/-- A point inside the box is at least `min_distance` away from any query:
the clamped coordinate is closer to the query than the point on each axis. -/
theorem minD2_le_d2 {d : ℕ} {b : Box d} {p : Coords d} (q : Coords d)
    (hp : b.memB p) : minD2 b q ≤ d2 q p := by
  unfold minD2 d2
  refine Finset.sum_le_sum fun i _ => ?_
  obtain ⟨hlo, hhi⟩ := hp i
  rcases le_total (q i) (b.lo i) with h1 | h1
  · have hc : max (b.lo i) (min (b.hi i) (q i)) = b.lo i := by
      rcases le_total (b.hi i) (q i) with h2 | h2
      · rw [min_eq_left h2]; exact max_eq_left (le_trans h2 h1)
      · rw [min_eq_right h2]; exact max_eq_left h1
    rw [hc]
    nlinarith
  · rcases le_total (b.hi i) (q i) with h2 | h2
    · have hc : max (b.lo i) (min (b.hi i) (q i)) = b.hi i := by
        rw [min_eq_left h2]; exact max_eq_right (le_trans hlo hhi)
      rw [hc]
      nlinarith
    · have hc : max (b.lo i) (min (b.hi i) (q i)) = q i := by
        rw [min_eq_right h2]; exact max_eq_right h1
      rw [hc]
      nlinarith [sq_nonneg (q i - p i)]

/-- A point of the box itself, e.g. the query when it lies inside, has
`min_distance = 0`. -/
theorem minD2_eq_zero_of_mem {d : ℕ} {b : Box d} {q : Coords d}
    (hq : b.memB q) : minD2 b q = 0 := by
  unfold minD2
  refine Finset.sum_eq_zero fun i _ => ?_
  obtain ⟨hlo, hhi⟩ := hq i
  rw [min_eq_right hhi, max_eq_right hlo]
  ring

/-- A point record: coordinates plus an opaque payload.  Point equality
compares all coordinates and the payload, per the spec's data model. -/
structure Pt (d : ℕ) (α : Type) where
  coords : Coords d
  data : α
  deriving DecidableEq

/-- Squared distance from a query to a stored point. -/
def keyD {d : ℕ} {α : Type} (q : Coords d) (p : Pt d α) : ℚ := d2 q p.coords

/-! ## The k-smallest theory

The kNN searches of all four families maintain "a bounded max-heap of size
`k` keyed by distance to `q` (keep the `k` smallest)".  We model the bounded
heap as a sorted list (`insKey`/`pushBest`) and characterise the result of
every search through the predicate `IsKBest`: the returned list is sorted by
key, is a sub-multiset of the stored points, has length `min k n`, and every
returned element's key is at most every non-returned element's key.  These
facts pin the returned key sequence down to the first `k` entries of the
sorted key multiset (`IsKBest.map_key_eq`). -/

section KBest

variable {β : Type} [DecidableEq β]

/-- Insert into a key-sorted list, after any elements of equal key (the spec
breaks ties by insertion order). -/
def insKey (κ : β → ℚ) (x : β) : List β → List β
  | [] => [x]
  | y :: ys => if κ x < κ y then x :: y :: ys else y :: insKey κ x ys

/-- Modelled from the spec: push a candidate into the bounded max-heap of
size `k`, keeping the `k` smallest keys. -/
def pushBest (κ : β → ℚ) (k : ℕ) (x : β) (l : List β) : List β :=
  (insKey κ x l).take k

/-- `res` is a list of `k` nearest elements of the multiset `all` under the
key `κ`: sorted by key, drawn from `all`, of length `min k |all|`, and no
element left in `all` has a smaller key than a returned one. -/
def IsKBest (κ : β → ℚ) (k : ℕ) (res : List β) (all : Multiset β) : Prop :=
  res.Pairwise (fun a b => κ a ≤ κ b) ∧ ↑res ≤ all ∧
    res.length = min k (Multiset.card all) ∧
    ∀ x ∈ res, ∀ y ∈ all - ↑res, κ x ≤ κ y

theorem insKey_perm (κ : β → ℚ) (x : β) (l : List β) :
    List.Perm (insKey κ x l) (x :: l) := by
  induction l with
  | nil => simp [insKey]
  | cons y ys ih =>
      rw [insKey]
      split
      · rfl
      · exact (ih.cons y).trans (List.Perm.swap x y ys)

theorem insKey_length (κ : β → ℚ) (x : β) (l : List β) :
    (insKey κ x l).length = l.length + 1 :=
  (insKey_perm κ x l).length_eq

theorem insKey_sorted (κ : β → ℚ) (x : β) {l : List β}
    (hl : l.Pairwise (fun a b => κ a ≤ κ b)) :
    (insKey κ x l).Pairwise (fun a b => κ a ≤ κ b) := by
  induction l with
  | nil => simp [insKey]
  | cons y ys ih =>
      rw [List.pairwise_cons] at hl
      obtain ⟨hy, hys⟩ := hl
      rw [insKey]
      split
      · rename_i hxy
        refine List.Pairwise.cons ?_ (List.Pairwise.cons hy hys)
        intro b hb
        rcases List.mem_cons.mp hb with rfl | hb
        · exact le_of_lt hxy
        · exact le_trans (le_of_lt hxy) (hy b hb)
      · rename_i hxy
        push_neg at hxy
        refine List.Pairwise.cons ?_ (ih hys)
        intro b hb
        have hb' := (insKey_perm κ x ys).mem_iff.mp hb
        rcases List.mem_cons.mp hb' with rfl | hb'
        · exact hxy
        · exact hy b hb'

/-- Every key in a key-sorted list is bounded by the key of any element that
appears at or after it; in particular a `take`/`drop` split of a sorted list
puts small keys before large ones. -/
theorem sorted_take_drop_le {κ : β → ℚ} {l : List β} (k : ℕ)
    (hl : l.Pairwise (fun a b => κ a ≤ κ b)) :
    ∀ a ∈ l.take k, ∀ b ∈ l.drop k, κ a ≤ κ b := by
  intro a ha b hb
  have happ : (l.take k ++ l.drop k).Pairwise (fun a b => κ a ≤ κ b) := by
    rw [List.take_append_drop]
    exact hl
  exact (List.pairwise_append.mp happ).2.2 a ha b hb

theorem sub_add_of_le {t a b : Multiset β} (h : a + b ≤ t) :
    t - a = (t - (a + b)) + b := by
  ext c
  have hc := Multiset.le_iff_count.mp h c
  simp only [Multiset.count_sub, Multiset.count_add] at *
  omega

theorem erase_sub_erase {m : β} {s t : Multiset β} (hm : m ∈ s) (h : s ≤ t) :
    t.erase m - s.erase m = t - s := by
  ext c
  have hc := Multiset.le_iff_count.mp h c
  have hcm := Multiset.le_iff_count.mp h m
  have hmem := Multiset.count_pos.mpr hm
  by_cases hcm' : c = m
  · subst hcm'
    simp only [Multiset.count_sub, Multiset.count_erase_self]
    omega
  · simp only [Multiset.count_sub, Multiset.count_erase_of_ne hcm']

/-- Mapping a key over a multiset difference, for a sub-multiset. -/
theorem map_sub_of_le {γ : Type} [DecidableEq γ] (f : β → γ) {s t : Multiset β}
    (h : s ≤ t) : (t - s).map f = t.map f - s.map f := by
  ext c
  rw [Multiset.count_sub, Multiset.count_map, Multiset.count_map,
    Multiset.count_map, Multiset.filter_sub,
    Multiset.card_sub (Multiset.filter_le_filter _ h)]

/-- Two sub-multisets of `t` that both consist of minimal values and have the
same size are equal: the multiset of the `k` smallest values is unique. -/
theorem ksmallest_unique :
    ∀ (n : ℕ) {s₁ s₂ t : Multiset ℚ}, Multiset.card s₁ = n →
      s₁ ≤ t → s₂ ≤ t → Multiset.card s₁ = Multiset.card s₂ →
      (∀ x ∈ s₁, ∀ y ∈ t - s₁, x ≤ y) →
      (∀ x ∈ s₂, ∀ y ∈ t - s₂, x ≤ y) → s₁ = s₂ := by
  intro n
  induction n with
  | zero =>
      intro s₁ s₂ t hn h₁ h₂ hc m₁ m₂
      have h1 : s₁ = 0 := Multiset.card_eq_zero.mp hn
      have h2 : s₂ = 0 := Multiset.card_eq_zero.mp (by rw [← hc]; exact hn)
      rw [h1, h2]
  | succ n ih =>
      intro s₁ s₂ t hn h₁ h₂ hc m₁ m₂
      obtain ⟨a0, ha0⟩ := Multiset.card_pos_iff_exists_mem.mp
        (show 0 < Multiset.card s₁ by omega)
      have ht0 : t ≠ 0 := by
        intro h
        subst h
        exact absurd (Multiset.mem_of_le h₁ ha0) (Multiset.not_mem_zero a0)
      have htf : t.toFinset.Nonempty := by
        rw [Finset.nonempty_iff_ne_empty]
        intro h
        exact ht0 (by simpa using Multiset.toFinset_eq_empty.mp h)
      set m := t.toFinset.min' htf with hmdef
      have hmt : m ∈ t := Multiset.mem_toFinset.mp (t.toFinset.min'_mem htf)
      have hmmin : ∀ y ∈ t, m ≤ y := fun y hy =>
        t.toFinset.min'_le y (Multiset.mem_toFinset.mpr hy)
      have hmem : ∀ {s : Multiset ℚ}, s ≤ t → Multiset.card s = n + 1 →
          (∀ x ∈ s, ∀ y ∈ t - s, x ≤ y) → m ∈ s := by
        intro s hs hcard hmin
        by_contra hms
        have hmts : m ∈ t - s := by
          rw [← Multiset.count_pos, Multiset.count_sub]
          have := Multiset.count_pos.mpr hmt
          have h0 : Multiset.count m s = 0 := Multiset.count_eq_zero.mpr hms
          omega
        obtain ⟨x, hx⟩ := Multiset.card_pos_iff_exists_mem.mp
          (by rw [hcard]; omega)
        have hxm : x ≤ m := hmin x hx m hmts
        have hmx : m ≤ x := hmmin x (Multiset.mem_of_le hs hx)
        exact hms (le_antisymm hxm hmx ▸ hx)
      have hm₁ : m ∈ s₁ := hmem h₁ hn m₁
      have hm₂ : m ∈ s₂ := hmem h₂ (by omega) m₂
      have key : s₁.erase m = s₂.erase m := by
        refine ih (by rw [Multiset.card_erase_of_mem hm₁, hn]; rfl)
          (t := t.erase m) (Multiset.erase_le_erase m h₁)
          (Multiset.erase_le_erase m h₂) ?_ ?_ ?_
        · rw [Multiset.card_erase_of_mem hm₁, Multiset.card_erase_of_mem hm₂, hc]
        · intro x hx y hy
          rw [erase_sub_erase hm₁ h₁] at hy
          exact m₁ x (Multiset.mem_of_mem_erase hx) y hy
        · intro x hx y hy
          rw [erase_sub_erase hm₂ h₂] at hy
          exact m₂ x (Multiset.mem_of_mem_erase hx) y hy
      calc s₁ = m ::ₘ s₁.erase m := (Multiset.cons_erase hm₁).symm
        _ = m ::ₘ s₂.erase m := by rw [key]
        _ = s₂ := Multiset.cons_erase hm₂

/-- An `IsKBest` result's key sequence is exactly the first `k` entries of
the sorted multiset of all keys: the i-th result has the i-th smallest key. -/
theorem IsKBest.map_key_eq {κ : β → ℚ} {k : ℕ} {res : List β}
    {all : Multiset β} (h : IsKBest κ k res all) :
    res.map κ = ((all.map κ).sort (· ≤ ·)).take k := by
  obtain ⟨hs, hle, hlen, hmin⟩ := h
  set t : Multiset ℚ := all.map κ with ht
  set srt : List ℚ := t.sort (· ≤ ·) with hsrt
  have hsrt_coe : (↑srt : Multiset ℚ) = t := Multiset.sort_eq _ _
  have hsorted_srt : srt.Pairwise (· ≤ ·) := Multiset.sort_sorted _ _
  -- multisets of the two lists agree
  have hmeq : (↑(res.map κ) : Multiset ℚ) = ↑(srt.take k) := by
    refine ksmallest_unique (res.map κ).length (t := t) (by simp) ?_ ?_ ?_ ?_ ?_
    · rw [ht, ← Multiset.map_coe]
      exact Multiset.map_le_map hle
    · rw [← hsrt_coe]
      exact (srt.take_sublist k).subperm
    · have hsl : srt.length = Multiset.card all := by
        rw [hsrt, Multiset.length_sort, ht, Multiset.card_map]
      simp only [Multiset.coe_card, List.length_map, List.length_take]
      rw [hlen, hsl]
    · intro x hx y hy
      rw [← Multiset.map_coe, ← map_sub_of_le κ hle] at hy
      obtain ⟨a, ha, rfl⟩ := List.mem_map.mp (by exact_mod_cast hx)
      obtain ⟨b, hb, rfl⟩ := Multiset.mem_map.mp hy
      exact hmin a ha b hb
    · intro x hx y hy
      have hy' : y ∈ srt.drop k := by
        have hsplit : (↑srt : Multiset ℚ) = ↑(srt.take k) + ↑(srt.drop k) := by
          rw [Multiset.coe_add, List.take_append_drop]
        rw [← hsrt_coe, hsplit, add_tsub_cancel_left] at hy
        exact_mod_cast hy
      exact sorted_take_drop_le (κ := id) k hsorted_srt x (by exact_mod_cast hx) y hy'
  have hperm := Multiset.coe_eq_coe.mp hmeq
  haveI : IsAntisymm ℚ (fun x1 x2 => x1 ≤ x2) := ⟨fun _ _ h h' => le_antisymm h h'⟩
  refine List.eq_of_perm_of_sorted (r := fun x1 x2 => x1 ≤ x2) hperm ?_ ?_
  · exact List.pairwise_map.mpr hs
  · exact (hsorted_srt).sublist (srt.take_sublist k)

/-- Pushing a candidate into the bounded best-list turns a `k`-best of `S`
into a `k`-best of `S` plus the candidate. -/
theorem pushBest_isKBest {κ : β → ℚ} {k : ℕ} {res : List β} {S : Multiset β}
    (h : IsKBest κ k res S) (x : β) :
    IsKBest κ k (pushBest κ k x res) (x ::ₘ S) := by
  obtain ⟨hs, hle, hlen, hmin⟩ := h
  set L := insKey κ x res with hLdef
  have hperm : List.Perm L (x :: res) := insKey_perm κ x res
  have hLsorted : L.Pairwise (fun a b => κ a ≤ κ b) := insKey_sorted κ x hs
  have hLlen : L.length = res.length + 1 := insKey_length κ x res
  have hLcoe : (↑L : Multiset β) = x ::ₘ ↑res := Quot.sound hperm
  have hcardS : Multiset.card (↑res : Multiset β) ≤ Multiset.card S :=
    Multiset.card_le_card hle
  refine ⟨?_, ?_, ?_, ?_⟩
  · exact hLsorted.sublist (L.take_sublist k)
  · calc (↑(L.take k) : Multiset β) ≤ ↑L := (L.take_sublist k).subperm
      _ = x ::ₘ ↑res := hLcoe
      _ ≤ x ::ₘ S := Multiset.cons_le_cons x hle
  · simp only [pushBest, List.length_take, insKey_length, Multiset.card_cons]
    simp only [Multiset.coe_card] at hcardS
    omega
  · intro a ha y hy
    have hLle : (↑L : Multiset β) ≤ x ::ₘ S := by
      rw [hLcoe]; exact Multiset.cons_le_cons x hle
    have hLsplit : (↑L : Multiset β) = ↑(L.take k) + ↑(L.drop k) := by
      rw [Multiset.coe_add, List.take_append_drop]
    have hy' : y ∈ ((x ::ₘ S) - ↑L) + ↑(L.drop k) := by
      have hrw := sub_add_of_le (t := x ::ₘ S) (a := (↑(L.take k) : Multiset β))
        (b := ↑(L.drop k)) (by rw [← hLsplit]; exact hLle)
      rw [hLsplit, ← hrw]
      exact hy
    have hsub : (x ::ₘ S) - ↑L = S - ↑res := by
      rw [hLcoe, Multiset.sub_cons, Multiset.erase_cons_head]
    rw [hsub] at hy'
    rcases Multiset.mem_add.mp hy' with hyS | hyD
    · -- y was discarded from the best list earlier
      by_cases hflen : res.length < k
      · -- best list not yet full: then res exhausts S and S - res is empty
        have : Multiset.card (↑res : Multiset β) = Multiset.card S := by
          simp only [Multiset.coe_card]
          omega
        have hres_eq : (↑res : Multiset β) = S :=
          Multiset.eq_of_le_of_card_le hle (by omega)
        rw [hres_eq, tsub_self] at hyS
        exact absurd hyS (Multiset.not_mem_zero y)
      · -- best list full with k elements
        push_neg at hflen
        have hflen' : res.length = k := by omega
        have hk1 : 1 ≤ k := by
          by_contra hk0
          have : k = 0 := by omega
          subst this
          simp [pushBest] at ha
        have haL : a ∈ L := List.mem_of_mem_take ha
        have hdropne : L.drop k ≠ [] := by
          have : (L.drop k).length = 1 := by
            rw [List.length_drop, hLlen, hflen']; omega
          intro hnil; rw [hnil] at this; simp at this
        obtain ⟨w, hw⟩ := List.exists_mem_of_ne_nil _ hdropne
        have haw : κ a ≤ κ w := sorted_take_drop_le k hLsorted a ha w hw
        rcases List.mem_cons.mp (hperm.mem_iff.mp haL) with hax | hares
        · -- the kept element a is (the value of) the newcomer x
          rcases List.mem_cons.mp
            (hperm.mem_iff.mp (List.mem_of_mem_drop hw)) with hwx | hwres
          · -- the dropped element w is that value too; counting occurrences
            -- of x in L shows x must then also occur in res
            have hcountL : L.count x = res.count x + 1 := by
              rw [hperm.count_eq, List.count_cons_self]
            have hsplitc : (L.take k).count x + (L.drop k).count x
                = L.count x := by
              conv_rhs => rw [← List.take_append_drop k L]
              rw [List.count_append]
            have h1 : 0 < (L.take k).count x := by
              rw [List.count_pos_iff]
              exact hax ▸ ha
            have h2 : 0 < (L.drop k).count x := by
              rw [List.count_pos_iff]
              exact hwx ▸ hw
            have hxres : x ∈ res := by
              rw [← List.count_pos_iff]
              omega
            rw [hax]
            exact hmin x hxres y hyS
          · exact le_trans haw (hmin w hwres y hyS)
        · exact hmin a hares y hyS
    · exact sorted_take_drop_le k hLsorted a ha y hyD

theorem isKBest_nil (κ : β → ℚ) (k : ℕ) : IsKBest κ k [] 0 := by
  refine ⟨List.Pairwise.nil, le_refl _, by simp, ?_⟩
  intro x hx
  simp at hx

/-- Folding a whole list of candidates into the bounded best-list. -/
theorem foldl_pushBest_isKBest {κ : β → ℚ} {k : ℕ} {res : List β}
    {S : Multiset β} (h : IsKBest κ k res S) (pts : List β) :
    IsKBest κ k (pts.foldl (fun b p => pushBest κ k p b) res) (↑pts + S) := by
  induction pts generalizing res S with
  | nil => simpa using h
  | cons p rest ih =>
      have step := pushBest_isKBest h p
      have hres2 := ih step
      rw [List.foldl_cons]
      have hms : (↑(p :: rest) : Multiset β) + S = ↑rest + p ::ₘ S := by
        ext c
        simp only [Multiset.count_add, ← Multiset.cons_coe,
          Multiset.count_cons]
        split <;> omega
      rw [← hms] at hres2
      exact hres2

/-- Pruning soundness: if `best` is a full `k`-best of a sub-multiset `S`
of `T` and every key in `best` is at most `m`, then every key of any
`k`-best of the whole of `T` is also at most `m`.  This justifies
discarding regions whose minimum distance exceeds the current k-th best. -/
theorem kbest_key_le_of_full {κ : β → ℚ} {k : ℕ} {res best : List β}
    {S T : Multiset β} (hS : S ≤ T) (hres : IsKBest κ k res T)
    (hbest : IsKBest κ k best S) (hfull : best.length = k) {m : ℚ}
    (hm : ∀ z ∈ best, κ z ≤ m) : ∀ a ∈ res, κ a ≤ m := by
  intro a ha
  by_contra hgt
  push_neg at hgt
  have hanb : a ∉ best := fun hmem => absurd (hm a hmem) (by linarith)
  set u : Multiset β := a ::ₘ ↑best with hu
  have hcard_u : Multiset.card u = k + 1 := by
    rw [hu, Multiset.card_cons, Multiset.coe_card, hfull]
  have hule : u ≤ T := by
    rw [Multiset.le_iff_count]
    intro y
    have hbS := Multiset.le_iff_count.mp hbest.2.1 y
    have hST := Multiset.le_iff_count.mp hS y
    have hrT := Multiset.le_iff_count.mp hres.2.1 a
    by_cases hya : y = a
    · subst hya
      have h0 : Multiset.count y (↑best : Multiset β) = 0 := by
        rw [Multiset.count_eq_zero]
        simpa using hanb
      have h1 : 0 < Multiset.count y (↑res : Multiset β) :=
        Multiset.count_pos.mpr (by simpa using ha)
      simp only [hu, Multiset.count_cons_self, h0]
      omega
    · simp only [hu, Multiset.count_cons_of_ne hya]
      omega
  have hcardT : k + 1 ≤ Multiset.card T := by
    have := Multiset.card_le_card hule
    omega
  have hreslen : res.length = k := by
    have := hres.2.2.1
    omega
  have hnotle : ¬ u ≤ (↑res : Multiset β) := by
    intro hle'
    have := Multiset.card_le_card hle'
    simp only [hcard_u, Multiset.coe_card, hreslen] at this
    omega
  rw [Multiset.le_iff_count] at hnotle
  push_neg at hnotle
  obtain ⟨y, hy⟩ := hnotle
  have hya : y ≠ a := by
    intro hya
    subst hya
    have h0 : Multiset.count y (↑best : Multiset β) = 0 := by
      rw [Multiset.count_eq_zero]
      simpa using hanb
    have h1 : 0 < Multiset.count y (↑res : Multiset β) :=
      Multiset.count_pos.mpr (by simpa using ha)
    simp only [hu, Multiset.count_cons_self, h0] at hy
    omega
  have hybest : y ∈ best := by
    rw [hu, Multiset.count_cons_of_ne hya] at hy
    have : 0 < Multiset.count y (↑best : Multiset β) := by omega
    simpa using Multiset.count_pos.mp this
  have hyT : y ∈ T - ↑res := by
    rw [← Multiset.count_pos, Multiset.count_sub]
    have h1 := Multiset.le_iff_count.mp hule y
    have hcu : Multiset.count y u = Multiset.count y (↑best : Multiset β) := by
      rw [hu, Multiset.count_cons_of_ne hya]
    omega
  have := hres.2.2.2 a ha y hyT
  have := hm y hybest
  linarith

/-- When `k` is at least the total population, a `k`-best is a permutation
of everything. -/
theorem IsKBest.perm_of_le_card {κ : β → ℚ} {k : ℕ} {res : List β}
    {all : Multiset β} (h : IsKBest κ k res all)
    (hk : Multiset.card all ≤ k) : (↑res : Multiset β) = all := by
  refine Multiset.eq_of_le_of_card_le h.2.1 ?_
  have := h.2.2.1
  simp only [Multiset.coe_card]
  omega

/-- A `k`-best result never exceeds `k` elements and never exceeds the
population. -/
theorem IsKBest.length_eq {κ : β → ℚ} {k : ℕ} {res : List β}
    {all : Multiset β} (h : IsKBest κ k res all) :
    res.length = min k (Multiset.card all) := h.2.2.1

/-- Pop a minimum-key element from a list: the min-heap extraction of the
best-first searches (earliest minimal element wins). -/
def pickMin {τ : Type} (κ : τ → ℚ) : List τ → Option (τ × List τ)
  | [] => none
  | x :: xs =>
      match pickMin κ xs with
      | none => some (x, [])
      | some (m, rest) => if κ x ≤ κ m then some (x, xs) else some (m, x :: rest)

theorem pickMin_none {τ : Type} (κ : τ → ℚ) {l : List τ} :
    pickMin κ l = none ↔ l = [] := by
  cases l with
  | nil => simp [pickMin]
  | cons x xs =>
      constructor
      · intro h
        exfalso
        rw [pickMin] at h
        cases hxs : pickMin κ xs with
        | none => rw [hxs] at h; exact Option.noConfusion h
        | some p =>
            obtain ⟨m, rest⟩ := p
            rw [hxs] at h
            dsimp only at h
            by_cases hc : κ x ≤ κ m
            · rw [if_pos hc] at h; exact Option.noConfusion h
            · rw [if_neg hc] at h; exact Option.noConfusion h
      · intro h; exact absurd h (List.cons_ne_nil x xs)

theorem pickMin_some {τ : Type} (κ : τ → ℚ) {l : List τ} {m : τ}
    {rest : List τ} (h : pickMin κ l = some (m, rest)) :
    List.Perm (m :: rest) l ∧ ∀ y ∈ l, κ m ≤ κ y := by
  induction l generalizing m rest with
  | nil => simp [pickMin] at h
  | cons x xs ih =>
      rw [pickMin] at h
      cases hxs : pickMin κ xs with
      | none =>
          rw [hxs] at h
          dsimp only at h
          have hnil : xs = [] := (pickMin_none κ).mp hxs
          simp only [Option.some.injEq, Prod.mk.injEq] at h
          obtain ⟨rfl, rfl⟩ := h
          subst hnil
          exact ⟨List.Perm.refl _, by simp⟩
      | some p =>
          obtain ⟨m', rest'⟩ := p
          rw [hxs] at h
          dsimp only at h
          obtain ⟨hperm', hmin'⟩ := ih hxs
          by_cases hc : κ x ≤ κ m'
          · rw [if_pos hc] at h
            simp only [Option.some.injEq, Prod.mk.injEq] at h
            obtain ⟨rfl, rfl⟩ := h
            refine ⟨List.Perm.refl _, ?_⟩
            intro y hy
            rcases List.mem_cons.mp hy with rfl | hy
            · exact le_refl _
            · exact le_trans hc (hmin' y hy)
          · rw [if_neg hc] at h
            push_neg at hc
            simp only [Option.some.injEq, Prod.mk.injEq] at h
            obtain ⟨rfl, hrest⟩ := h
            subst hrest
            constructor
            · exact (List.Perm.swap x _ rest').trans (hperm'.cons x)
            · intro y hy
              rcases List.mem_cons.mp hy with rfl | hy
              · exact le_of_lt hc
              · exact hmin' y hy

end KBest

/-! ## Generic best-first kNN search

The spec describes the same best-first kNN traversal twice (for the
quad/octree and for the R-tree families): a min-heap of regions keyed by
`min_distance(region, q)`, a bounded max-heap of the `k` best points, child
pruning against the current k-th best, and termination when the heap top
exceeds the k-th best.  We implement it once over an abstract interface. -/

/-- Abstract interface of a best-first-searchable tree: a point key (squared
distance to the query), a node key (squared `min_distance` of the node's
region to the query), the children of a node (either leaf points or child
nodes), and a size measure that shrinks when expanding. -/
structure BFS (d : ℕ) (α τ : Type) where
  pk : Pt d α → ℚ
  key : τ → ℚ
  kids : τ → List (Pt d α) ⊕ List τ
  sz : τ → ℕ
  sz_pos : ∀ t, 0 < sz t
  sz_kids : ∀ t ts, kids t = Sum.inr ts → ((ts.map sz).sum) < sz t

/-- Modelled from the spec: "terminate when the min-heap is empty or its top
exceeds the k-th best" (with a not-yet-full result heap the search goes on). -/
def stopHere {d : ℕ} {α : Type} (pk : Pt d α → ℚ) (k : ℕ)
    (best : List (Pt d α)) (c : ℚ) : Bool :=
  decide (k ≤ best.length) &&
    (match best.getLast? with
     | none => false
     | some b => decide (pk b < c))

/-- Modelled from the spec: "push each child whose `min_distance` is less
than the current k-th best (or always, when the result heap is not full)". -/
def pushOk {d : ℕ} {α : Type} (pk : Pt d α → ℚ) (k : ℕ)
    (best : List (Pt d α)) (c : ℚ) : Bool :=
  decide (best.length < k) ||
    (match best.getLast? with
     | none => true
     | some b => decide (c < pk b))

theorem stopHere_eq_true {d : ℕ} {α : Type} {pk : Pt d α → ℚ} {k : ℕ}
    {best : List (Pt d α)} {c : ℚ} (h : stopHere pk k best c = true) :
    k ≤ best.length ∧ ∃ b, best.getLast? = some b ∧ pk b < c := by
  unfold stopHere at h
  rw [Bool.and_eq_true] at h
  obtain ⟨h1, h2⟩ := h
  refine ⟨by simpa using h1, ?_⟩
  cases hl : best.getLast? with
  | none => rw [hl] at h2; simp at h2
  | some b =>
      rw [hl] at h2
      exact ⟨b, rfl, by simpa using h2⟩

theorem pushOk_eq_false {d : ℕ} {α : Type} {pk : Pt d α → ℚ} {k : ℕ}
    {best : List (Pt d α)} {c : ℚ} (h : pushOk pk k best c = false) :
    k ≤ best.length ∧ ∃ b, best.getLast? = some b ∧ pk b ≤ c := by
  unfold pushOk at h
  rw [Bool.or_eq_false_iff] at h
  obtain ⟨h1, h2⟩ := h
  refine ⟨by simpa using h1, ?_⟩
  cases hl : best.getLast? with
  | none => rw [hl] at h2; simp at h2
  | some b =>
      rw [hl] at h2
      refine ⟨b, rfl, ?_⟩
      have := of_decide_eq_false h2
      linarith [not_lt.mp this]

/-- Every key in a key-sorted list is at most the key of its last element. -/
theorem sorted_le_getLast {β : Type} {κ : β → ℚ} :
    ∀ {l : List β}, l.Pairwise (fun a b => κ a ≤ κ b) → ∀ {x b : β},
      x ∈ l → l.getLast? = some b → κ x ≤ κ b := by
  intro l
  induction l with
  | nil => intro _ x b hx _; simp at hx
  | cons y ys ih =>
      intro hl x b hx hb
      rw [List.pairwise_cons] at hl
      obtain ⟨hy, hys⟩ := hl
      cases ys with
      | nil =>
          simp at hx hb
          rw [hx, ← hb]
      | cons z zs =>
          have hbs : (z :: zs).getLast? = some b := by
            rw [List.getLast?_cons_cons] at hb
            exact hb
          rcases List.mem_cons.mp hx with rfl | hx'
          · exact hy b (List.mem_of_mem_getLast? hbs)
          · exact ih hys hx' hbs

/-- Membership in the sum of a list of multisets. -/
theorem mem_listSum {β γ : Type} {P : γ → Multiset β} {l : List γ} {y : β} :
    y ∈ (l.map P).sum ↔ ∃ t ∈ l, y ∈ P t := by
  induction l with
  | nil => simp
  | cons t ts ih =>
      simp only [List.map_cons, List.sum_cons, Multiset.mem_add, ih,
        List.mem_cons]
      constructor
      · rintro (h | ⟨u, hu, hy⟩)
        · exact ⟨t, Or.inl rfl, h⟩
        · exact ⟨u, Or.inr hu, hy⟩
      · rintro ⟨u, hu | hu, hy⟩
        · subst hu; exact Or.inl hy
        · exact Or.inr ⟨u, hu, hy⟩

/-- Subtracting a sub-multiset of the left summand distributes. -/
theorem add_sub_left {β : Type} [DecidableEq β] {a s t : Multiset β}
    (h : a ≤ s) : (s + t) - a = (s - a) + t := by
  ext c
  have := Multiset.le_iff_count.mp h c
  simp only [Multiset.count_sub, Multiset.count_add]
  omega

/-- Sum of a filtered map is bounded by the sum of the full map. -/
theorem sum_map_filter_le {γ : Type} (f : γ → ℕ) (p : γ → Bool)
    (l : List γ) : ((l.filter p).map f).sum ≤ (l.map f).sum := by
  induction l with
  | nil => simp
  | cons x xs ih =>
      by_cases hx : p x
      · simp only [List.filter_cons, hx, if_pos, List.map_cons, List.sum_cons]
        omega
      · simp only [List.filter_cons, List.map_cons, List.sum_cons]
        rw [if_neg (by simpa using hx)]
        omega

/-- Modelled from the spec: the best-first kNN traversal shared by the
quad/octree and the R-tree families.  Pop the frontier element with the
least `min_distance`; stop if the result heap is full and the top exceeds
the k-th best; otherwise absorb a leaf's points into the bounded result
heap, or push the children that can still improve the result. -/
def knnBF {d : ℕ} {α τ : Type} (B : BFS d α τ) (k : ℕ)
    (fr : List τ) (best : List (Pt d α)) : List (Pt d α) :=
  match hp : pickMin B.key fr with
  | none => best
  | some (t0, fr') =>
      if stopHere B.pk k best (B.key t0) then best
      else
        match hk : B.kids t0 with
        | Sum.inl pts =>
            knnBF B k fr' (pts.foldl (fun bs p => pushBest B.pk k p bs) best)
        | Sum.inr ts =>
            knnBF B k
              (fr' ++ ts.filter (fun t => pushOk B.pk k best (B.key t))) best
  termination_by (fr.map B.sz).sum
  decreasing_by
  · obtain ⟨hperm, _⟩ := pickMin_some B.key hp
    have hsum : B.sz t0 + ((fr'.map B.sz).sum) = (fr.map B.sz).sum := by
      have := (hperm.map B.sz).sum_eq
      simpa using this
    have := B.sz_pos t0
    omega
  · obtain ⟨hperm, _⟩ := pickMin_some B.key hp
    have hsum : B.sz t0 + ((fr'.map B.sz).sum) = (fr.map B.sz).sum := by
      have := (hperm.map B.sz).sum_eq
      simpa using this
    have hlt := B.sz_kids t0 ts (by assumption)
    have hfil := sum_map_filter_le B.sz
      (fun t => pushOk B.pk k best (B.key t)) ts
    simp only [List.map_append, List.sum_append]
    omega

section BFLemmas

variable {d : ℕ} {α τ : Type} (B : BFS d α τ) (k : ℕ)

theorem knnBF_none {fr : List τ} {best : List (Pt d α)}
    (hp : pickMin B.key fr = none) : knnBF B k fr best = best := by
  rw [knnBF]
  split
  · rfl
  · rename_i t0 fr' heq
    rw [hp] at heq
    exact Option.noConfusion heq

theorem knnBF_stop {fr : List τ} {best : List (Pt d α)} {t0 : τ}
    {fr' : List τ} (hp : pickMin B.key fr = some (t0, fr'))
    (hs : stopHere B.pk k best (B.key t0) = true) :
    knnBF B k fr best = best := by
  rw [knnBF]
  split
  · rfl
  · rename_i t0' fr'' heq
    rw [hp] at heq
    simp only [Option.some.injEq, Prod.mk.injEq] at heq
    obtain ⟨rfl, rfl⟩ := heq
    rw [if_pos hs]

theorem knnBF_leaf {fr : List τ} {best : List (Pt d α)} {t0 : τ}
    {fr' : List τ} {pts : List (Pt d α)}
    (hp : pickMin B.key fr = some (t0, fr'))
    (hs : ¬ stopHere B.pk k best (B.key t0) = true)
    (hkids : B.kids t0 = Sum.inl pts) :
    knnBF B k fr best
      = knnBF B k fr' (pts.foldl (fun bs p => pushBest B.pk k p bs) best) := by
  rw [knnBF]
  split
  · rename_i heq
    rw [hp] at heq
    exact Option.noConfusion heq
  · rename_i t0' fr'' heq
    rw [hp] at heq
    simp only [Option.some.injEq, Prod.mk.injEq] at heq
    obtain ⟨rfl, rfl⟩ := heq
    rw [if_neg hs]
    split
    · rename_i pts' heq2
      rw [hkids] at heq2
      simp only [Sum.inl.injEq] at heq2
      rw [heq2]
    · rename_i ts' heq2
      rw [hkids] at heq2
      exact Sum.noConfusion heq2

theorem knnBF_node {fr : List τ} {best : List (Pt d α)} {t0 : τ}
    {fr' : List τ} {ts : List τ}
    (hp : pickMin B.key fr = some (t0, fr'))
    (hs : ¬ stopHere B.pk k best (B.key t0) = true)
    (hkids : B.kids t0 = Sum.inr ts) :
    knnBF B k fr best
      = knnBF B k
          (fr' ++ ts.filter (fun t => pushOk B.pk k best (B.key t))) best := by
  rw [knnBF]
  split
  · rename_i heq
    rw [hp] at heq
    exact Option.noConfusion heq
  · rename_i t0' fr'' heq
    rw [hp] at heq
    simp only [Option.some.injEq, Prod.mk.injEq] at heq
    obtain ⟨rfl, rfl⟩ := heq
    rw [if_neg hs]
    split
    · rename_i pts' heq2
      rw [hkids] at heq2
      exact Sum.noConfusion heq2
    · rename_i ts' heq2
      rw [hkids] at heq2
      simp only [Sum.inr.injEq] at heq2
      rw [heq2]

end BFLemmas

/-- Correctness of the generic best-first kNN search: starting from a `k`-best
of already-processed points `S`, the search returns a `k`-best of `S` plus
every point stored under the frontier. -/
theorem knnBF_isKBest {d : ℕ} {α τ : Type} [DecidableEq α] (B : BFS d α τ)
    (P : τ → Multiset (Pt d α))
    (hleaf : ∀ t ps, B.kids t = Sum.inl ps → P t = ↑ps)
    (hnode : ∀ t ts, B.kids t = Sum.inr ts → P t = (ts.map P).sum)
    (hkey : ∀ t p, p ∈ P t → B.key t ≤ B.pk p)
    (k : ℕ) (fr : List τ) (best : List (Pt d α)) :
    ∀ S : Multiset (Pt d α), IsKBest B.pk k best S →
      IsKBest B.pk k (knnBF B k fr best) (S + (fr.map P).sum) := by
  induction fr, best using knnBF.induct B k with
  | case1 fr best hp =>
      intro S hb
      have hfr : fr = [] := (pickMin_none _).mp hp
      subst hfr
      rw [knnBF_none B k hp]
      simpa using hb
  | case2 fr best t0 fr' hp hs =>
      intro S hb
      rw [knnBF_stop B k hp hs]
      obtain ⟨hperm, hmin⟩ := pickMin_some _ hp
      obtain ⟨hkle, b, hlast, hblt⟩ := stopHere_eq_true hs
      obtain ⟨hbs, hble, hblen, hbmin⟩ := hb
      have hlenk : best.length = k := by omega
      have hcardS : k ≤ Multiset.card S := by
        have := Multiset.card_le_card hble
        simp only [Multiset.coe_card] at this
        omega
      refine ⟨hbs, le_trans hble (Multiset.le_add_right _ _), ?_, ?_⟩
      · rw [hlenk, Multiset.card_add]
        omega
      · intro a ha y hy
        rw [add_sub_left hble] at hy
        rcases Multiset.mem_add.mp hy with hyS | hyF
        · exact hbmin a ha y hyS
        · obtain ⟨t, htfr, hyP⟩ := mem_listSum.mp hyF
          have h1 : B.key t0 ≤ B.key t := hmin t htfr
          have h2 : B.key t ≤ B.pk y := hkey t y hyP
          have h3 : B.pk a ≤ B.pk b := sorted_le_getLast hbs ha hlast
          linarith
  | case3 fr best t0 fr' hp hs pts hkids ih =>
      intro S hb
      rw [knnBF_leaf B k hp hs hkids]
      obtain ⟨hperm, hmin⟩ := pickMin_some _ hp
      have hbest' := foldl_pushBest_isKBest hb pts
      have hres := ih (↑pts + S) hbest'
      have hFr : (fr.map P).sum = P t0 + (fr'.map P).sum := by
        have hsum := (hperm.map P).sum_eq
        simpa using hsum.symm
      have hPt0 : P t0 = ↑pts := hleaf t0 pts hkids
      have huniv : (↑pts + S) + (fr'.map P).sum = S + (fr.map P).sum := by
        rw [hFr, hPt0]
        ext c
        simp only [Multiset.count_add]
        omega
      rw [← huniv]
      exact hres
  | case4 fr best t0 fr' hp hs ts hkids ih =>
      intro S hb
      rw [knnBF_node B k hp hs hkids]
      obtain ⟨hperm, hmin⟩ := pickMin_some _ hp
      have hres := ih S hb
      set pok : τ → Bool := fun t => pushOk B.pk k best (B.key t) with hpok
      set Dsum : Multiset (Pt d α)
        := ((ts.filter (fun t => !(pok t))).map P).sum with hDsum
      have hFr : (fr.map P).sum = P t0 + (fr'.map P).sum := by
        have hsum := (hperm.map P).sum_eq
        simpa using hsum.symm
      have hPt0 : P t0 = (ts.map P).sum := hnode t0 ts hkids
      have hts_split : (ts.map P).sum
          = ((ts.filter pok).map P).sum + Dsum := by
        have hp2 : List.Perm (ts.filter pok ++ ts.filter (fun t => !(pok t))) ts :=
          List.filter_append_perm _ ts
        have hsum := (hp2.map P).sum_eq
        rw [hDsum]
        rw [List.map_append, List.sum_append] at hsum
        exact hsum.symm
      have huniv : S + (fr.map P).sum
          = (S + (((fr' ++ ts.filter pok).map P).sum)) + Dsum := by
        rw [hFr, hPt0, hts_split, List.map_append, List.sum_append]
        ext c
        simp only [Multiset.count_add]
        omega
      rw [huniv]
      set T' : Multiset (Pt d α) := S + ((fr' ++ ts.filter pok).map P).sum
        with hT'
      -- every point of a discarded subtree is no nearer than anything kept
      have hdisc : ∀ y ∈ Dsum, ∀ a ∈ knnBF B k (fr' ++ ts.filter pok) best,
          B.pk a ≤ B.pk y := by
        intro y hy a ha
        obtain ⟨t, htmem, hyP⟩ := mem_listSum.mp hy
        obtain ⟨htts, htnp⟩ := List.mem_filter.mp htmem
        have hpf : pushOk B.pk k best (B.key t) = false := by
          have := htnp
          rw [hpok] at this
          simpa using this
        obtain ⟨hkle, b, hlast, hble'⟩ := pushOk_eq_false hpf
        have hfull : best.length = k := by
          have := hb.2.2.1
          omega
        have hSle : S ≤ T' := by rw [hT']; exact Multiset.le_add_right _ _
        have hka := kbest_key_le_of_full hSle hres hb hfull
          (fun z hz => sorted_le_getLast hb.1 hz hlast) a ha
        have h2 : B.key t ≤ B.pk y := hkey t y hyP
        linarith
      have hDfull : Dsum ≠ 0 → best.length = k := by
        intro hD0
        obtain ⟨y, hy⟩ := Multiset.exists_mem_of_ne_zero hD0
        obtain ⟨t, htmem, _⟩ := mem_listSum.mp hy
        obtain ⟨_, htnp⟩ := List.mem_filter.mp htmem
        have hpf : pushOk B.pk k best (B.key t) = false := by
          rw [hpok] at htnp
          simpa using htnp
        obtain ⟨hkle, _, _, _⟩ := pushOk_eq_false hpf
        have := hb.2.2.1
        omega
      refine ⟨hres.1, le_trans hres.2.1 (Multiset.le_add_right _ _), ?_, ?_⟩
      · by_cases hD0 : Dsum = 0
        · rw [hD0, add_zero]
          exact hres.2.2.1
        · have hfull := hDfull hD0
          have hcardS : k ≤ Multiset.card S := by
            have := Multiset.card_le_card hb.2.1
            simp only [Multiset.coe_card] at this
            omega
          have hcardT' : k ≤ Multiset.card T' := by
            have : Multiset.card S ≤ Multiset.card T' := by
              rw [hT', Multiset.card_add]
              omega
            omega
          have hlen := hres.2.2.1
          rw [Multiset.card_add]
          omega
      · intro a ha y hy
        rw [add_sub_left hres.2.1] at hy
        rcases Multiset.mem_add.mp hy with hyT | hyD
        · exact hres.2.2.2 a ha y hyT
        · exact hdisc y hyD a ha

/-! ## Quadtree / Octree

One dimension-generic region tree: `d = 2` gives the quadtree (4 children),
`d = 3` the octree (8 children).  A node is either a leaf with a point list
or an internal node with `2^d` children, one per choice of lower/upper half
on each axis.  Nodes do not store their region redundantly; the region is
determined by the root boundary and the path, and is passed down by every
operation. -/

/-- Modelled from the spec: a quad/octree node — "a point list (when leaf)
... or an array of 4/8 child nodes". -/
inductive QNode (d : ℕ) (α : Type) where
  | leaf (pts : List (Pt d α))
  | node (children : (Fin d → Bool) → QNode d α)

/-- The fixed enumeration of the `2^d` children (one per choice of halves
on each axis), in lexicographic order on the per-axis half choices. -/
def childIdxList : (d : ℕ) → List (Fin d → Bool)
  | 0 => [fun i => absurd i.2 (Nat.not_lt_zero _)]
  | d + 1 =>
      (childIdxList d).flatMap
        (fun v => [Fin.cons false v, Fin.cons true v])

theorem mem_childIdxList {d : ℕ} (s : Fin d → Bool) : s ∈ childIdxList d := by
  induction d with
  | zero =>
      simp only [childIdxList, List.mem_singleton]
      funext i
      exact absurd i.2 (Nat.not_lt_zero _)
  | succ d ih =>
      have hs : s = Fin.cons (s 0) (Fin.tail s) := (Fin.cons_self_tail s).symm
      rw [childIdxList, List.mem_flatMap]
      refine ⟨Fin.tail s, ih (Fin.tail s), ?_⟩
      cases hb : s 0 with
      | false => rw [hs, hb]; simp
      | true => rw [hs, hb]; simp

theorem nodup_childIdxList (d : ℕ) : (childIdxList d).Nodup := by
  induction d with
  | zero => simp [childIdxList]
  | succ d ih =>
      rw [childIdxList]
      rw [List.nodup_flatMap]
      refine ⟨?_, ?_⟩
      · intro v _
        simp only [List.nodup_cons, List.mem_singleton, List.not_mem_nil,
          not_false_iff, List.nodup_nil, and_true]
        intro h
        have := congrFun h 0
        simp at this
      · rw [List.pairwise_iff_forall_sublist]
        intro v w hsub
        have hvw : v ≠ w := by
          intro h
          subst h
          exact absurd (hsub.nodup ih) (by simp)
        intro x hx hy
        simp only [List.mem_cons, List.mem_singleton, List.not_mem_nil,
          or_false] at hx hy
        apply hvw
        have htails : ∀ (b : Bool) (u : Fin d → Bool),
            x = Fin.cons b u → Fin.tail x = u := by
          intro b u hxu
          rw [hxu]
          exact Fin.tail_cons (α := fun _ => Bool) b u
        rcases hx with hx | hx <;> rcases hy with hy | hy <;>
          · have h1 := htails _ _ hx
            have h2 := htails _ _ hy
            rw [← h1, ← h2]

/-- Midpoint of a box on one axis. -/
def midB {d : ℕ} (b : Box d) (i : Fin d) : ℚ := (b.lo i + b.hi i) / 2

/-- Modelled from the spec: subdivision "create 4 (quad) or 8 (oct)
children covering the region in equal halves per axis".  The child selected
by `s` takes the upper half on axis `i` iff `s i`. -/
def childBox {d : ℕ} (b : Box d) (s : Fin d → Bool) : Box d where
  lo := fun i => if s i then midB b i else b.lo i
  hi := fun i => if s i then b.hi i else midB b i

/-- A box is valid when its minimum corner is at most its maximum corner. -/
def Box.Valid {d : ℕ} (b : Box d) : Prop := ∀ i, b.lo i ≤ b.hi i

instance {d : ℕ} (b : Box d) : Decidable b.Valid := by
  unfold Box.Valid; infer_instance

theorem childBox_valid {d : ℕ} {b : Box d} (hb : b.Valid)
    (s : Fin d → Bool) : (childBox b s).Valid := by
  intro i
  have := hb i
  simp only [childBox, midB]
  split <;> linarith

/-- The deterministic assignment of a point to a child: upper half on axis
`i` iff the coordinate is at least the midpoint ("each point falls in
exactly one child by the closed-boundary rule — ties are resolved ... in a
fixed order"). -/
def assignChild {d : ℕ} (b : Box d) (c : Coords d) : Fin d → Bool :=
  fun i => decide (midB b i ≤ c i)

theorem memB_childBox_assign {d : ℕ} {b : Box d} {c : Coords d}
    (hc : b.memB c) : (childBox b (assignChild b c)).memB c := by
  intro i
  obtain ⟨hlo, hhi⟩ := hc i
  simp only [childBox, assignChild]
  by_cases h : midB b i ≤ c i
  · rw [if_pos (by simpa using h), if_pos (by simpa using h)]
    exact ⟨h, hhi⟩
  · rw [if_neg (by simpa using h), if_neg (by simpa using h)]
    exact ⟨hlo, le_of_not_le h⟩

theorem memB_of_memB_childBox {d : ℕ} {b : Box d} (hb : b.Valid)
    {s : Fin d → Bool} {c : Coords d} (hc : (childBox b s).memB c) :
    b.memB c := by
  intro i
  obtain ⟨hlo, hhi⟩ := hc i
  have hv := hb i
  simp only [childBox, midB] at hlo hhi
  constructor
  · by_cases h : s i
    · rw [if_pos h] at hlo; simp only [midB] at *; linarith
    · rw [if_neg h] at hlo; exact hlo
  · by_cases h : s i
    · rw [if_pos h] at hhi; exact hhi
    · rw [if_neg h] at hhi; simp only [midB] at *; linarith

/-- Number of nodes and points of a subtree (termination measure). -/
def sizeQ {d : ℕ} {α : Type} : QNode d α → ℕ
  | .leaf pts => 1 + pts.length
  | .node f => 1 + ((childIdxList d).map (fun s => sizeQ (f s))).sum

theorem sizeQ_pos {d : ℕ} {α : Type} (nd : QNode d α) : 0 < sizeQ nd := by
  cases nd <;> simp [sizeQ]

theorem sizeQ_child_sum_lt {d : ℕ} {α : Type}
    (f : (Fin d → Bool) → QNode d α) :
    ((childIdxList d).map (fun s => sizeQ (f s))).sum < sizeQ (.node f) := by
  simp [sizeQ]

/-- All points stored in a subtree, children in the fixed order. -/
def toListQ {d : ℕ} {α : Type} : QNode d α → List (Pt d α)
  | .leaf pts => pts
  | .node f => (childIdxList d).flatMap (fun s => toListQ (f s))

/-- Coercion of a flatMap to a multiset sum. -/
theorem coe_flatMap {β γ : Type} (g : γ → List β) (l : List γ) :
    (↑(l.flatMap g) : Multiset β) = (l.map (fun x => (↑(g x) : Multiset β))).sum := by
  induction l with
  | nil => simp
  | cons x xs ih =>
      simp only [List.flatMap_cons, List.map_cons, List.sum_cons, ← ih]
      rw [← Multiset.coe_add]

/-- Well-formedness of a quad/octree subtree under a region: the region is a
valid box, leaf points lie inside it, and children are well-formed under
their sub-regions.  This is the spec's containment invariant ("every stored
point lies inside the root boundary", refined along subdivisions). -/
def wfQ {d : ℕ} {α : Type} : Box d → QNode d α → Bool
  | b, .leaf pts => decide b.Valid && pts.all (fun p => decide (b.memB p.coords))
  | b, .node f => decide b.Valid &&
      (childIdxList d).all (fun s => wfQ (childBox b s) (f s))

theorem wfQ_valid {d : ℕ} {α : Type} {b : Box d} {nd : QNode d α}
    (h : wfQ b nd = true) : b.Valid := by
  cases nd <;> · rw [wfQ, Bool.and_eq_true] at h; exact of_decide_eq_true h.1

theorem wfQ_leaf_mem {d : ℕ} {α : Type} {b : Box d} {pts : List (Pt d α)}
    (h : wfQ b (.leaf pts) = true) : ∀ p ∈ pts, b.memB p.coords := by
  rw [wfQ, Bool.and_eq_true, List.all_eq_true] at h
  intro p hp
  exact of_decide_eq_true (h.2 p hp)

theorem wfQ_child {d : ℕ} {α : Type} {b : Box d}
    {f : (Fin d → Bool) → QNode d α} (h : wfQ b (.node f) = true)
    (s : Fin d → Bool) : wfQ (childBox b s) (f s) = true := by
  rw [wfQ, Bool.and_eq_true, List.all_eq_true] at h
  exact h.2 s (mem_childIdxList s)

/-- Containment: every stored point of a well-formed subtree lies inside
the subtree's region. -/
theorem wfQ_mem {d : ℕ} {α : Type} :
    ∀ {nd : QNode d α} {b : Box d}, wfQ b nd = true →
      ∀ p ∈ toListQ nd, b.memB p.coords := by
  intro nd
  induction nd with
  | leaf pts => intro b h p hp; exact wfQ_leaf_mem h p (by simpa [toListQ] using hp)
  | node f ih =>
      intro b h p hp
      rw [toListQ, List.mem_flatMap] at hp
      obtain ⟨s, _, hps⟩ := hp
      have hchild := wfQ_child h s
      exact memB_of_memB_childBox (wfQ_valid h) (ih s hchild p hps)

/-- The frontier elements of the quad/octree best-first search: a region
paired with a well-formed subtree. -/
abbrev QS (d : ℕ) (α : Type) := {x : Box d × QNode d α // wfQ x.1 x.2 = true}

/-- Children of a frontier element. -/
def qKids {d : ℕ} {α : Type} (t : QS d α) :
    List (Pt d α) ⊕ List (QS d α) :=
  match ht : t.1.2 with
  | .leaf pts => Sum.inl pts
  | .node f =>
      Sum.inr ((childIdxList d).map (fun s =>
        ⟨(childBox t.1.1 s, f s), wfQ_child (ht ▸ t.2) s⟩))

theorem qKids_leaf {d : ℕ} {α : Type} (b : Box d) (pts : List (Pt d α)) (h) :
    qKids (d := d) (α := α) ⟨(b, .leaf pts), h⟩ = Sum.inl pts := rfl

theorem qKids_node {d : ℕ} {α : Type} (b : Box d)
    (f : (Fin d → Bool) → QNode d α) (h) :
    qKids (d := d) (α := α) ⟨(b, .node f), h⟩
      = Sum.inr ((childIdxList d).map (fun s =>
          ⟨(childBox b s, f s), wfQ_child h s⟩)) := rfl

/-- Modelled from the spec: the quad/octree kNN search is the best-first
traversal with a min-heap keyed by `min_distance(region, q)` (here in its
squared form) and a bounded max-heap of the `k` nearest points. -/
def qBFS (d : ℕ) (α : Type) (q : Coords d) : BFS d α (QS d α) where
  pk := fun p => d2 q p.coords
  key := fun t => minD2 t.1.1 q
  kids := qKids
  sz := fun t => sizeQ t.1.2
  sz_pos := fun t => sizeQ_pos _
  sz_kids := by
    intro t ts hts
    obtain ⟨⟨b, nd⟩, hwf⟩ := t
    cases nd with
    | leaf pts => rw [qKids_leaf] at hts; exact Sum.noConfusion hts
    | node f =>
        rw [qKids_node] at hts
        simp only [Sum.inr.injEq] at hts
        subst hts
        simp only [List.map_map]
        have := sizeQ_child_sum_lt f
        simpa [Function.comp] using this

/-- The points under a frontier element. -/
def qP {d : ℕ} {α : Type} (t : QS d α) : Multiset (Pt d α) :=
  ↑(toListQ t.1.2)

theorem qP_leaf {d : ℕ} {α : Type} (t : QS d α) (ps : List (Pt d α))
    (h : qKids t = Sum.inl ps) : qP t = ↑ps := by
  obtain ⟨⟨b, nd⟩, hwf⟩ := t
  cases nd with
  | leaf pts =>
      rw [qKids_leaf] at h
      simp only [Sum.inl.injEq] at h
      subst h
      rfl
  | node f => rw [qKids_node] at h; exact Sum.noConfusion h

theorem qP_node {d : ℕ} {α : Type} (t : QS d α) (ts : List (QS d α))
    (h : qKids t = Sum.inr ts) : qP t = (ts.map qP).sum := by
  obtain ⟨⟨b, nd⟩, hwf⟩ := t
  cases nd with
  | leaf pts => rw [qKids_leaf] at h; exact Sum.noConfusion h
  | node f =>
      rw [qKids_node] at h
      simp only [Sum.inr.injEq] at h
      subst h
      show (↑(toListQ (.node f)) : Multiset (Pt d α)) = _
      rw [toListQ, coe_flatMap]
      simp only [List.map_map]
      rfl

theorem qP_key {d : ℕ} {α : Type} (q : Coords d) (t : QS d α)
    (p : Pt d α) (hp : p ∈ qP t) :
    (qBFS d α q).key t ≤ (qBFS d α q).pk p := by
  have hmem : p ∈ toListQ t.1.2 := by simpa [qP] using hp
  have hin : t.1.1.memB p.coords := wfQ_mem t.2 p hmem
  exact minD2_le_d2 q hin

/-- Modelled from the spec: a quadtree/octree — root boundary, leaf
capacity, root node. -/
structure QTree (d : ℕ) (α : Type) where
  box : Box d
  cap : ℕ
  root : QNode d α

/-- Modelled from the spec: `knn_search(q, k)` for the quad/octree. -/
def QTree.knn_search {d : ℕ} {α : Type} [DecidableEq α] (t : QTree d α)
    (q : Coords d) (k : ℕ) : List (Pt d α) :=
  if h : wfQ t.box t.root = true then
    knnBF (qBFS d α q) k [⟨(t.box, t.root), h⟩] []
  else []

/-- All points stored in the tree, in traversal order. -/
def QTree.toList {d : ℕ} {α : Type} (t : QTree d α) : List (Pt d α) :=
  toListQ t.root

theorem QTree.knn_search_isKBestQ {d : ℕ} {α : Type} [DecidableEq α]
    (t : QTree d α) (h : wfQ t.box t.root = true) (q : Coords d) (k : ℕ) :
    IsKBest (fun p => d2 q p.coords) k (t.knn_search q k) ↑t.toList := by
  unfold QTree.knn_search
  rw [dif_pos h]
  have hmain := knnBF_isKBest (qBFS d α q) qP
    (fun t ps hk => qP_leaf t ps hk)
    (fun t ts hk => qP_node t ts hk)
    (fun t p hp => qP_key q t p hp)
    k [⟨(t.box, t.root), h⟩] [] 0 (isKBest_nil _ _)
  simpa [qP, QTree.toList] using hmain

/-- Modelled from the spec: quad/octree range search — depth-first descent
into children whose region intersects the closed ball (the intersection
test is `min_distance² ≤ r²`), collecting leaf points within distance. -/
def rangeQ {d : ℕ} {α : Type} (q : Coords d) (r : ℚ) :
    Box d → QNode d α → List (Pt d α)
  | _, .leaf pts => pts.filter (fun p => decide (d2 q p.coords ≤ r * r))
  | b, .node f =>
      (childIdxList d).flatMap (fun s =>
        if minD2 (childBox b s) q ≤ r * r then rangeQ q r (childBox b s) (f s)
        else [])

/-- Range search on a well-formed subtree returns exactly the stored points
within the (squared) radius, in traversal order. -/
theorem rangeQ_eq_filter {d : ℕ} {α : Type} (q : Coords d) (r : ℚ) :
    ∀ {nd : QNode d α} {b : Box d}, wfQ b nd = true →
      rangeQ q r b nd
        = (toListQ nd).filter (fun p => decide (d2 q p.coords ≤ r * r)) := by
  intro nd
  induction nd with
  | leaf pts => intro b _; rfl
  | node f ih =>
      intro b h
      rw [rangeQ, toListQ, List.filter_flatMap]
      refine List.flatMap_congr ?_
      intro s hs
      by_cases hcut : minD2 (childBox b s) q ≤ r * r
      · rw [if_pos hcut]
        exact ih s (wfQ_child h s)
      · rw [if_neg hcut]
        symm
        rw [List.filter_eq_nil_iff]
        intro p hp
        have hmem := wfQ_mem (wfQ_child h s) p hp
        have := minD2_le_d2 q hmem
        simp only [decide_eq_true_eq]
        intro hle
        exact hcut (le_trans this hle)

/-- Modelled from the spec: `range_search(q, r)` for the quad/octree. -/
def QTree.range_search {d : ℕ} {α : Type} (t : QTree d α) (q : Coords d)
    (r : ℚ) : List (Pt d α) :=
  rangeQ q r t.box t.root

/-- Summing an `if`-selector over a duplicate-free list that contains the
selected index yields the selected value. -/
theorem sum_map_ite_eq {ι : Type} [DecidableEq ι] (a : ι) (C : ℕ) :
    ∀ {js : List ι}, js.Nodup → a ∈ js →
      (js.map (fun s => if a = s then C else 0)).sum = C := by
  intro js
  induction js with
  | nil => intro _ h; simp at h
  | cons j js ih =>
      intro hnd hmem
      rw [List.nodup_cons] at hnd
      by_cases hja : a = j
      · subst hja
        simp only [List.map_cons, List.sum_cons, if_true]
        have hz : (js.map (fun s => if a = s then C else 0)).sum = 0 := by
          rw [List.sum_eq_zero]
          intro x hx
          obtain ⟨s, hs, rfl⟩ := List.mem_map.mp hx
          rw [if_neg]
          intro h
          exact hnd.1 (h ▸ hs)
        rw [hz]
        omega
      · rcases List.mem_cons.mp hmem with rfl | hmem'
        · exact absurd rfl hja
        · simp only [List.map_cons, List.sum_cons]
          rw [if_neg hja, ih hnd.2 hmem']
          omega

/-- Redistribution is a permutation: grouping a list by a selector over a
complete duplicate-free index list loses and duplicates nothing. -/
theorem partition_perm {β ι : Type} [DecidableEq β] [DecidableEq ι]
    (g : β → ι) (l : List β) {idx : List ι} (hnd : idx.Nodup)
    (hmem : ∀ x : β, g x ∈ idx) :
    List.Perm (idx.flatMap (fun s => l.filter (fun x => decide (g x = s)))) l := by
  rw [List.perm_iff_count]
  intro y
  have hc : ∀ (js : List ι),
      (js.flatMap (fun s => l.filter (fun x => decide (g x = s)))).count y
        = (js.map (fun s =>
            (l.filter (fun x => decide (g x = s))).count y)).sum := by
    intro js
    induction js with
    | nil => simp
    | cons j js ihj =>
        simp only [List.flatMap_cons, List.count_append, List.map_cons,
          List.sum_cons, ihj]
  rw [hc]
  have hcf : ∀ s, (l.filter (fun x => decide (g x = s))).count y
      = if g y = s then l.count y else 0 := by
    intro s
    by_cases h : g y = s
    · rw [if_pos h, List.count_filter (by simpa using h)]
    · rw [if_neg h, List.count_eq_zero]
      intro hmemf
      exact h (by simpa using (List.mem_filter.mp hmemf).2)
  simp only [hcf]
  exact sum_map_ite_eq (g y) (l.count y) hnd (hmem y)

/-- Replacing one child's multiset in a sum over a duplicate-free complete
index list exchanges exactly that contribution. -/
theorem sum_map_update {ι β : Type} [DecidableEq ι] [DecidableEq β]
    (F : ι → Multiset β) (s : ι) (X : Multiset β) :
    ∀ {idx : List ι}, idx.Nodup → s ∈ idx →
      (idx.map (fun j => if j = s then X else F j)).sum + F s
        = (idx.map F).sum + X := by
  intro idx
  induction idx with
  | nil => intro _ h; simp at h
  | cons j js ih =>
      intro hnd hmem
      rw [List.nodup_cons] at hnd
      by_cases hjs : j = s
      · subst hjs
        have hrest : ∀ j' ∈ js, (if j' = j then X else F j') = F j' := by
          intro j' hj'
          rw [if_neg]
          intro h
          exact hnd.1 (h ▸ hj')
        have hhead : (if j = j then X else F j) = X := if_pos rfl
        rw [List.map_cons, List.map_cons, List.sum_cons, List.sum_cons,
          hhead, List.map_congr_left hrest]
        ext c
        simp only [Multiset.count_add]
        omega
      · rcases List.mem_cons.mp hmem with rfl | hmem'
        · exact absurd rfl hjs
        · simp only [List.map_cons, List.sum_cons, if_neg hjs]
          have := ih hnd.2 hmem'
          ext c
          have hcc := congrArg (Multiset.count c) this
          simp only [Multiset.count_add] at hcc ⊢
          omega

/-- The multiset of points of a node with one child replaced. -/
theorem toListQ_update {d : ℕ} {α : Type} [DecidableEq α] (f : (Fin d → Bool) → QNode d α)
    (s : Fin d → Bool) (c' : QNode d α) :
    (↑(toListQ (.node (Function.update f s c'))) : Multiset (Pt d α))
        + ↑(toListQ (f s))
      = ↑(toListQ (.node f)) + ↑(toListQ c') := by
  rw [toListQ, toListQ, coe_flatMap, coe_flatMap]
  have hcongr : (childIdxList d).map
        (fun x => (↑(toListQ (Function.update f s c' x)) : Multiset (Pt d α)))
      = (childIdxList d).map
        (fun j => if j = s then (↑(toListQ c') : Multiset (Pt d α))
          else ↑(toListQ (f j))) := by
    refine List.map_congr_left ?_
    intro j _
    by_cases hj : j = s
    · subst hj; rw [Function.update_same, if_pos rfl]
    · rw [Function.update_noteq hj, if_neg hj]
  rw [hcongr]
  exact sum_map_update (F := fun j => (↑(toListQ (f j)) : Multiset (Pt d α))) s
    (↑(toListQ c')) (nodup_childIdxList d) (mem_childIdxList s)

/-- Modelled from the spec: quad/octree insertion.  "If the point is not
inside the node's region, return false.  Otherwise, if the node is a leaf
with spare capacity, append.  If the node is a full leaf, subdivide,
redistribute the points to their (deterministically chosen) children and
recurse.  For an internal node, recurse into the child that contains the
point."  The subdivision recursion has no structural bound, so a depth
budget `fuel` is consumed at every descent; `none` reports exhaustion. -/
def insertQAux {d : ℕ} {α : Type} [DecidableEq α] (cap : ℕ) :
    ℕ → Box d → QNode d α → Pt d α → Option (QNode d α × Bool)
  | 0, _, _, _ => none
  | fuel + 1, b, nd, p =>
      if b.memB p.coords then
        match nd with
        | .leaf pts =>
            if pts.length < cap then some (.leaf (pts ++ [p]), true)
            else
              insertQAux cap fuel b
                (.node fun s =>
                  .leaf (pts.filter fun x => decide (assignChild b x.coords = s)))
                p
        | .node f =>
            match insertQAux cap fuel
                (childBox b (assignChild b p.coords))
                (f (assignChild b p.coords)) p with
            | none => none
            | some (c', ok) =>
                some (.node (Function.update f (assignChild b p.coords) c'), ok)
      else some (nd, false)

/-- Out-of-region insertion returns `false` and leaves the node unchanged. -/
theorem insertQAux_outside {d : ℕ} {α : Type} [DecidableEq α] (cap : ℕ)
    {fuel : ℕ} (hf : fuel ≠ 0) (b : Box d) (nd : QNode d α) (p : Pt d α)
    (h : ¬ b.memB p.coords) : insertQAux cap fuel b nd p = some (nd, false) := by
  cases fuel with
  | zero => exact absurd rfl hf
  | succ fuel =>
      rw [insertQAux.eq_def]
      dsimp only
      rw [if_neg h]

/-- The subdivision of a full leaf is well-formed. -/
theorem wfQ_subdivide {d : ℕ} {α : Type} {b : Box d} {pts : List (Pt d α)}
    (h : wfQ b (.leaf pts) = true) :
    wfQ b (QNode.node fun s =>
      .leaf (pts.filter fun x => decide (assignChild b x.coords = s))) = true := by
  have hval := wfQ_valid h
  have hmem := wfQ_leaf_mem h
  rw [wfQ, Bool.and_eq_true, List.all_eq_true]
  refine ⟨decide_eq_true hval, ?_⟩
  intro s _
  rw [wfQ, Bool.and_eq_true, List.all_eq_true]
  refine ⟨decide_eq_true (childBox_valid hval s), ?_⟩
  intro p hp
  rw [List.mem_filter] at hp
  obtain ⟨hpl, hps⟩ := hp
  have hsame : assignChild b p.coords = s := of_decide_eq_true hps
  rw [decide_eq_true_eq, ← hsame]
  exact memB_childBox_assign (hmem p hpl)

/-- The subdivision of a leaf stores the same multiset of points. -/
theorem toListQ_subdivide {d : ℕ} {α : Type} [DecidableEq α] (b : Box d)
    (pts : List (Pt d α)) :
    (↑(toListQ (QNode.node fun s =>
        .leaf (pts.filter fun x => decide (assignChild b x.coords = s))))
      : Multiset (Pt d α)) = ↑pts := by
  rw [toListQ]
  rw [Multiset.coe_eq_coe]
  have := partition_perm (fun x : Pt d α => assignChild b x.coords) pts
    (nodup_childIdxList d) (fun x => mem_childIdxList _)
  simpa [toListQ] using this

/-- Effects of a successful (non-exhausted) insertion: well-formedness is
preserved, a `true` result means the point was inside and now stored once
more, a `false` result means the point was outside and nothing changed. -/
theorem insertQAux_spec {d : ℕ} {α : Type} [DecidableEq α] (cap : ℕ)
    (p : Pt d α) :
    ∀ (fuel : ℕ) {b : Box d} {nd nd' : QNode d α} {ok : Bool},
      wfQ b nd = true → insertQAux cap fuel b nd p = some (nd', ok) →
      wfQ b nd' = true ∧
        (ok = true → b.memB p.coords ∧
          (↑(toListQ nd') : Multiset (Pt d α)) = p ::ₘ ↑(toListQ nd)) ∧
        (ok = false → ¬ b.memB p.coords ∧ nd' = nd) := by
  intro fuel
  induction fuel with
  | zero =>
      intro b nd nd' ok _ h
      rw [insertQAux.eq_def] at h
      dsimp only at h
      exact Option.noConfusion h
  | succ fuel ih =>
      intro b nd nd' ok hwf h
      rw [insertQAux.eq_def] at h
      dsimp only at h
      by_cases hin : b.memB p.coords
      · rw [if_pos hin] at h
        cases nd with
        | leaf pts =>
            dsimp only at h
            by_cases hlen : pts.length < cap
            · rw [if_pos hlen] at h
              simp only [Option.some.injEq, Prod.mk.injEq] at h
              obtain ⟨rfl, rfl⟩ := h
              refine ⟨?_, fun _ => ⟨hin, ?_⟩, fun hf => by simp at hf⟩
              · rw [wfQ, Bool.and_eq_true, List.all_eq_true]
                refine ⟨decide_eq_true (wfQ_valid hwf), ?_⟩
                intro x hx
                rcases List.mem_append.mp hx with hx | hx
                · exact decide_eq_true (wfQ_leaf_mem hwf x hx)
                · rw [List.mem_singleton] at hx
                  subst hx
                  exact decide_eq_true hin
              · show (↑(pts ++ [p]) : Multiset (Pt d α)) = p ::ₘ ↑pts
                ext c
                simp only [← Multiset.coe_add, Multiset.count_add,
                  Multiset.count_cons]
                split <;> simp_all [Multiset.coe_count]
            · rw [if_neg hlen] at h
              have hsub := wfQ_subdivide hwf
              obtain ⟨hwf', hok, hnok⟩ := ih hsub h
              refine ⟨hwf', fun ht => ⟨hin, ?_⟩, fun hf => ?_⟩
              · obtain ⟨_, heq⟩ := hok ht
                rw [heq, toListQ_subdivide]
                rfl
              · exact absurd hin (hnok hf).1
        | node f =>
            dsimp only at h
            cases hrec : insertQAux cap fuel
                (childBox b (assignChild b p.coords))
                (f (assignChild b p.coords)) p with
            | none => rw [hrec] at h; exact Option.noConfusion h
            | some r =>
                obtain ⟨c', ok'⟩ := r
                rw [hrec] at h
                simp only [Option.some.injEq, Prod.mk.injEq] at h
                obtain ⟨rfl, rfl⟩ := h
                have hchild := wfQ_child hwf (assignChild b p.coords)
                obtain ⟨hwf', hok, hnok⟩ := ih hchild hrec
                have hoktrue : ok' = true := by
                  by_contra hne
                  have hf : ok' = false := by
                    cases ok'
                    · rfl
                    · exact absurd rfl hne
                  have := (hnok hf).1
                  exact this (memB_childBox_assign hin)
                subst hoktrue
                refine ⟨?_, fun _ => ⟨hin, ?_⟩, fun hf => by simp at hf⟩
                · rw [wfQ, Bool.and_eq_true, List.all_eq_true]
                  refine ⟨decide_eq_true (wfQ_valid hwf), ?_⟩
                  intro s _
                  by_cases hs : s = assignChild b p.coords
                  · subst hs
                    rw [Function.update_same]
                    exact hwf'
                  · rw [Function.update_noteq hs]
                    exact wfQ_child hwf s
                · obtain ⟨_, heq⟩ := hok rfl
                  have hupd := toListQ_update f (assignChild b p.coords) c'
                  rw [heq] at hupd
                  ext c
                  have hc := congrArg (Multiset.count c) hupd
                  simp only [Multiset.count_add, Multiset.count_cons] at hc ⊢
                  by_cases hcp : c = p
                  · simp only [if_pos hcp] at hc ⊢
                    omega
                  · simp only [if_neg hcp] at hc ⊢
                    omega
      · rw [if_neg hin] at h
        simp only [Option.some.injEq, Prod.mk.injEq] at h
        obtain ⟨rfl, rfl⟩ := h
        exact ⟨hwf, fun ht => by simp at ht, fun _ => ⟨hin, rfl⟩⟩

/-- Modelled from the spec: quad/octree deletion — "locate a point with
equal coordinates and equal payload (first match wins in leaf scan order);
remove it.  No node-merging is performed".  Children are scanned in the
fixed order; the first child whose region contains the coordinates and
from which a matching point can be removed performs the removal. -/
def deleteQ {d : ℕ} {α : Type} [DecidableEq α] :
    Box d → QNode d α → Pt d α → QNode d α × Bool
  | _, .leaf pts, p =>
      if p ∈ pts then (.leaf (pts.erase p), true) else (.leaf pts, false)
  | b, .node f, p =>
      match (childIdxList d).filter
          (fun s => decide ((childBox b s).memB p.coords)
            && (deleteQ (childBox b s) (f s) p).2) with
      | [] => (.node f, false)
      | s :: _ =>
          (.node (Function.update f s (deleteQ (childBox b s) (f s) p).1), true)

theorem deleteQ_spec {d : ℕ} {α : Type} [DecidableEq α] :
    ∀ {nd : QNode d α} {b : Box d} {p : Pt d α}, wfQ b nd = true →
      wfQ b (deleteQ b nd p).1 = true ∧
      ((deleteQ b nd p).2 = true ↔ p ∈ toListQ nd) ∧
      ((deleteQ b nd p).2 = true →
        (↑(toListQ (deleteQ b nd p).1) : Multiset (Pt d α))
          = (↑(toListQ nd) : Multiset (Pt d α)).erase p) ∧
      ((deleteQ b nd p).2 = false → (deleteQ b nd p).1 = nd) := by
  intro nd
  induction nd with
  | leaf pts =>
      intro b p hwf
      rw [deleteQ]
      by_cases hp : p ∈ pts
      · rw [if_pos hp]
        refine ⟨?_, by simpa [toListQ] using hp, ?_, by simp⟩
        · rw [wfQ, Bool.and_eq_true, List.all_eq_true]
          refine ⟨decide_eq_true (wfQ_valid hwf), ?_⟩
          intro x hx
          exact decide_eq_true
            (wfQ_leaf_mem hwf x (List.mem_of_mem_erase hx))
        · intro _
          show (↑(pts.erase p) : Multiset (Pt d α)) = _
          rw [← Multiset.coe_erase]
          rfl
      · rw [if_neg hp]
        exact ⟨hwf, by simpa [toListQ] using hp, by simp, fun _ => rfl⟩
  | node f ih =>
      intro b p hwf
      rw [deleteQ]
      cases hL : (childIdxList d).filter
          (fun s => decide ((childBox b s).memB p.coords)
            && (deleteQ (childBox b s) (f s) p).2) with
      | nil =>
          refine ⟨hwf, ?_, by simp, fun _ => rfl⟩
          simp only [false_iff]
          constructor
          · simp
          · intro hmem
            rw [toListQ, List.mem_flatMap] at hmem
            obtain ⟨s, _, hps⟩ := hmem
            have hchild := wfQ_child hwf s
            have hbox : (childBox b s).memB p.coords := wfQ_mem hchild p hps
            have hdel : (deleteQ (childBox b s) (f s) p).2 = true :=
              (ih s hchild).2.1.mpr hps
            have hsL : s ∈ (childIdxList d).filter
                (fun s => decide ((childBox b s).memB p.coords)
                  && (deleteQ (childBox b s) (f s) p).2) := by
              rw [List.mem_filter]
              exact ⟨mem_childIdxList s,
                by rw [hdel, decide_eq_true hbox]; rfl⟩
            rw [hL] at hsL
            simp at hsL
      | cons s rest =>
          dsimp only
          have hsL : s ∈ (childIdxList d).filter
              (fun s => decide ((childBox b s).memB p.coords)
                && (deleteQ (childBox b s) (f s) p).2) := by
            rw [hL]; exact List.mem_cons_self s rest
          rw [List.mem_filter, Bool.and_eq_true] at hsL
          obtain ⟨_, _, hdel2⟩ := hsL
          have hchild := wfQ_child hwf s
          obtain ⟨ihwf, ihiff, iheff, _⟩ := ih s hchild
          have hmemchild : p ∈ toListQ (f s) := ihiff.mp hdel2
          refine ⟨?_, ?_, ?_, by simp⟩
          · rw [wfQ, Bool.and_eq_true, List.all_eq_true]
            refine ⟨decide_eq_true (wfQ_valid hwf), ?_⟩
            intro j _
            by_cases hj : j = s
            · subst hj
              rw [Function.update_same]
              exact ihwf
            · rw [Function.update_noteq hj]
              exact wfQ_child hwf j
          · simp only [true_iff]
            rw [toListQ, List.mem_flatMap]
            exact ⟨s, mem_childIdxList s, hmemchild⟩
          · intro _
            have heff := iheff hdel2
            have hupd := toListQ_update f s (deleteQ (childBox b s) (f s) p).1
            rw [heff] at hupd
            have hcnt : 0 < Multiset.count p (↑(toListQ (f s)) : Multiset (Pt d α)) :=
              Multiset.count_pos.mpr (by simpa using hmemchild)
            ext c
            have hc := congrArg (Multiset.count c) hupd
            simp only [Multiset.count_add] at hc
            by_cases hcp : c = p
            · subst hcp
              rw [Multiset.count_erase_self] at hc ⊢
              omega
            · rw [Multiset.count_erase_of_ne hcp] at hc ⊢
              omega

/-- Modelled from the spec: inserting yet another copy of a coordinate that
already fills a leaf to capacity never terminates — subdivision sends all
coincident points (and the newcomer) to the same child forever.  In the
fuelled embedding, no fuel budget suffices. -/
theorem insertQAux_coincident_none {d : ℕ} {α : Type} [DecidableEq α]
    (cap : ℕ) : ∀ (fuel : ℕ) (b : Box d) (pts : List (Pt d α)) (p : Pt d α),
      b.memB p.coords → (∀ x ∈ pts, x.coords = p.coords) →
      cap ≤ pts.length → insertQAux cap fuel b (.leaf pts) p = none := by
  intro fuel
  induction fuel using Nat.strong_induction_on with
  | _ fuel ih =>
      intro b pts p hin hco hlen
      match fuel with
      | 0 => rw [insertQAux.eq_def]
      | 1 =>
          rw [insertQAux.eq_def]
          dsimp only
          rw [if_pos hin, if_neg (by omega)]
          rw [insertQAux.eq_def]
      | (m + 1) + 1 =>
          rw [insertQAux.eq_def]
          dsimp only
          rw [if_pos hin, if_neg (by omega)]
          rw [insertQAux.eq_def]
          dsimp only
          rw [if_pos hin]
          have hfilter : pts.filter
              (fun x => decide (assignChild b x.coords = assignChild b p.coords))
              = pts := by
            rw [List.filter_eq_self]
            intro x hx
            rw [hco x hx]
            simp
          have hrec := ih m (by omega) (childBox b (assignChild b p.coords))
            pts p (memB_childBox_assign hin) hco hlen
          rw [hfilter, hrec]

/-- Modelled from the spec: `insert(p)` for the quad/octree (with a depth
budget; `none` = budget exhausted, otherwise the updated tree and whether
the point was stored). -/
def QTree.insert {d : ℕ} {α : Type} [DecidableEq α] (t : QTree d α)
    (fuel : ℕ) (p : Pt d α) : Option (QTree d α × Bool) :=
  match insertQAux t.cap fuel t.box t.root p with
  | none => none
  | some (nd, ok) => some (⟨t.box, t.cap, nd⟩, ok)

/-- Modelled from the spec: `delete(p)` for the quad/octree. -/
def QTree.delete {d : ℕ} {α : Type} [DecidableEq α] (t : QTree d α)
    (p : Pt d α) : QTree d α × Bool :=
  (⟨t.box, t.cap, (deleteQ t.box t.root p).1⟩, (deleteQ t.box t.root p).2)

/-- Modelled from the spec: `insert_bulk(ps)` for the quad/octree; the spec
gives no special bulk algorithm for this family, so the points are inserted
sequentially. -/
def QTree.insert_bulk {d : ℕ} {α : Type} [DecidableEq α] (t : QTree d α)
    (fuel : ℕ) (ps : List (Pt d α)) : Option (QTree d α) :=
  ps.foldlM (fun acc p => (acc.insert fuel p).map Prod.fst) t

/-- The number of stored points. -/
def QTree.population {d : ℕ} {α : Type} (t : QTree d α) : ℕ :=
  t.toList.length

/-- Modelled from the spec: the construction-time boundary descriptor
`{x, y, [z,] width, height, [depth]}`. -/
structure Bdry (d : ℕ) where
  pos : Coords d
  size : Coords d

/-- The region described by a boundary descriptor. -/
def Bdry.toBox {d : ℕ} (bd : Bdry d) : Box d :=
  ⟨bd.pos, fun i => bd.pos i + bd.size i⟩

/-- Modelled from the spec: a point `(px, py[, pz])` is inside the boundary
iff `x ≤ px ≤ x + width`, and analogously on each other axis. -/
def Bdry.insideB {d : ℕ} (bd : Bdry d) (c : Coords d) : Prop :=
  ∀ i, bd.pos i ≤ c i ∧ c i ≤ bd.pos i + bd.size i

theorem Bdry.insideB_iff_memB {d : ℕ} (bd : Bdry d) (c : Coords d) :
    bd.insideB c ↔ bd.toBox.memB c := Iff.rfl

/-- A boundary descriptor is malformed when some extent is non-positive. -/
def Bdry.Wellformed {d : ℕ} (bd : Bdry d) : Prop := ∀ i, 0 < bd.size i

instance {d : ℕ} (bd : Bdry d) : Decidable bd.Wellformed := by
  unfold Bdry.Wellformed; infer_instance

/-- Modelled from the spec: quad/octree construction — "capacity `C ≥ 1`
... `C = 0` is rejected at construction"; a malformed boundary descriptor
(non-positive width/height/depth) is an `InvalidArgument` error; otherwise
a new empty tree with the given root region. -/
def mkQuadOct (d : ℕ) (α : Type) (bd : Bdry d) (cap : ℕ) :
    Except String (QTree d α) :=
  if cap = 0 then .error "InvalidArgument: capacity must be positive"
  else if ¬ bd.Wellformed then .error "InvalidArgument: malformed boundary"
  else .ok ⟨bd.toBox, cap, .leaf []⟩

theorem mkQuadOct_wf {d : ℕ} {α : Type} {bd : Bdry d} {cap : ℕ}
    {t : QTree d α} (h : mkQuadOct d α bd cap = .ok t) :
    wfQ t.box t.root = true ∧ t.toList = [] ∧ t.cap = cap ∧ 1 ≤ cap := by
  unfold mkQuadOct at h
  by_cases h1 : cap = 0
  · rw [if_pos h1] at h; exact Except.noConfusion h
  · rw [if_neg h1] at h
    by_cases h2 : ¬ bd.Wellformed
    · rw [if_pos h2] at h; exact Except.noConfusion h
    · rw [if_neg h2] at h
      push_neg at h2
      simp only [Except.ok.injEq] at h
      subst h
      refine ⟨?_, rfl, rfl, by omega⟩
      rw [wfQ, Bool.and_eq_true]
      refine ⟨decide_eq_true ?_, by simp⟩
      intro i
      have := h2 i
      simp only [Bdry.toBox]
      linarith

/-! ## K-d tree

A binary space-partitioning tree; the splitting axis at depth `dep` is
`dep mod d`.  One dimension-generic structure covers `KdTree2D` (`d = 2`)
and `KdTree3D` (`d = 3`). -/

/-- Modelled from the spec: a k-d tree node stores a point and two
children; the splitting axis is implied by the depth. -/
inductive KNode (d : ℕ) (α : Type) where
  | nil
  | node (pt : Pt d α) (l r : KNode d α)

/-- Coordinate on the splitting axis for depth `a` (axis `a mod d`). -/
def cAt {d : ℕ} (c : Coords d) (a : ℕ) : ℚ :=
  if h : 0 < d then c ⟨a % d, Nat.mod_lt a h⟩ else 0

/-- One axis term never exceeds the full squared distance. -/
theorem sq_cAt_le_d2 {d : ℕ} (q p : Coords d) (a : ℕ) :
    (cAt q a - cAt p a) ^ 2 ≤ d2 q p := by
  unfold cAt
  by_cases h : 0 < d
  · rw [dif_pos h, dif_pos h]
    exact Finset.single_le_sum (f := fun i => (q i - p i) ^ 2)
      (fun i _ => sq_nonneg _) (Finset.mem_univ _)
  · rw [dif_neg h, dif_neg h]
    simpa using d2_nonneg q p

/-- Stored points of a k-d subtree, in node-left-right traversal order. -/
def toListK {d : ℕ} {α : Type} : KNode d α → List (Pt d α)
  | .nil => []
  | .node c l r => c :: (toListK l ++ toListK r)

/-- Modelled from the spec: single-point k-d insertion — "standard binary
descent.  Equal coordinate on split axis goes right." -/
def insertK {d : ℕ} {α : Type} : KNode d α → ℕ → Pt d α → KNode d α
  | .nil, _, p => .node p .nil .nil
  | .node c l r, dep, p =>
      if cAt p.coords dep < cAt c.coords dep then
        .node c (insertK l (dep + 1) p) r
      else
        .node c l (insertK r (dep + 1) p)

/-- The k-d tree invariant maintained by single-point insertion and by
deletion: at depth `dep`, the left subtree is strictly less than the node
on the splitting axis, the right subtree is greater or equal. -/
def wfK {d : ℕ} {α : Type} : KNode d α → ℕ → Prop
  | .nil, _ => True
  | .node c l r, dep =>
      (∀ x ∈ toListK l, cAt x.coords dep < cAt c.coords dep) ∧
      (∀ x ∈ toListK r, cAt c.coords dep ≤ cAt x.coords dep) ∧
      wfK l (dep + 1) ∧ wfK r (dep + 1)

/-- The weaker half-space invariant (non-strict on the left) that the
median bulk build guarantees and that all searches rely on. -/
def wfKw {d : ℕ} {α : Type} : KNode d α → ℕ → Prop
  | .nil, _ => True
  | .node c l r, dep =>
      (∀ x ∈ toListK l, cAt x.coords dep ≤ cAt c.coords dep) ∧
      (∀ x ∈ toListK r, cAt c.coords dep ≤ cAt x.coords dep) ∧
      wfKw l (dep + 1) ∧ wfKw r (dep + 1)

theorem wfK_imp_wfKw {d : ℕ} {α : Type} :
    ∀ {nd : KNode d α} {dep : ℕ}, wfK nd dep → wfKw nd dep := by
  intro nd
  induction nd with
  | nil => intro _ _; trivial
  | node c l r ihl ihr =>
      intro dep h
      obtain ⟨hl, hr, hwl, hwr⟩ := h
      exact ⟨fun x hx => le_of_lt (hl x hx), hr, ihl hwl, ihr hwr⟩

/-- Insertion stores the point and preserves the strict invariant. -/
theorem insertK_spec {d : ℕ} {α : Type} [DecidableEq α] (p : Pt d α) :
    ∀ {nd : KNode d α} {dep : ℕ}, wfK nd dep →
      wfK (insertK nd dep p) dep ∧
      (↑(toListK (insertK nd dep p)) : Multiset (Pt d α))
        = p ::ₘ ↑(toListK nd) := by
  intro nd
  induction nd with
  | nil =>
      intro dep _
      refine ⟨⟨by simp [toListK], by simp [toListK], trivial, trivial⟩, ?_⟩
      simp [insertK, toListK]
  | node c l r ihl ihr =>
      intro dep hwf
      obtain ⟨hl, hr, hwl, hwr⟩ := hwf
      rw [insertK]
      by_cases hcmp : cAt p.coords dep < cAt c.coords dep
      · rw [if_pos hcmp]
        obtain ⟨ihwf, iheff⟩ := @ihl (dep + 1) hwl
        have hmeml : ∀ x ∈ toListK (insertK l (dep + 1) p),
            cAt x.coords dep < cAt c.coords dep := by
          intro x hx
          have : x ∈ (↑(toListK (insertK l (dep + 1) p)) : Multiset (Pt d α)) := by
            simpa using hx
          rw [iheff] at this
          rcases Multiset.mem_cons.mp this with rfl | hxl
          · exact hcmp
          · exact hl x (by simpa using hxl)
        refine ⟨⟨hmeml, hr, ihwf, hwr⟩, ?_⟩
        show (↑(c :: (toListK (insertK l (dep + 1) p) ++ toListK r))
          : Multiset (Pt d α)) = _
        ext y
        have hy := congrArg (Multiset.count y) iheff
        simp only [toListK, ← Multiset.cons_coe, ← Multiset.coe_add,
          Multiset.count_cons, Multiset.count_add] at hy ⊢
        split <;> omega
      · rw [if_neg hcmp]
        obtain ⟨ihwf, iheff⟩ := @ihr (dep + 1) hwr
        have hmemr : ∀ x ∈ toListK (insertK r (dep + 1) p),
            cAt c.coords dep ≤ cAt x.coords dep := by
          intro x hx
          have : x ∈ (↑(toListK (insertK r (dep + 1) p)) : Multiset (Pt d α)) := by
            simpa using hx
          rw [iheff] at this
          rcases Multiset.mem_cons.mp this with rfl | hxr
          · exact le_of_not_lt hcmp
          · exact hr x (by simpa using hxr)
        refine ⟨⟨hl, hmemr, hwl, ihwf⟩, ?_⟩
        show (↑(c :: (toListK l ++ toListK (insertK r (dep + 1) p)))
          : Multiset (Pt d α)) = _
        ext y
        have hy := congrArg (Multiset.count y) iheff
        simp only [toListK, ← Multiset.cons_coe, ← Multiset.coe_add,
          Multiset.count_cons, Multiset.count_add] at hy ⊢
        split <;> omega

/-- Enlarging the candidate multiset by points that are all at least as far
as everything returned does not change a `k`-best result. -/
theorem IsKBest.extend {β : Type} [DecidableEq β] {κ : β → ℚ} {k : ℕ}
    {res : List β} {T D : Multiset β} (h : IsKBest κ k res T)
    (hD : ∀ y ∈ D, ∀ a ∈ res, κ a ≤ κ y)
    (hfull : D ≠ 0 → res.length = k) : IsKBest κ k res (T + D) := by
  obtain ⟨hs, hle, hlen, hmin⟩ := h
  refine ⟨hs, le_trans hle (Multiset.le_add_right _ _), ?_, ?_⟩
  · by_cases hD0 : D = 0
    · rw [hD0, add_zero]
      exact hlen
    · have hfl := hfull hD0
      have hcard : k ≤ Multiset.card T := by
        have := Multiset.card_le_card hle
        simp only [Multiset.coe_card] at this
        omega
      rw [Multiset.card_add]
      omega
  · intro a ha y hy
    rw [add_sub_left hle] at hy
    rcases Multiset.mem_add.mp hy with hyT | hyD
    · exact hmin a ha y hyT
    · exact hD y hyD a ha

/-- Modelled from the spec: k-d kNN search — "recursive descent maintaining
a bounded max-heap of size `k`.  Visit the child on `q`'s side first; after
returning, check whether the splitting hyperplane is within the current
`k`-th best distance ...; if so, also search the other side.  Consider the
current node itself at each step."  (The hyperplane check compares squared
distances, like every other comparison.) -/
def knnK {d : ℕ} {α : Type} [DecidableEq α] (q : Coords d) (k : ℕ) :
    KNode d α → ℕ → List (Pt d α) → List (Pt d α)
  | .nil, _, best => best
  | .node c l r, dep, best =>
      if cAt q dep < cAt c.coords dep then
        let best2 := knnK q k l (dep + 1)
          (pushBest (fun p => d2 q p.coords) k c best)
        if pushOk (fun p => d2 q p.coords) k best2
            ((cAt q dep - cAt c.coords dep) ^ 2)
        then knnK q k r (dep + 1) best2
        else best2
      else
        let best2 := knnK q k r (dep + 1)
          (pushBest (fun p => d2 q p.coords) k c best)
        if pushOk (fun p => d2 q p.coords) k best2
            ((cAt q dep - cAt c.coords dep) ^ 2)
        then knnK q k l (dep + 1) best2
        else best2

theorem knnK_isKBest {d : ℕ} {α : Type} [DecidableEq α] (q : Coords d)
    (k : ℕ) : ∀ {nd : KNode d α} {dep : ℕ} {best : List (Pt d α)}
      {S : Multiset (Pt d α)}, wfKw nd dep →
      IsKBest (fun p => d2 q p.coords) k best S →
      IsKBest (fun p => d2 q p.coords) k (knnK q k nd dep best)
        (S + ↑(toListK nd)) := by
  intro nd
  induction nd with
  | nil =>
      intro dep best S _ hb
      rw [knnK]
      simpa [toListK] using hb
  | node c l r ihl ihr =>
      intro dep best S hwf hb
      obtain ⟨hlw, hrw, hwl, hwr⟩ := hwf
      have hb1 := pushBest_isKBest hb c
      have huniv : ∀ A B : Multiset (Pt d α),
          ((c ::ₘ S) + A) + B = S + ↑(toListK (.node c l r)) →
          True := fun _ _ _ => trivial
      rw [knnK]
      by_cases hside : cAt q dep < cAt c.coords dep
      · rw [if_pos hside]
        have hb2 := ihl hwl hb1
        by_cases hok : pushOk (fun p => d2 q p.coords) k
            (knnK q k l (dep + 1)
              (pushBest (fun p => d2 q p.coords) k c best))
            ((cAt q dep - cAt c.coords dep) ^ 2) = true
        · rw [if_pos hok]
          have hres := ihr hwr hb2
          have heq : ((c ::ₘ S) + ↑(toListK l)) + ↑(toListK r)
              = S + ↑(toListK (.node c l r)) := by
            ext y
            simp only [toListK, Multiset.count_add, Multiset.count_cons,
              ← Multiset.cons_coe, ← Multiset.coe_add]
            split <;> omega
          rw [← heq]
          exact hres
        · rw [if_neg hok]
          have hpf : pushOk (fun p => d2 q p.coords) k
              (knnK q k l (dep + 1)
                (pushBest (fun p => d2 q p.coords) k c best))
              ((cAt q dep - cAt c.coords dep) ^ 2) = false :=
            Bool.not_eq_true _ ▸ (by simpa using hok)
          obtain ⟨hkle, b, hlast, hble⟩ := pushOk_eq_false hpf
          have hext := IsKBest.extend (D := ↑(toListK r)) hb2 ?_ ?_
          · have heq : (((c ::ₘ S) + ↑(toListK l)) + ↑(toListK r))
                = S + ↑(toListK (.node c l r)) := by
              ext y
              simp only [toListK, Multiset.count_add, Multiset.count_cons,
                ← Multiset.cons_coe, ← Multiset.coe_add]
              split <;> omega
            rw [← heq]
            exact hext
          · intro y hy a ha
            have hy' : y ∈ toListK r := by simpa using hy
            have h1 : d2 q a.coords ≤ d2 q b.coords :=
              sorted_le_getLast hb2.1 ha hlast
            have h2 : (cAt q dep - cAt c.coords dep) ^ 2
                ≤ (cAt q dep - cAt y.coords dep) ^ 2 := by
              have hcy := hrw y hy'
              nlinarith
            have h3 := sq_cAt_le_d2 q y.coords dep
            linarith
          · intro _
            have := hb2.2.2.1
            omega
      · rw [if_neg hside]
        have hb2 := ihr hwr hb1
        by_cases hok : pushOk (fun p => d2 q p.coords) k
            (knnK q k r (dep + 1)
              (pushBest (fun p => d2 q p.coords) k c best))
            ((cAt q dep - cAt c.coords dep) ^ 2) = true
        · rw [if_pos hok]
          have hres := ihl hwl hb2
          have heq : ((c ::ₘ S) + ↑(toListK r)) + ↑(toListK l)
              = S + ↑(toListK (.node c l r)) := by
            ext y
            simp only [toListK, Multiset.count_add, Multiset.count_cons,
              ← Multiset.cons_coe, ← Multiset.coe_add]
            split <;> omega
          rw [← heq]
          exact hres
        · rw [if_neg hok]
          have hpf : pushOk (fun p => d2 q p.coords) k
              (knnK q k r (dep + 1)
                (pushBest (fun p => d2 q p.coords) k c best))
              ((cAt q dep - cAt c.coords dep) ^ 2) = false :=
            Bool.not_eq_true _ ▸ (by simpa using hok)
          obtain ⟨hkle, b, hlast, hble⟩ := pushOk_eq_false hpf
          have hext := IsKBest.extend (D := ↑(toListK l)) hb2 ?_ ?_
          · have heq : (((c ::ₘ S) + ↑(toListK r)) + ↑(toListK l))
                = S + ↑(toListK (.node c l r)) := by
              ext y
              simp only [toListK, Multiset.count_add, Multiset.count_cons,
                ← Multiset.cons_coe, ← Multiset.coe_add]
              split <;> omega
            rw [← heq]
            exact hext
          · intro y hy a ha
            have hy' : y ∈ toListK l := by simpa using hy
            have h1 : d2 q a.coords ≤ d2 q b.coords :=
              sorted_le_getLast hb2.1 ha hlast
            have h2 : (cAt q dep - cAt c.coords dep) ^ 2
                ≤ (cAt q dep - cAt y.coords dep) ^ 2 := by
              have hcy := hlw y hy'
              have hqc := le_of_not_lt hside
              nlinarith
            have h3 := sq_cAt_le_d2 q y.coords dep
            linarith
          · intro _
            have := hb2.2.2.1
            omega

/-- Modelled from the spec: k-d range search — "descend into a subtree only
when its half-space lies within `r` of `q[axis]` on the split axis",
collecting points within the radius in traversal order. -/
def rangeK {d : ℕ} {α : Type} (q : Coords d) (r : ℚ) :
    KNode d α → ℕ → List (Pt d α)
  | .nil, _ => []
  | .node c l rr, dep =>
      (if d2 q c.coords ≤ r * r then [c] else []) ++
      ((if cAt q dep ≤ cAt c.coords dep
          ∨ (cAt q dep - cAt c.coords dep) ^ 2 ≤ r * r
        then rangeK q r l (dep + 1) else []) ++
       (if cAt c.coords dep ≤ cAt q dep
          ∨ (cAt q dep - cAt c.coords dep) ^ 2 ≤ r * r
        then rangeK q r rr (dep + 1) else []))

theorem rangeK_eq_filter {d : ℕ} {α : Type} (q : Coords d) (r : ℚ) :
    ∀ {nd : KNode d α} {dep : ℕ}, wfKw nd dep →
      rangeK q r nd dep
        = (toListK nd).filter (fun p => decide (d2 q p.coords ≤ r * r)) := by
  intro nd
  induction nd with
  | nil => intro dep _; rfl
  | node c l rr ihl ihr =>
      intro dep hwf
      obtain ⟨hlw, hrw, hwl, hwr⟩ := hwf
      rw [rangeK, toListK, List.filter_cons, List.filter_append]
      have hleft : (if cAt q dep ≤ cAt c.coords dep
            ∨ (cAt q dep - cAt c.coords dep) ^ 2 ≤ r * r
          then rangeK q r l (dep + 1) else [])
          = (toListK l).filter (fun p => decide (d2 q p.coords ≤ r * r)) := by
        by_cases hcut : cAt q dep ≤ cAt c.coords dep
            ∨ (cAt q dep - cAt c.coords dep) ^ 2 ≤ r * r
        · rw [if_pos hcut]
          exact ihl hwl
        · rw [if_neg hcut]
          push_neg at hcut
          obtain ⟨hgt, hfar⟩ := hcut
          symm
          rw [List.filter_eq_nil_iff]
          intro p hp
          simp only [decide_eq_true_eq]
          intro hle
          have hpc := hlw p hp
          have haxis : (cAt q dep - cAt c.coords dep) ^ 2
              ≤ (cAt q dep - cAt p.coords dep) ^ 2 := by nlinarith
          have := sq_cAt_le_d2 q p.coords dep
          linarith
      have hright : (if cAt c.coords dep ≤ cAt q dep
            ∨ (cAt q dep - cAt c.coords dep) ^ 2 ≤ r * r
          then rangeK q r rr (dep + 1) else [])
          = (toListK rr).filter (fun p => decide (d2 q p.coords ≤ r * r)) := by
        by_cases hcut : cAt c.coords dep ≤ cAt q dep
            ∨ (cAt q dep - cAt c.coords dep) ^ 2 ≤ r * r
        · rw [if_pos hcut]
          exact ihr hwr
        · rw [if_neg hcut]
          push_neg at hcut
          obtain ⟨hgt, hfar⟩ := hcut
          symm
          rw [List.filter_eq_nil_iff]
          intro p hp
          simp only [decide_eq_true_eq]
          intro hle
          have hpc := hrw p hp
          have haxis : (cAt q dep - cAt c.coords dep) ^ 2
              ≤ (cAt q dep - cAt p.coords dep) ^ 2 := by nlinarith
          have := sq_cAt_le_d2 q p.coords dep
          linarith
      rw [hleft, hright]
      by_cases hc : d2 q c.coords ≤ r * r
      · rw [if_pos hc, if_pos (decide_eq_true hc)]
        rfl
      · rw [if_neg hc, if_neg (by simpa using hc)]
        rfl

/-- The smaller (on axis `a`) of a point and an optional candidate,
preferring the first argument on ties. -/
def minP {d : ℕ} {α : Type} (a : ℕ) (x : Pt d α) :
    Option (Pt d α) → Pt d α
  | none => x
  | some y => if cAt y.coords a < cAt x.coords a then y else x

/-- Modelled from the spec: "find the node in the right subtree with
minimum coordinate on the current node's splitting axis". -/
def findMinK {d : ℕ} {α : Type} (a : ℕ) : KNode d α → Option (Pt d α)
  | .nil => none
  | .node c l r => some (minP a (minP a c (findMinK a l)) (findMinK a r))

theorem findMinK_none {d : ℕ} {α : Type} (a : ℕ) {nd : KNode d α} :
    findMinK a nd = none ↔ nd = .nil := by
  cases nd with
  | nil => simp [findMinK]
  | node c l r => simp [findMinK]

theorem minP_cases {d : ℕ} {α : Type} (a : ℕ) (x : Pt d α)
    (o : Option (Pt d α)) :
    (minP a x o = x ∨ ∃ y, o = some y ∧ minP a x o = y) ∧
      cAt (minP a x o).coords a ≤ cAt x.coords a ∧
      (∀ y, o = some y → cAt (minP a x o).coords a ≤ cAt y.coords a) := by
  cases o with
  | none => exact ⟨Or.inl rfl, le_refl _, fun y hy => Option.noConfusion hy⟩
  | some y =>
      rw [minP]
      by_cases h : cAt y.coords a < cAt x.coords a
      · rw [if_pos h]
        exact ⟨Or.inr ⟨y, rfl, rfl⟩, le_of_lt h,
          fun z hz => by rw [← Option.some.injEq y z |>.mp hz]⟩
      · rw [if_neg h]
        refine ⟨Or.inl rfl, le_refl _, fun z hz => ?_⟩
        have : y = z := Option.some.injEq y z |>.mp hz
        subst this
        exact le_of_not_lt h

theorem findMinK_spec {d : ℕ} {α : Type} (a : ℕ) :
    ∀ {nd : KNode d α} {m : Pt d α}, findMinK a nd = some m →
      m ∈ toListK nd ∧ ∀ x ∈ toListK nd, cAt m.coords a ≤ cAt x.coords a := by
  intro nd
  induction nd with
  | nil => intro m h; exact Option.noConfusion h
  | node c l r ihl ihr =>
      intro m h
      rw [findMinK, Option.some.injEq] at h
      obtain ⟨hshape1, hle1, hbnd1⟩ := minP_cases a (minP a c (findMinK a l))
        (findMinK a r)
      obtain ⟨hshape0, hle0, hbnd0⟩ := minP_cases a c (findMinK a l)
      have hmem : m ∈ toListK (.node c l r) := by
        rw [← h]
        rcases hshape1 with heq | ⟨y, hy, heq⟩
        · rw [heq]
          rcases hshape0 with heq0 | ⟨z, hz, heq0⟩
          · rw [heq0]; simp [toListK]
          · rw [heq0]
            have := (ihl hz).1
            simp [toListK, this]
        · rw [heq]
          have := (ihr hy).1
          simp [toListK, this]
      refine ⟨hmem, ?_⟩
      intro x hx
      rw [toListK, List.mem_cons, List.mem_append] at hx
      rw [← h]
      rcases hx with rfl | hx | hx
      · exact le_trans hle1 hle0
      · cases hfl : findMinK a l with
        | none =>
            rw [(findMinK_none a).mp hfl] at hx
            simp [toListK] at hx
        | some z =>
            have hzx := (ihl hfl).2 x hx
            have h0z := hbnd0 z hfl
            have hc1 := le_trans hle1 h0z
            rw [hfl] at hc1
            linarith
      · cases hfr : findMinK a r with
        | none =>
            rw [(findMinK_none a).mp hfr] at hx
            simp [toListK] at hx
        | some z =>
            have hzx := (ihr hfr).2 x hx
            have h1z := hbnd1 z hfr
            rw [hfr] at h1z
            linarith

/-- Modelled from the spec: k-d deletion — "find a node with coordinates
AND payload equal to the target.  If the node has a right subtree, find the
node in the right subtree with minimum coordinate on the current node's
splitting axis; replace the node's payload and coordinates with that
node's; recursively delete from the right subtree.  If only a left subtree
exists, move it to the right and apply the same rule.  Leaf deletion simply
drops the node." -/
def deleteK {d : ℕ} {α : Type} [DecidableEq α] :
    KNode d α → ℕ → Pt d α → KNode d α × Bool
  | .nil, _, _ => (.nil, false)
  | .node c l r, dep, p =>
      if c = p then
        match findMinK dep r with
        | some m => (.node m l (deleteK r (dep + 1) m).1, true)
        | none =>
            match findMinK dep l with
            | some m => (.node m .nil (deleteK l (dep + 1) m).1, true)
            | none => (.nil, true)
      else
        if cAt p.coords dep < cAt c.coords dep then
          (.node c (deleteK l (dep + 1) p).1 r, (deleteK l (dep + 1) p).2)
        else
          (.node c l (deleteK r (dep + 1) p).1, (deleteK r (dep + 1) p).2)


/-- Prepending to the right summand commutes with the sum. -/
theorem cons_add_right {β : Type} (a : β) (A B : Multiset β) :
    A + (a ::ₘ B) = a ::ₘ (A + B) := by
  rw [add_comm A, Multiset.cons_add, add_comm B A]

/-- Replacing a deleted node by the minimum of a subtree removes exactly
the node from the stored multiset. -/
theorem erase_node_eq {β : Type} [DecidableEq β] (c m : β)
    (L R : Multiset β) (hm : m ∈ R) :
    m ::ₘ (L + R.erase m) = (c ::ₘ (L + R)).erase c := by
  rw [Multiset.erase_cons_head, ← cons_add_right, Multiset.cons_erase hm]

theorem deleteK_spec {d : ℕ} {α : Type} [DecidableEq α] :
    ∀ {nd : KNode d α} {dep : ℕ} {p : Pt d α}, wfK nd dep →
      wfK (deleteK nd dep p).1 dep ∧
      ((deleteK nd dep p).2 = true ↔ p ∈ toListK nd) ∧
      ((deleteK nd dep p).2 = true →
        (↑(toListK (deleteK nd dep p).1) : Multiset (Pt d α))
          = (↑(toListK nd) : Multiset (Pt d α)).erase p) ∧
      ((deleteK nd dep p).2 = false → (deleteK nd dep p).1 = nd) := by
  intro nd
  induction nd with
  | nil =>
      intro dep p _
      rw [deleteK]
      exact ⟨trivial, by simp [toListK], by simp, fun _ => rfl⟩
  | node c l r ihl ihr =>
      intro dep p hwf
      obtain ⟨hl, hr, hwl, hwr⟩ := hwf
      rw [deleteK]
      by_cases hcp : c = p
      · rw [if_pos hcp]
        cases hfr : findMinK dep r with
        | some m =>
            dsimp only
            obtain ⟨hmmem, hmmin⟩ := findMinK_spec dep hfr
            obtain ⟨ihwf, ihiff, iheff, _⟩ := @ihr (dep + 1) m hwr
            have hfound := ihiff.mpr hmmem
            have heff := iheff hfound
            have hcm : cAt c.coords dep ≤ cAt m.coords dep := hr m hmmem
            have hmm : m ∈ (↑(toListK r) : Multiset (Pt d α)) := by
              simpa using hmmem
            refine ⟨⟨?_, ?_, hwl, ihwf⟩, ?_, ?_, by simp⟩
            · intro x hx
              exact lt_of_lt_of_le (hl x hx) hcm
            · intro x hx
              have hx' : x ∈ (↑(toListK (deleteK r (dep + 1) m).1)
                  : Multiset (Pt d α)) := by simpa using hx
              rw [heff] at hx'
              exact hmmin x (by
                simpa using Multiset.mem_of_mem_erase hx')
            · simp only [true_iff]
              rw [← hcp]
              simp [toListK]
            · intro _
              rw [← hcp]
              show (↑(m :: (toListK l ++ toListK (deleteK r (dep + 1) m).1))
                : Multiset (Pt d α))
                = (↑(c :: (toListK l ++ toListK r))
                    : Multiset (Pt d α)).erase c
              rw [← Multiset.cons_coe, ← Multiset.coe_add, heff,
                ← Multiset.cons_coe, ← Multiset.coe_add]
              exact erase_node_eq c m _ _ hmm
        | none =>
            have hrnil : r = .nil := (findMinK_none dep).mp hfr
            subst hrnil
            cases hfl : findMinK dep l with
            | some m =>
                dsimp only
                obtain ⟨hmmem, hmmin⟩ := findMinK_spec dep hfl
                obtain ⟨ihwf, ihiff, iheff, _⟩ := @ihl (dep + 1) m hwl
                have hfound := ihiff.mpr hmmem
                have heff := iheff hfound
                have hmm : m ∈ (↑(toListK l) : Multiset (Pt d α)) := by
                  simpa using hmmem
                refine ⟨⟨?_, ?_, trivial, ihwf⟩, ?_, ?_, by simp⟩
                · intro x hx
                  simp [toListK] at hx
                · intro x hx
                  have hx' : x ∈ (↑(toListK (deleteK l (dep + 1) m).1)
                      : Multiset (Pt d α)) := by simpa using hx
                  rw [heff] at hx'
                  exact hmmin x (by
                    simpa using Multiset.mem_of_mem_erase hx')
                · simp only [true_iff]
                  rw [← hcp]
                  simp [toListK]
                · intro _
                  rw [← hcp]
                  show (↑(m :: ([] ++ toListK (deleteK l (dep + 1) m).1))
                    : Multiset (Pt d α))
                    = (↑(c :: (toListK l ++ []))
                        : Multiset (Pt d α)).erase c
                  simp only [List.nil_append, List.append_nil]
                  rw [← Multiset.cons_coe, heff, ← Multiset.cons_coe,
                    Multiset.erase_cons_head, Multiset.cons_erase hmm]
            | none =>
                have hlnil : l = .nil := (findMinK_none dep).mp hfl
                subst hlnil
                dsimp only
                refine ⟨trivial, ?_, ?_, by simp⟩
                · simp only [true_iff]
                  rw [← hcp]
                  simp [toListK]
                · intro _
                  rw [← hcp]
                  show (↑(List.nil (α := Pt d α)) : Multiset (Pt d α))
                    = (↑(c :: ([] ++ [])) : Multiset (Pt d α)).erase c
                  simp
      · rw [if_neg hcp]
        have hcp' : p ≠ c := fun h => hcp h.symm
        by_cases hnav : cAt p.coords dep < cAt c.coords dep
        · rw [if_pos hnav]
          obtain ⟨ihwf, ihiff, iheff, ihsame⟩ := @ihl (dep + 1) p hwl
          have hnotr : p ∉ toListK r := by
            intro hmem
            have := hr p hmem
            linarith
          refine ⟨⟨?_, hr, ihwf, hwr⟩, ?_, ?_, ?_⟩
          · intro x hx
            by_cases hfound : (deleteK l (dep + 1) p).2 = true
            · have heff := iheff hfound
              have hx' : x ∈ (↑(toListK (deleteK l (dep + 1) p).1)
                  : Multiset (Pt d α)) := by simpa using hx
              rw [heff] at hx'
              exact hl x (by simpa using Multiset.mem_of_mem_erase hx')
            · rw [ihsame (Bool.not_eq_true _ ▸ (by simpa using hfound))] at hx
              exact hl x hx
          · rw [ihiff]
            constructor
            · intro hmem
              rw [toListK, List.mem_cons, List.mem_append]
              exact Or.inr (Or.inl hmem)
            · intro hmem
              rw [toListK, List.mem_cons, List.mem_append] at hmem
              rcases hmem with rfl | hmem | hmem
              · exact absurd rfl hcp'
              · exact hmem
              · exact absurd hmem hnotr
          · intro hfound
            have heff := iheff hfound
            have hpl : p ∈ (↑(toListK l) : Multiset (Pt d α)) := by
              simpa using ihiff.mp hfound
            show (↑(c :: (toListK (deleteK l (dep + 1) p).1 ++ toListK r))
              : Multiset (Pt d α))
              = (↑(c :: (toListK l ++ toListK r))
                  : Multiset (Pt d α)).erase p
            rw [← Multiset.cons_coe, ← Multiset.coe_add, heff,
              ← Multiset.cons_coe, ← Multiset.coe_add,
              Multiset.erase_cons_tail _ hcp,
              Multiset.erase_add_left_pos _ hpl]
          · intro hnf
            rw [ihsame hnf]
        · rw [if_neg hnav]
          obtain ⟨ihwf, ihiff, iheff, ihsame⟩ := @ihr (dep + 1) p hwr
          have hnotl : p ∉ toListK l := by
            intro hmem
            have := hl p hmem
            push_neg at hnav
            linarith
          refine ⟨⟨hl, ?_, hwl, ihwf⟩, ?_, ?_, ?_⟩
          · intro x hx
            by_cases hfound : (deleteK r (dep + 1) p).2 = true
            · have heff := iheff hfound
              have hx' : x ∈ (↑(toListK (deleteK r (dep + 1) p).1)
                  : Multiset (Pt d α)) := by simpa using hx
              rw [heff] at hx'
              exact hr x (by simpa using Multiset.mem_of_mem_erase hx')
            · rw [ihsame (Bool.not_eq_true _ ▸ (by simpa using hfound))] at hx
              exact hr x hx
          · rw [ihiff]
            constructor
            · intro hmem
              rw [toListK, List.mem_cons, List.mem_append]
              exact Or.inr (Or.inr hmem)
            · intro hmem
              rw [toListK, List.mem_cons, List.mem_append] at hmem
              rcases hmem with rfl | hmem | hmem
              · exact absurd rfl hcp'
              · exact absurd hmem hnotl
              · exact hmem
          · intro hfound
            have heff := iheff hfound
            have hpr : p ∈ (↑(toListK r) : Multiset (Pt d α)) := by
              simpa using ihiff.mp hfound
            show (↑(c :: (toListK l ++ toListK (deleteK r (dep + 1) p).1))
              : Multiset (Pt d α))
              = (↑(c :: (toListK l ++ toListK r))
                  : Multiset (Pt d α)).erase p
            rw [← Multiset.cons_coe, ← Multiset.coe_add, heff,
              ← Multiset.cons_coe, ← Multiset.coe_add,
              Multiset.erase_cons_tail _ hcp,
              Multiset.erase_add_right_pos _ hpr]
          · intro hnf
            rw [ihsame hnf]

/-- Sort by the coordinate on the splitting axis (the spec explicitly
admits a full sort as the reference median selection). -/
def ksort {d : ℕ} {α : Type} (dep : ℕ) (l : List (Pt d α)) : List (Pt d α) :=
  l.mergeSort (fun a b => decide (cAt a.coords dep ≤ cAt b.coords dep))

/-- The median coordinate value of a point list on the split axis. -/
def kmed {d : ℕ} {α : Type} (dep : ℕ) (l : List (Pt d α))
    (dflt : Pt d α) : ℚ :=
  cAt ((ksort dep l).getD ((ksort dep l).length / 2) dflt).coords dep

/-- The points strictly below the median value (the left part). -/
def klow {d : ℕ} {α : Type} (dep : ℕ) (l : List (Pt d α))
    (dflt : Pt d α) : List (Pt d α) :=
  (ksort dep l).takeWhile (fun x => decide (cAt x.coords dep < kmed dep l dflt))

/-- The points at or above the median value (the node and right part). -/
def khigh {d : ℕ} {α : Type} (dep : ℕ) (l : List (Pt d α))
    (dflt : Pt d α) : List (Pt d α) :=
  (ksort dep l).dropWhile (fun x => decide (cAt x.coords dep < kmed dep l dflt))

theorem ksort_perm {d : ℕ} {α : Type} (dep : ℕ) (l : List (Pt d α)) :
    List.Perm (ksort dep l) l := List.mergeSort_perm l _

theorem ksort_length {d : ℕ} {α : Type} (dep : ℕ) (l : List (Pt d α)) :
    (ksort dep l).length = l.length := (ksort_perm dep l).length_eq

theorem ksort_sorted {d : ℕ} {α : Type} (dep : ℕ) (l : List (Pt d α)) :
    (ksort dep l).Pairwise
      (fun a b => cAt a.coords dep ≤ cAt b.coords dep) := by
  have h := @List.sorted_mergeSort (Pt d α)
    (fun a b : Pt d α => decide (cAt a.coords dep ≤ cAt b.coords dep))
    (fun a b c hab hbc => by
      simp only [decide_eq_true_eq] at *
      linarith)
    (fun a b => by
      simp only [Bool.or_eq_true, decide_eq_true_eq]
      exact le_total _ _)
    l
  exact h.imp (fun hab => by simpa using hab)

theorem klow_khigh_length {d : ℕ} {α : Type} (dep : ℕ) (l : List (Pt d α))
    (dflt : Pt d α) :
    (klow dep l dflt).length + (khigh dep l dflt).length = l.length := by
  rw [klow, khigh, ← List.length_append, List.takeWhile_append_dropWhile,
    ksort_length]

theorem khigh_ne_nil {d : ℕ} {α : Type} (dep : ℕ) (p0 : Pt d α)
    (ps : List (Pt d α)) : khigh dep (p0 :: ps) p0 ≠ [] := by
  intro h
  rw [khigh, List.dropWhile_eq_nil_iff] at h
  have hlen : (ksort dep (p0 :: ps)).length / 2
      < (ksort dep (p0 :: ps)).length := by
    rw [ksort_length]
    simp only [List.length_cons]
    omega
  have hmem : (ksort dep (p0 :: ps)).getD
      ((ksort dep (p0 :: ps)).length / 2) p0 ∈ ksort dep (p0 :: ps) := by
    rw [List.getD_eq_getElem _ _ hlen]
    exact List.getElem_mem _
  have := h _ hmem
  rw [decide_eq_true_eq] at this
  exact absurd this (by rw [kmed]; exact lt_irrefl _)

/-- Modelled from the spec: k-d bulk build — "construct a balanced tree by
repeated median-of-all split ... partition the input along the median
coordinate on that axis (a full sort is acceptable ...); the median point
becomes the node, the two halves recurse.  Points equal to the median on
the split axis may appear on either side but must be partitioned
deterministically."  Here points strictly below the median value go left;
the first median-valued point of the sorted order becomes the node and the
remainder go right, which keeps the strict left invariant. -/
def buildK {d : ℕ} {α : Type} : List (Pt d α) → ℕ → KNode d α
  | [], _ => .nil
  | p0 :: ps, dep =>
      match khigh dep (p0 :: ps) p0, klow_khigh_length dep (p0 :: ps) p0 with
      | [], _ => .nil
      | c :: rest, hlen =>
          .node c
            (buildK (klow dep (p0 :: ps) p0) (dep + 1))
            (buildK rest (dep + 1))
  termination_by l _ => l.length
  decreasing_by
  · simp only [List.length_cons] at hlen ⊢
    omega
  · simp only [List.length_cons] at hlen ⊢
    omega

theorem dropWhile_cons_head {β : Type} (p : β → Bool) :
    ∀ (l : List β) {c : β} {rest : List β},
      l.dropWhile p = c :: rest → p c = false := by
  intro l
  induction l with
  | nil => intro c rest h; exact absurd h (by simp)
  | cons x xs ih =>
      intro c rest h
      rw [List.dropWhile_cons] at h
      by_cases hx : p x = true
      · rw [if_pos hx] at h
        exact ih h
      · rw [if_neg hx] at h
        obtain ⟨rfl, rfl⟩ := List.cons.injEq .. ▸ h
        exact Bool.eq_false_iff.mpr hx

theorem buildK_cons {d : ℕ} {α : Type} {p0 : Pt d α} {ps : List (Pt d α)}
    {dep : ℕ} {c : Pt d α} {rest : List (Pt d α)}
    (hk : khigh dep (p0 :: ps) p0 = c :: rest) :
    buildK (p0 :: ps) dep =
      .node c (buildK (klow dep (p0 :: ps) p0) (dep + 1))
        (buildK rest (dep + 1)) := by
  rw [buildK.eq_def]
  dsimp only
  split
  · rename_i heq _
    rw [hk] at heq
    exact absurd heq (by simp)
  · rename_i c2 rest2 hpf heq hheq
    rw [hk] at heq
    obtain ⟨rfl, rfl⟩ := List.cons.injEq .. ▸ heq
    rfl

/-- The bulk build stores exactly the input multiset. -/
theorem toListK_buildK {d : ℕ} {α : Type} (l : List (Pt d α)) (dep : ℕ) :
    (↑(toListK (buildK l dep)) : Multiset (Pt d α)) = ↑l := by
  induction l, dep using buildK.induct with
  | case1 dep => simp [buildK, toListK]
  | case2 p0 ps dep hpf hk => exact absurd hk (khigh_ne_nil dep p0 ps)
  | case3 p0 ps dep c rest hlen hk ih1 ih2 =>
      rw [buildK_cons hk, toListK]
      have hperm : List.Perm (klow dep (p0 :: ps) p0 ++ khigh dep (p0 :: ps) p0)
          (p0 :: ps) := by
        rw [klow, khigh, List.takeWhile_append_dropWhile]
        exact ksort_perm dep (p0 :: ps)
      calc (↑(c :: (toListK (buildK (klow dep (p0 :: ps) p0) (dep + 1)) ++
              toListK (buildK rest (dep + 1)))) : Multiset (Pt d α))
          = c ::ₘ ((↑(klow dep (p0 :: ps) p0) : Multiset (Pt d α)) + ↑rest) := by
            rw [← Multiset.cons_coe, ← Multiset.coe_add, ih1, ih2]
        _ = ↑(klow dep (p0 :: ps) p0) + (c ::ₘ (↑rest)) :=
            (cons_add_right c _ _).symm
        _ = ↑(klow dep (p0 :: ps) p0 ++ khigh dep (p0 :: ps) p0) := by
            rw [hk, Multiset.cons_coe, Multiset.coe_add]
        _ = ↑(p0 :: ps) := Quot.sound hperm

/-- The bulk build satisfies the strict k-d invariant. -/
theorem wfK_buildK {d : ℕ} {α : Type} (l : List (Pt d α)) (dep : ℕ) :
    wfK (buildK l dep) dep := by
  induction l, dep using buildK.induct with
  | case1 dep => rw [buildK]; trivial
  | case2 p0 ps dep hpf hk => exact absurd hk (khigh_ne_nil dep p0 ps)
  | case3 p0 ps dep c rest hlen hk ih1 ih2 =>
      rw [buildK_cons hk, wfK]
      have hmdc : kmed dep (p0 :: ps) p0 ≤ cAt c.coords dep := by
        have := dropWhile_cons_head _ _ hk
        simpa using this
      have hsorted := ksort_sorted dep (p0 :: ps)
      have hsub : (c :: rest).Sublist (ksort dep (p0 :: ps)) := by
        rw [← hk, khigh]
        exact List.dropWhile_sublist _
      have hpw : (c :: rest).Pairwise
          (fun a b => cAt a.coords dep ≤ cAt b.coords dep) :=
        hsorted.sublist hsub
      refine ⟨?_, ?_, ih1, ih2⟩
      · intro x hx
        have hxm : x ∈ klow dep (p0 :: ps) p0 := by
          have h1 := toListK_buildK (klow dep (p0 :: ps) p0) (dep + 1)
          have : x ∈ (↑(klow dep (p0 :: ps) p0) : Multiset (Pt d α)) := by
            rw [← h1]; exact_mod_cast hx
          exact_mod_cast this
        have := List.mem_takeWhile_imp hxm
        rw [decide_eq_true_eq] at this
        exact lt_of_lt_of_le this hmdc
      · intro x hx
        have hxm : x ∈ rest := by
          have h1 := toListK_buildK rest (dep + 1)
          have : x ∈ (↑rest : Multiset (Pt d α)) := by
            rw [← h1]; exact_mod_cast hx
          exact_mod_cast this
        exact (List.pairwise_cons.mp hpw).1 x hxm

/-- Modelled from the spec: `KdTree2D()` / `KdTree3D()` — an unbounded
k-d tree over the whole plane/space; construction takes no arguments and
cannot fail. -/
structure KTree (d : ℕ) (α : Type) where
  root : KNode d α

/-- The freshly constructed, empty k-d tree. -/
def KTree.empty (d : ℕ) (α : Type) : KTree d α := ⟨.nil⟩

/-- All points stored in the tree, in traversal order. -/
def KTree.toList {d : ℕ} {α : Type} (t : KTree d α) : List (Pt d α) :=
  toListK t.root

/-- Modelled from the spec: k-d `insert(p)` — always succeeds (the tree
is unbounded), standard binary descent from the root at depth 0. -/
def KTree.insert {d : ℕ} {α : Type} [DecidableEq α] (t : KTree d α)
    (p : Pt d α) : KTree d α :=
  ⟨insertK t.root 0 p⟩

/-- Modelled from the spec: k-d `delete(p)` — removes one node matching
both coordinates and payload, restoring the invariant via the minimum of
the right (or left) subtree. -/
def KTree.delete {d : ℕ} {α : Type} [DecidableEq α] (t : KTree d α)
    (p : Pt d α) : KTree d α × Bool :=
  ((⟨(deleteK t.root 0 p).1⟩ : KTree d α), (deleteK t.root 0 p).2)

/-- Modelled from the spec: k-d `knn_search(q, k)` — branch-and-bound
descent with the axis-distance pruning test. -/
def KTree.knn_search {d : ℕ} {α : Type} [DecidableEq α] (t : KTree d α)
    (q : Coords d) (k : ℕ) : List (Pt d α) :=
  knnK q k t.root 0 []

/-- Modelled from the spec: k-d `range_search(q, r)` — half-space descent
collecting points within the closed ball. -/
def KTree.range_search {d : ℕ} {α : Type} (t : KTree d α) (q : Coords d)
    (r : ℚ) : List (Pt d α) :=
  rangeK q r t.root 0

/-- Modelled from the spec: k-d `insert_bulk(ps)` — the tree is rebuilt
from scratch by balanced median split over the union of the existing and
the new points. -/
def KTree.insert_bulk {d : ℕ} {α : Type} [DecidableEq α] (t : KTree d α)
    (ps : List (Pt d α)) : KTree d α :=
  ⟨buildK (toListK t.root ++ ps) 0⟩

/-- The number of stored points. -/
def KTree.population {d : ℕ} {α : Type} (t : KTree d α) : ℕ :=
  t.toList.length

/-- The k-d tree invariant at the root. -/
def KTree.Wf {d : ℕ} {α : Type} (t : KTree d α) : Prop := wfK t.root 0

theorem KTree.empty_wf (d : ℕ) (α : Type) : (KTree.empty d α).Wf := trivial

theorem KTree.toList_emptyK (d : ℕ) (α : Type) :
    (KTree.empty d α).toList = [] := rfl

theorem KTree.insert_wf {d : ℕ} {α : Type} [DecidableEq α] {t : KTree d α}
    (h : t.Wf) (p : Pt d α) : (t.insert p).Wf :=
  (insertK_spec p h).1

theorem KTree.toList_insert {d : ℕ} {α : Type} [DecidableEq α]
    {t : KTree d α} (h : t.Wf) (p : Pt d α) :
    (↑(t.insert p).toList : Multiset (Pt d α)) = p ::ₘ ↑t.toList :=
  (insertK_spec p h).2

theorem KTree.delete_specK {d : ℕ} {α : Type} [DecidableEq α]
    {t : KTree d α} (h : t.Wf) (p : Pt d α) :
    (t.delete p).1.Wf ∧
    ((t.delete p).2 = true ↔ p ∈ t.toList) ∧
    ((t.delete p).2 = true →
      (↑(t.delete p).1.toList : Multiset (Pt d α)) =
        (↑t.toList : Multiset (Pt d α)).erase p) ∧
    ((t.delete p).2 = false → (t.delete p).1 = t) := by
  obtain ⟨h1, h2, h3, h4⟩ := deleteK_spec (p := p) h
  exact ⟨h1, h2, h3, fun hf => by
    show (⟨(deleteK t.root 0 p).1⟩ : KTree d α) = t
    rw [h4 hf]⟩

theorem KTree.knn_search_isKBestK {d : ℕ} {α : Type} [DecidableEq α]
    {t : KTree d α} (h : t.Wf) (q : Coords d) (k : ℕ) :
    IsKBest (fun p => d2 q p.coords) k (t.knn_search q k) ↑t.toList := by
  have hm := knnK_isKBest q k (wfK_imp_wfKw h)
    (isKBest_nil (fun p : Pt d α => d2 q p.coords) k)
  simpa [KTree.knn_search, KTree.toList] using hm

theorem KTree.range_search_eq_filterK {d : ℕ} {α : Type}
    {t : KTree d α} (h : t.Wf) (q : Coords d) (r : ℚ) :
    t.range_search q r
      = t.toList.filter (fun p => decide (d2 q p.coords ≤ r * r)) :=
  rangeK_eq_filter q r (wfK_imp_wfKw h)

theorem KTree.insert_bulk_wf {d : ℕ} {α : Type} [DecidableEq α]
    (t : KTree d α) (ps : List (Pt d α)) : (t.insert_bulk ps).Wf :=
  wfK_buildK _ 0

theorem KTree.toList_insert_bulk {d : ℕ} {α : Type} [DecidableEq α]
    (t : KTree d α) (ps : List (Pt d α)) :
    (↑(t.insert_bulk ps).toList : Multiset (Pt d α)) = ↑t.toList + ↑ps := by
  show (↑(toListK (buildK (toListK t.root ++ ps) 0)) : Multiset (Pt d α)) = _
  rw [toListK_buildK, ← Multiset.coe_add]
  rfl

/-! ## R-tree / R*-tree family

The classic Guttman R-tree and the R*-tree share the node layout: leaf
entries are points, internal entries are (bounding box, child) pairs.  The
searches are identical in shape; the families differ in ChooseSubtree and
in their overflow treatment (quadratic split vs. forced reinsertion and
the margin-driven R*-split). -/

/-- Modelled from the spec: box area/volume — the product of the extents. -/
def Box.area {d : ℕ} (b : Box d) : ℚ := ∏ i, (b.hi i - b.lo i)

/-- Modelled from the spec: box union — the smallest box containing both. -/
def Box.union {d : ℕ} (b1 b2 : Box d) : Box d :=
  ⟨fun i => min (b1.lo i) (b2.lo i), fun i => max (b1.hi i) (b2.hi i)⟩

/-- The degenerate box of a single point. -/
def ptBox {d : ℕ} {α : Type} (p : Pt d α) : Box d := ⟨p.coords, p.coords⟩

/-- Modelled from the spec: box enlargement — area growth when a box is
extended to cover another. -/
def enlarge {d : ℕ} (b x : Box d) : ℚ := (b.union x).area - b.area

/-- Modelled from the spec: the perimeter-like margin of a box — the sum
of its extents, used by the R*-split goodness measure. -/
def Box.margin {d : ℕ} (b : Box d) : ℚ := ∑ i, (b.hi i - b.lo i)

/-- Modelled from the spec: the overlap (intersection area) of two boxes,
used by the R* ChooseSubtree and split rules. -/
def Box.overlap {d : ℕ} (b1 b2 : Box d) : ℚ :=
  ∏ i, max 0 (min (b1.hi i) (b2.hi i) - max (b1.lo i) (b2.lo i))

/-- The center of a box, used by the R* forced-reinsertion ordering. -/
def Box.center {d : ℕ} (b : Box d) : Coords d := fun i => (b.lo i + b.hi i) / 2

theorem memB_union_left {d : ℕ} {b1 : Box d} {c : Coords d} (b2 : Box d)
    (h : b1.memB c) : (b1.union b2).memB c := fun i =>
  ⟨le_trans (min_le_left _ _) (h i).1, le_trans (h i).2 (le_max_left _ _)⟩

theorem memB_union_right {d : ℕ} {b2 : Box d} {c : Coords d} (b1 : Box d)
    (h : b2.memB c) : (b1.union b2).memB c := fun i =>
  ⟨le_trans (min_le_right _ _) (h i).1, le_trans (h i).2 (le_max_right _ _)⟩

theorem memB_ptBox {d : ℕ} {α : Type} (p : Pt d α) :
    (ptBox p).memB p.coords := fun i => ⟨le_refl _, le_refl _⟩

/-- The union of a nonempty list of boxes (head-seeded left fold). -/
def unionL {d : ℕ} : List (Box d) → Box d
  | [] => ⟨fun _ => 0, fun _ => 0⟩
  | b :: bs => bs.foldl Box.union b

theorem foldl_union_memB {d : ℕ} {c : Coords d} :
    ∀ (bs : List (Box d)) (acc : Box d),
      (acc.memB c ∨ ∃ b ∈ bs, b.memB c) → (bs.foldl Box.union acc).memB c := by
  intro bs
  induction bs with
  | nil =>
      intro acc h
      rcases h with h | ⟨b, hb, _⟩
      · exact h
      · exact absurd hb (by simp)
  | cons b bs ih =>
      intro acc h
      rw [List.foldl_cons]
      refine ih _ ?_
      rcases h with h | ⟨b', hb', hm⟩
      · exact Or.inl (memB_union_left b h)
      · rcases List.mem_cons.mp hb' with rfl | hb'
        · exact Or.inl (memB_union_right acc hm)
        · exact Or.inr ⟨b', hb', hm⟩

theorem memB_unionL {d : ℕ} {bs : List (Box d)} {b : Box d} {c : Coords d}
    (hb : b ∈ bs) (hm : b.memB c) : (unionL bs).memB c := by
  cases bs with
  | nil => exact absurd hb (by simp)
  | cons b0 bs =>
      rw [unionL]
      rcases List.mem_cons.mp hb with rfl | hb
      · exact foldl_union_memB bs b (Or.inl hm)
      · exact foldl_union_memB bs b0 (Or.inr ⟨b, hb, hm⟩)

/-- The tight box of a point list. -/
def unionPts {d : ℕ} {α : Type} (pts : List (Pt d α)) : Box d :=
  unionL (pts.map ptBox)

theorem memB_unionPts {d : ℕ} {α : Type} {pts : List (Pt d α)} {p : Pt d α}
    (hp : p ∈ pts) : (unionPts pts).memB p.coords :=
  memB_unionL (List.mem_map_of_mem ptBox hp) (memB_ptBox p)

/-- Modelled from the spec: the R/R* node — a leaf holds point entries,
an internal node holds (child bounding box, child) entries. -/
inductive RNode (d : ℕ) (α : Type) where
  | leaf (pts : List (Pt d α))
  | node (cs : List (Box d × RNode d α))

theorem sizeOf_entry_lt {d : ℕ} {α : Type} {cs : List (Box d × RNode d α)}
    (c : { x // x ∈ cs }) : sizeOf c.1.2 < 1 + sizeOf cs := by
  have h1 : sizeOf c.1 < sizeOf cs := List.sizeOf_lt_of_mem c.2
  obtain ⟨⟨b, t⟩, hm⟩ := c
  simp only at h1 ⊢
  have h2 : sizeOf t < sizeOf (b, t) := by simp
  omega

/-- All points stored below a node, in traversal order. -/
def toListR {d : ℕ} {α : Type} : RNode d α → List (Pt d α)
  | .leaf pts => pts
  | .node cs => cs.attach.flatMap (fun c => toListR c.1.2)
  decreasing_by
    have := sizeOf_entry_lt c
    simp only [RNode.node.sizeOf_spec]
    omega

theorem toListR_leaf {d : ℕ} {α : Type} (pts : List (Pt d α)) :
    toListR (.leaf pts) = pts := by
  rw [toListR]

theorem toListR_node {d : ℕ} {α : Type} (cs : List (Box d × RNode d α)) :
    toListR (.node cs) = cs.flatMap (fun c => toListR c.2) := by
  rw [toListR]
  conv_rhs => rw [← List.attach_map_subtype_val cs]
  rw [List.flatMap_map]

/-- A size measure dominating the entry count at every level. -/
def sizeR {d : ℕ} {α : Type} : RNode d α → ℕ
  | .leaf pts => pts.length + 1
  | .node cs => 1 + (cs.attach.map (fun c => sizeR c.1.2)).sum
  decreasing_by
    have := sizeOf_entry_lt c
    simp only [RNode.node.sizeOf_spec]
    omega

theorem sizeR_leaf {d : ℕ} {α : Type} (pts : List (Pt d α)) :
    sizeR (.leaf pts) = pts.length + 1 := by
  rw [sizeR]

theorem sizeR_node {d : ℕ} {α : Type} (cs : List (Box d × RNode d α)) :
    sizeR (.node cs) = 1 + (cs.map (fun c => sizeR c.2)).sum := by
  rw [sizeR]
  conv_rhs => rw [← List.attach_map_subtype_val cs]
  rw [List.map_map]
  rfl

theorem sizeR_pos {d : ℕ} {α : Type} (nd : RNode d α) : 0 < sizeR nd := by
  cases nd with
  | leaf pts => rw [sizeR_leaf]; omega
  | node cs => rw [sizeR_node]; omega

/-- The height of a node: leaves are at height 0. -/
def heightR {d : ℕ} {α : Type} : RNode d α → ℕ
  | .leaf _ => 0
  | .node cs => 1 + (cs.attach.map (fun c => heightR c.1.2)).foldr max 0
  decreasing_by
    have := sizeOf_entry_lt c
    simp only [RNode.node.sizeOf_spec]
    omega

/-- The number of entries directly held by a node. -/
def entryCount {d : ℕ} {α : Type} : RNode d α → ℕ
  | .leaf pts => pts.length
  | .node cs => cs.length

/-- The well-formedness needed by every search: each internal node is
nonempty and each entry's bounding box contains every point stored below
the entry's child. -/
def wfRN {d : ℕ} {α : Type} : RNode d α → Bool
  | .leaf _ => true
  | .node cs =>
      !cs.isEmpty &&
      cs.attach.all (fun c =>
        (toListR c.1.2).all (fun p => decide (c.1.1.memB p.coords)) &&
        wfRN c.1.2)
  decreasing_by
    have := sizeOf_entry_lt c
    simp only [RNode.node.sizeOf_spec]
    omega

theorem wfRN_leaf {d : ℕ} {α : Type} (pts : List (Pt d α)) :
    wfRN (.leaf pts) = true := by
  rw [wfRN]

theorem wfRN_node {d : ℕ} {α : Type} {cs : List (Box d × RNode d α)}
    (h : wfRN (.node cs) = true) :
    cs ≠ [] ∧ ∀ c ∈ cs, (∀ p ∈ toListR c.2, c.1.memB p.coords) ∧
      wfRN c.2 = true := by
  rw [wfRN] at h
  rw [Bool.and_eq_true, List.all_eq_true] at h
  obtain ⟨hne, hall⟩ := h
  refine ⟨by simpa using hne, fun c hc => ?_⟩
  have := hall ⟨c, hc⟩ (List.mem_attach _ _)
  rw [Bool.and_eq_true, List.all_eq_true] at this
  exact ⟨fun p hp => by simpa using this.1 p hp, this.2⟩

theorem wfRN_node_of {d : ℕ} {α : Type} {cs : List (Box d × RNode d α)}
    (hne : cs ≠ [])
    (hall : ∀ c ∈ cs, (∀ p ∈ toListR c.2, c.1.memB p.coords) ∧
      wfRN c.2 = true) : wfRN (.node cs) = true := by
  rw [wfRN]
  rw [Bool.and_eq_true, List.all_eq_true]
  refine ⟨by simpa using hne, fun c _ => ?_⟩
  rw [Bool.and_eq_true, List.all_eq_true]
  obtain ⟨h1, h2⟩ := hall c.1 c.2
  exact ⟨fun p hp => by simpa using h1 p hp, h2⟩

/-- Modelled from the spec: R/R* range search — "descend any subtree whose
bounding box intersects the ball of radius `r` about `q`; return all leaf
points within `r`" (the intersection test is `min_distance² ≤ r²`). -/
def rangeR {d : ℕ} {α : Type} (q : Coords d) (r : ℚ) : RNode d α → List (Pt d α)
  | .leaf pts => pts.filter (fun p => decide (d2 q p.coords ≤ r * r))
  | .node cs =>
      cs.attach.flatMap (fun c =>
        if minD2 c.1.1 q ≤ r * r then rangeR q r c.1.2 else [])
  decreasing_by
    have := sizeOf_entry_lt c
    simp only [RNode.node.sizeOf_spec]
    omega

theorem rangeR_leaf {d : ℕ} {α : Type} (q : Coords d) (r : ℚ)
    (pts : List (Pt d α)) :
    rangeR q r (.leaf pts) = pts.filter (fun p => decide (d2 q p.coords ≤ r * r)) := by
  rw [rangeR]

theorem rangeR_node {d : ℕ} {α : Type} (q : Coords d) (r : ℚ)
    (cs : List (Box d × RNode d α)) :
    rangeR q r (.node cs) = cs.flatMap (fun c =>
      if minD2 c.1 q ≤ r * r then rangeR q r c.2 else []) := by
  rw [rangeR]
  conv_rhs => rw [← List.attach_map_subtype_val cs]
  rw [List.flatMap_map]

/-- R/R* range search returns exactly the stored points within the closed
ball, in traversal order. -/
theorem rangeR_eq_filter {d : ℕ} {α : Type} (q : Coords d) (r : ℚ) :
    ∀ {nd : RNode d α}, wfRN nd = true →
      rangeR q r nd = (toListR nd).filter (fun p => decide (d2 q p.coords ≤ r * r)) := by
  intro nd
  induction nd using toListR.induct with
  | case1 pts => intro _; rw [rangeR_leaf, toListR_leaf]
  | case2 cs ih =>
      intro hwf
      obtain ⟨_, hall⟩ := wfRN_node hwf
      rw [rangeR_node, toListR_node, List.filter_flatMap]
      refine List.flatMap_congr ?_
      intro c hc
      by_cases hint : minD2 c.1 q ≤ r * r
      · rw [if_pos hint]
        exact ih ⟨c, hc⟩ (hall c hc).2
      · rw [if_neg hint]
        rw [eq_comm, List.filter_eq_nil_iff]
        intro p hp
        have hcont := (hall c hc).1 p hp
        have := minD2_le_d2 q hcont
        simp only [decide_eq_true_eq]
        intro hle
        exact hint (le_trans this hle)

/-- A well-formed frontier element of the R-family best-first search: an
entry whose box contains every point stored below it. -/
def wfE {d : ℕ} {α : Type} (e : Box d × RNode d α) : Bool :=
  (toListR e.2).all (fun p => decide (e.1.memB p.coords)) && wfRN e.2

theorem wfE_elim {d : ℕ} {α : Type} {e : Box d × RNode d α}
    (h : wfE e = true) :
    (∀ p ∈ toListR e.2, e.1.memB p.coords) ∧ wfRN e.2 = true := by
  rw [wfE, Bool.and_eq_true, List.all_eq_true] at h
  exact ⟨fun p hp => by simpa using h.1 p hp, h.2⟩

theorem wfE_intro {d : ℕ} {α : Type} {e : Box d × RNode d α}
    (h1 : ∀ p ∈ toListR e.2, e.1.memB p.coords) (h2 : wfRN e.2 = true) :
    wfE e = true := by
  rw [wfE, Bool.and_eq_true, List.all_eq_true]
  exact ⟨fun p hp => by simpa using h1 p hp, h2⟩

/-- The subtype of well-formed R-entries, the frontier type of the
R-family best-first kNN search. -/
def RS (d : ℕ) (α : Type) : Type := {e : Box d × RNode d α // wfE e = true}

/-- The children decomposition of an R-entry. -/
def rKids {d : ℕ} {α : Type} (t : RS d α) : List (Pt d α) ⊕ List (RS d α) :=
  match ht : t.1.2 with
  | .leaf pts => Sum.inl pts
  | .node cs =>
      Sum.inr (cs.attach.map (fun c =>
        ⟨c.1, by
          have hwf := (wfE_elim t.2).2
          rw [ht] at hwf
          obtain ⟨_, hall⟩ := wfRN_node hwf
          obtain ⟨h1, h2⟩ := hall c.1 c.2
          exact wfE_intro h1 h2⟩))

theorem rKids_leaf {d : ℕ} {α : Type} (b : Box d) (pts : List (Pt d α)) (h) :
    rKids (d := d) (α := α) ⟨(b, .leaf pts), h⟩ = Sum.inl pts := rfl

theorem rKids_node {d : ℕ} {α : Type} (b : Box d)
    (cs : List (Box d × RNode d α)) (h) :
    ∃ ts, rKids (d := d) (α := α) ⟨(b, .node cs), h⟩ = Sum.inr ts ∧
      ts.map (fun t => t.1) = cs ∧
      ts.map (fun t => sizeR t.1.2) = cs.map (fun c => sizeR c.2) ∧
      ts.map (fun t => (↑(toListR t.1.2) : Multiset (Pt d α)))
        = cs.map (fun c => ↑(toListR c.2)) := by
  refine ⟨_, rfl, ?_, ?_, ?_⟩
  · rw [List.map_map]
    exact List.attach_map_subtype_val cs
  · rw [List.map_map]
    conv_rhs => rw [← List.attach_map_subtype_val cs]
    rw [List.map_map]
    rfl
  · rw [List.map_map]
    conv_rhs => rw [← List.attach_map_subtype_val cs]
    rw [List.map_map]
    rfl

/-- Modelled from the spec: the R/R* kNN search is best-first with a
min-heap of (entry, `min_distance(entry.box, q)`), leaf entries producing
candidate points into the bounded best list of size `k`. -/
def rBFS (d : ℕ) (α : Type) (q : Coords d) : BFS d α (RS d α) where
  pk := fun p => d2 q p.coords
  key := fun t => minD2 t.1.1 q
  kids := rKids
  sz := fun t => sizeR t.1.2
  sz_pos := fun t => sizeR_pos _
  sz_kids := by
    intro t ts hts
    obtain ⟨⟨b, nd⟩, hwf⟩ := t
    cases nd with
    | leaf pts => rw [rKids_leaf] at hts; exact Sum.noConfusion hts
    | node cs =>
        obtain ⟨ts', hts', _, hsz, _⟩ := rKids_node b cs hwf
        rw [hts'] at hts
        simp only [Sum.inr.injEq] at hts
        subst hts
        show (ts'.map (fun t => sizeR t.1.2)).sum < sizeR (RNode.node cs)
        rw [hsz, sizeR_node]
        omega

/-- The points stored under an R-frontier element. -/
def rP {d : ℕ} {α : Type} (t : RS d α) : Multiset (Pt d α) :=
  ↑(toListR t.1.2)

theorem rP_leaf {d : ℕ} {α : Type} (t : RS d α) (ps : List (Pt d α))
    (h : rKids t = Sum.inl ps) : rP t = ↑ps := by
  obtain ⟨⟨b, nd⟩, hwf⟩ := t
  cases nd with
  | leaf pts =>
      rw [rKids_leaf] at h
      simp only [Sum.inl.injEq] at h
      show (↑(toListR (.leaf pts)) : Multiset (Pt d α)) = ↑ps
      rw [toListR_leaf, h]
  | node cs =>
      obtain ⟨ts', hts', _, _, _⟩ := rKids_node b cs hwf
      rw [hts'] at h
      exact Sum.noConfusion h

theorem rP_node {d : ℕ} {α : Type} (t : RS d α) (ts : List (RS d α))
    (h : rKids t = Sum.inr ts) : rP t = (ts.map rP).sum := by
  obtain ⟨⟨b, nd⟩, hwf⟩ := t
  cases nd with
  | leaf pts => rw [rKids_leaf] at h; exact Sum.noConfusion h
  | node cs =>
      obtain ⟨ts', hts', _, _, hpts⟩ := rKids_node b cs hwf
      rw [hts'] at h
      simp only [Sum.inr.injEq] at h
      subst h
      show (↑(toListR (.node cs)) : Multiset (Pt d α)) = (ts'.map rP).sum
      rw [toListR_node, coe_flatMap]
      show _ = (ts'.map (fun t => (↑(toListR t.1.2) : Multiset (Pt d α)))).sum
      rw [hpts]

theorem rP_key {d : ℕ} {α : Type} (q : Coords d) (t : RS d α) (p : Pt d α)
    (hp : p ∈ rP t) : minD2 t.1.1 q ≤ d2 q p.coords := by
  obtain ⟨h1, _⟩ := wfE_elim t.2
  exact minD2_le_d2 q (h1 p (by exact_mod_cast hp))

/-- Modelled from the spec: `RTree2D(capacity)` / `RTree3D(capacity)` —
the classic Guttman R-tree, a capacity and a root node (initially an
empty leaf). -/
structure RTree (d : ℕ) (α : Type) where
  cap : ℕ
  root : RNode d α

/-- All points stored in the tree, in traversal order. -/
def RTree.toList {d : ℕ} {α : Type} (t : RTree d α) : List (Pt d α) :=
  toListR t.root

/-- The number of stored points. -/
def RTree.population {d : ℕ} {α : Type} (t : RTree d α) : ℕ :=
  t.toList.length

/-- The root entry seen by the best-first search: the tight box of all
stored points over the root node. -/
theorem wfE_root {d : ℕ} {α : Type} {nd : RNode d α} (h : wfRN nd = true) :
    wfE (unionPts (toListR nd), nd) = true :=
  wfE_intro (fun p hp => memB_unionPts hp) h

/-- Modelled from the spec: `knn_search(q, k)` for the R/R* families. -/
def RTree.knn_search {d : ℕ} {α : Type} [DecidableEq α] (t : RTree d α)
    (q : Coords d) (k : ℕ) : List (Pt d α) :=
  if h : wfE (unionPts (toListR t.root), t.root) = true then
    knnBF (rBFS d α q) k [⟨(unionPts (toListR t.root), t.root), h⟩] []
  else []

/-- Modelled from the spec: `range_search(q, r)` for the R/R* families. -/
def RTree.range_search {d : ℕ} {α : Type} (t : RTree d α) (q : Coords d)
    (r : ℚ) : List (Pt d α) :=
  rangeR q r t.root

theorem RTree.knn_search_isKBestR {d : ℕ} {α : Type} [DecidableEq α]
    {t : RTree d α} (h : wfRN t.root = true) (q : Coords d) (k : ℕ) :
    IsKBest (fun p => d2 q p.coords) k (t.knn_search q k) ↑t.toList := by
  unfold RTree.knn_search
  rw [dif_pos (wfE_root h)]
  have hmain := knnBF_isKBest (rBFS d α q) rP
    (fun t ps hk => rP_leaf t ps hk)
    (fun t ts hk => rP_node t ts hk)
    (fun t p hp => rP_key q t p hp)
    k [⟨(unionPts (toListR t.root), t.root), wfE_root h⟩] [] 0 (isKBest_nil _ _)
  simpa [rP, RTree.toList] using hmain

theorem RTree.range_search_eq_filterR {d : ℕ} {α : Type}
    {t : RTree d α} (h : wfRN t.root = true) (q : Coords d) (r : ℚ) :
    t.range_search q r
      = t.toList.filter (fun p => decide (d2 q p.coords ≤ r * r)) :=
  rangeR_eq_filter q r h

/-! Selection helpers for ChooseSubtree and QuadraticSplit. -/

/-- All ways of picking one element out of a list, each with the remaining
elements in their original order. -/
def picks {β : Type} : List β → List (β × List β)
  | [] => []
  | x :: xs => (x, xs) :: (picks xs).map (fun er => (er.1, x :: er.2))

theorem picks_perm {β : Type} :
    ∀ {l : List β} {e : β} {rest : List β},
      (e, rest) ∈ picks l → List.Perm l (e :: rest) := by
  intro l
  induction l with
  | nil => intro e rest h; exact absurd h (by simp [picks])
  | cons x xs ih =>
      intro e rest h
      rw [picks] at h
      rcases List.mem_cons.mp h with heq | hmem
      · obtain ⟨rfl, rfl⟩ := Prod.mk.injEq .. ▸ heq
        exact List.Perm.refl _
      · obtain ⟨⟨e', rest'⟩, hm, heq⟩ := List.mem_map.mp hmem
        simp only [Prod.mk.injEq] at heq
        obtain ⟨rfl, rfl⟩ := heq
        exact List.Perm.trans (List.Perm.cons x (ih hm)) (List.Perm.swap _ _ _)

theorem picks_ne_nil {β : Type} {l : List β} (h : l ≠ []) : picks l ≠ [] := by
  cases l with
  | nil => exact absurd rfl h
  | cons x xs => rw [picks]; simp

theorem picks_length {β : Type} {l : List β} {e : β} {rest : List β}
    (h : (e, rest) ∈ picks l) : l.length = rest.length + 1 := by
  have := (picks_perm h).length_eq
  simpa using this

/-- The first element attaining the maximum of `f` (later elements win
only strictly). -/
def maxBy {γ : Type} (f : γ → ℚ) : List γ → Option γ
  | [] => none
  | x :: xs =>
      match maxBy f xs with
      | none => some x
      | some y => if f x < f y then some y else some x

theorem maxBy_mem {γ : Type} (f : γ → ℚ) :
    ∀ {l : List γ} {x : γ}, maxBy f l = some x → x ∈ l := by
  intro l
  induction l with
  | nil => intro x h; exact Option.noConfusion h
  | cons a as ih =>
      intro x h
      rw [maxBy] at h
      cases hm : maxBy f as with
      | none =>
          rw [hm] at h
          simp only [Option.some.injEq] at h
          subst h
          exact List.mem_cons_self _ _
      | some y =>
          rw [hm] at h
          dsimp only at h
          by_cases hlt : f a < f y
          · rw [if_pos hlt] at h
            simp only [Option.some.injEq] at h
            subst h
            exact List.mem_cons_of_mem _ (ih hm)
          · rw [if_neg hlt] at h
            simp only [Option.some.injEq] at h
            subst h
            exact List.mem_cons_self _ _

theorem maxBy_ne_none {γ : Type} (f : γ → ℚ) {l : List γ} (h : l ≠ []) :
    maxBy f l ≠ none := by
  cases l with
  | nil => exact absurd rfl h
  | cons a as =>
      rw [maxBy]
      cases maxBy f as with
      | none => simp
      | some y =>
          dsimp only
          by_cases hlt : f a < f y
          · rw [if_pos hlt]; simp
          · rw [if_neg hlt]; simp

/-- Decompose a list at an index: the element, the part before it and the
part after it. -/
def pickAt {β : Type} : List β → ℕ → Option (β × List β × List β)
  | [], _ => none
  | x :: xs, 0 => some (x, [], xs)
  | x :: xs, n+1 =>
      (pickAt xs n).map (fun epp => (epp.1, x :: epp.2.1, epp.2.2))

theorem pickAt_eq {β : Type} :
    ∀ {l : List β} {i : ℕ} {e : β} {pre post : List β},
      pickAt l i = some (e, pre, post) → l = pre ++ e :: post := by
  intro l
  induction l with
  | nil => intro i e pre post h; exact Option.noConfusion h
  | cons x xs ih =>
      intro i e pre post h
      cases i with
      | zero =>
          rw [pickAt] at h
          simp only [Option.some.injEq, Prod.mk.injEq] at h
          obtain ⟨rfl, rfl, rfl⟩ := h
          rfl
      | succ n =>
          rw [pickAt] at h
          cases hp : pickAt xs n with
          | none => rw [hp] at h; exact Option.noConfusion h
          | some epp =>
              rw [hp] at h
              have h2 : (epp.1, x :: epp.2.1, epp.2.2) = (e, pre, post) :=
                Option.some.inj h
              simp only [Prod.mk.injEq] at h2
              obtain ⟨rfl, rfl, rfl⟩ := h2
              rw [List.cons_append]
              exact congrArg _ (ih hp)

theorem pickAt_isSome {β : Type} :
    ∀ {l : List β} {i : ℕ}, i < l.length → (pickAt l i).isSome = true := by
  intro l
  induction l with
  | nil => intro i h; exact absurd h (by simp)
  | cons x xs ih =>
      intro i h
      cases i with
      | zero => rw [pickAt]; rfl
      | succ n =>
          rw [pickAt]
          cases hp : pickAt xs n with
          | none =>
              have hs := ih (i := n) (by simpa using h)
              rw [hp] at hs
              exact absurd hs (by simp)
          | some epp => rfl

/-- The first index minimising the (lexicographic) pair cost. -/
def lexLt (a b : ℚ × ℚ) : Bool :=
  decide (a.1 < b.1) || (decide (a.1 = b.1) && decide (a.2 < b.2))

def argminIdx (f : ℕ → ℚ × ℚ) (n : ℕ) : ℕ :=
  (List.range n).foldl (fun b i => if lexLt (f i) (f b) then i else b) 0

theorem foldl_argmin_lt (f : ℕ → ℚ × ℚ) {n : ℕ} :
    ∀ {l : List ℕ} {acc : ℕ}, acc < n → (∀ i ∈ l, i < n) →
      l.foldl (fun b i => if lexLt (f i) (f b) then i else b) acc < n := by
  intro l
  induction l with
  | nil => intro acc h _; exact h
  | cons x xs ih =>
      intro acc h hall
      rw [List.foldl_cons]
      refine ih ?_ (fun i hi => hall i (List.mem_cons_of_mem _ hi))
      by_cases hx : lexLt (f x) (f acc) = true
      · rw [if_pos hx]; exact hall x (List.mem_cons_self _ _)
      · rw [if_neg hx]; exact h

theorem argminIdx_lt (f : ℕ → ℚ × ℚ) {n : ℕ} (h : 0 < n) :
    argminIdx f n < n :=
  foldl_argmin_lt f h (fun i hi => List.mem_range.mp hi)

section QuadSplit

variable {d : ℕ} {β : Type}

/-- Modelled from the spec: the "waste" of a candidate seed pair —
`area(union(E1,E2)) − area(E1) − area(E2)`. -/
def waste (bx : β → Box d) (a b : β) : ℚ :=
  ((bx a).union (bx b)).area - (bx a).area - (bx b).area

/-- Modelled from the spec: *PickSeeds* — "select the two entries E1, E2
maximizing `area(union(E1,E2)) − area(E1) − area(E2)` (the most wasteful
pair) as seeds of two groups". -/
def pickSeeds (bx : β → Box d) (l : List β) : Option (β × β × List β) :=
  maxBy (fun t => waste bx t.1 t.2.1)
    ((picks l).flatMap (fun er =>
      (picks er.2).map (fun fr => (er.1, fr.1, fr.2))))

theorem pickSeeds_perm {bx : β → Box d} {l : List β} {a b : β}
    {rest : List β} (h : pickSeeds bx l = some (a, b, rest)) :
    List.Perm l (a :: b :: rest) := by
  have hmem := maxBy_mem _ h
  obtain ⟨⟨e, r1⟩, hm1, hmem2⟩ := List.mem_flatMap.mp hmem
  obtain ⟨⟨f, r2⟩, hm2, heq⟩ := List.mem_map.mp hmem2
  simp only [Prod.mk.injEq] at heq
  obtain ⟨rfl, rfl, rfl⟩ := heq
  exact List.Perm.trans (picks_perm hm1) (List.Perm.cons _ (picks_perm hm2))

theorem pickSeeds_isSome {bx : β → Box d} {l : List β}
    (h : 2 ≤ l.length) : (pickSeeds bx l).isSome = true := by
  rw [pickSeeds]
  cases hmax : maxBy (fun t : β × β × List β => waste bx t.1 t.2.1)
      ((picks l).flatMap (fun er =>
        (picks er.2).map (fun fr => (er.1, fr.1, fr.2)))) with
  | some v => rfl
  | none =>
      exfalso
      cases hl : picks l with
      | nil => exact picks_ne_nil (by intro hn; subst hn; simp at h) hl
      | cons er ers =>
          have her : (er.1, er.2) ∈ picks l := by rw [hl]; simp
          have hr1 : er.2 ≠ [] := by
            have := picks_length her
            intro hn
            rw [hn] at this
            simp at this
            omega
          cases hl2 : picks er.2 with
          | nil => exact picks_ne_nil hr1 hl2
          | cons fr frs =>
              have : (picks l).flatMap (fun er =>
                  (picks er.2).map (fun fr => (er.1, fr.1, fr.2))) ≠ [] := by
                rw [hl]
                simp only [List.flatMap_cons]
                intro hcontra
                rw [List.append_eq_nil] at hcontra
                have := hcontra.1
                rw [hl2] at this
                simp at this
              exact maxBy_ne_none _ this hmax

/-- Modelled from the spec: *PickNext* — repeatedly take the unassigned
entry with maximum `|d1 − d2|` (`di` = enlargement of group *i*), assign
it to the group with smaller enlargement (tie → smaller area → smaller
count); when one group must absorb all remaining entries to reach the
minimum fill `m`, it does. -/
def distribute (bx : β → Box d) (m : ℕ) :
    List β → List β × Box d → List β × Box d → List β × List β
  | [], g1, g2 => (g1.1, g2.1)
  | x :: xs, g1, g2 =>
      if g1.1.length + (x :: xs).length ≤ m then (g1.1 ++ x :: xs, g2.1)
      else if g2.1.length + (x :: xs).length ≤ m then (g1.1, g2.1 ++ x :: xs)
      else
        match hpk : maxBy (fun er =>
            |enlarge g1.2 (bx er.1) - enlarge g2.2 (bx er.1)|)
            (picks (x :: xs)) with
        | none => (g1.1, g2.1)
        | some (e, rest) =>
            let c1 := enlarge g1.2 (bx e)
            let c2 := enlarge g2.2 (bx e)
            if c1 < c2 ∨ (c1 = c2 ∧ ((g1.2).area < (g2.2).area ∨
                ((g1.2).area = (g2.2).area ∧ g1.1.length ≤ g2.1.length))) then
              distribute bx m rest (g1.1 ++ [e], (g1.2).union (bx e)) g2
            else
              distribute bx m rest g1 (g2.1 ++ [e], (g2.2).union (bx e))
  termination_by rem => rem.length
  decreasing_by
  · have h9 := picks_length (maxBy_mem _ hpk)
    simp only [List.length_cons] at h9 ⊢
    omega
  · have h9 := picks_length (maxBy_mem _ hpk)
    simp only [List.length_cons] at h9 ⊢
    omega

theorem distribute_spec (bx : β → Box d) (m : ℕ) :
    ∀ (rem : List β) (g1 g2 : List β × Box d),
      (↑(distribute bx m rem g1 g2).1 + ↑(distribute bx m rem g1 g2).2
          : Multiset β)
        = ↑g1.1 + ↑g2.1 + ↑rem ∧
      (g1.1 ≠ [] → (distribute bx m rem g1 g2).1 ≠ []) ∧
      (g2.1 ≠ [] → (distribute bx m rem g1 g2).2 ≠ []) := by
  intro rem g1 g2
  induction rem, g1, g2 using distribute.induct bx m with
  | case1 g1 g2 =>
      refine ⟨by simp [distribute], ?_, ?_⟩ <;>
        · intro h; rw [distribute]; exact h
  | case2 x xs g1 g2 hle =>
      rw [distribute, if_pos hle]
      refine ⟨?_, fun h => by simp, fun h => h⟩
      simp only [← Multiset.coe_add]
      refine Quot.sound ?_
      rw [List.append_assoc, List.append_assoc]
      exact List.Perm.append_left _ List.perm_append_comm
  | case3 x xs g1 g2 hle1 hle2 =>
      rw [distribute, if_neg hle1, if_pos hle2]
      refine ⟨?_, fun h => h, fun h => by simp⟩
      simp only [← Multiset.coe_add]
      rw [add_assoc]
  | case4 x xs g1 g2 hle1 hle2 hpk =>
      exfalso
      exact maxBy_ne_none _ (picks_ne_nil (by simp)) hpk
  | case5 x xs g1 g2 hle1 hle2 e rest hpk c1 c2 hcond ih =>
      rw [distribute, if_neg hle1, if_neg hle2, hpk]
      dsimp only
      rw [if_pos hcond]
      obtain ⟨ih1, ih2, ih3⟩ := ih
      refine ⟨?_, fun h => ih2 (by simp), ih3⟩
      rw [ih1]
      have hperm := picks_perm (maxBy_mem _ hpk)
      have hxs : (↑(x :: xs) : Multiset β) = ↑(e :: rest) := Quot.sound hperm
      rw [hxs]
      show (↑(g1.1 ++ [e]) : Multiset β) + ↑g2.1 + ↑rest
        = ↑g1.1 + ↑g2.1 + ↑([e] ++ rest)
      simp only [← Multiset.coe_add]
      simp [← Multiset.coe_add, add_comm, add_left_comm, add_assoc]
  | case6 x xs g1 g2 hle1 hle2 e rest hpk c1 c2 hcond ih =>
      rw [distribute, if_neg hle1, if_neg hle2, hpk]
      dsimp only
      rw [if_neg hcond]
      obtain ⟨ih1, ih2, ih3⟩ := ih
      refine ⟨?_, ih2, fun h => ih3 (by simp)⟩
      rw [ih1]
      have hperm := picks_perm (maxBy_mem _ hpk)
      have hxs : (↑(x :: xs) : Multiset β) = ↑(e :: rest) := Quot.sound hperm
      rw [hxs]
      show (↑g1.1 : Multiset β) + ↑(g2.1 ++ [e]) + ↑rest
        = ↑g1.1 + ↑g2.1 + ↑([e] ++ rest)
      simp only [← Multiset.coe_add]
      simp [← Multiset.coe_add, add_comm, add_left_comm, add_assoc]

/-- Modelled from the spec: *QuadraticSplit* — seed two groups with the
most wasteful pair, then distribute the remaining entries by *PickNext*. -/
def quadSplit (bx : β → Box d) (m : ℕ) (l : List β) : List β × List β :=
  match pickSeeds bx l with
  | none => (l, [])
  | some (a, b, rest) => distribute bx m rest ([a], bx a) ([b], bx b)

theorem quadSplit_spec (bx : β → Box d) (m : ℕ) {l : List β}
    (h : 2 ≤ l.length) :
    (↑(quadSplit bx m l).1 + ↑(quadSplit bx m l).2 : Multiset β) = ↑l ∧
    (quadSplit bx m l).1 ≠ [] ∧ (quadSplit bx m l).2 ≠ [] := by
  rw [quadSplit]
  cases hps : pickSeeds bx l with
  | none =>
      have this2 : (pickSeeds bx l).isSome = true := pickSeeds_isSome h
      have := this2
      rw [hps] at this
      exact absurd this (by simp)
  | some abr =>
      obtain ⟨a, b, rest⟩ := abr
      obtain ⟨h1, h2, h3⟩ := distribute_spec bx m rest ([a], bx a) ([b], bx b)
      refine ⟨?_, h2 (by simp), h3 (by simp)⟩
      rw [h1]
      have hperm := pickSeeds_perm hps
      calc (↑[a] : Multiset β) + ↑[b] + ↑rest = ↑(a :: b :: rest) := by
            show _ = (↑([a] ++ [b] ++ rest) : Multiset β)
            simp only [← Multiset.coe_add]
        _ = ↑l := Quot.sound hperm.symm

end QuadSplit

/-- The default entry used by positional list access. -/
def dfltE (d : ℕ) (α : Type) : Box d × RNode d α :=
  (⟨fun _ => 0, fun _ => 0⟩, .leaf [])

/-- Modelled from the spec: ChooseSubtree — "picks the child whose
bounding box would be enlarged least by the new point (ties broken by
smallest area)"; the first such child wins. -/
def chooseIdx {d : ℕ} {α : Type} (cs : List (Box d × RNode d α))
    (x : Box d) : ℕ :=
  argminIdx (fun i => (enlarge (cs.getD i (dfltE d α)).1 x,
    ((cs.getD i (dfltE d α)).1).area)) cs.length

/-- Modelled from the spec: the classic R-tree minimum fill
`m = ⌈C/2⌉`, clamped to ≥ 1. -/
def mR (C : ℕ) : ℕ := max 1 ((C + 1) / 2)

/-- The tight bounding box of an entry list. -/
def unionE {d : ℕ} {α : Type} (cs : List (Box d × RNode d α)) : Box d :=
  unionL (cs.map Prod.fst)

theorem sizeOf_snd_lt_of_mem {d : ℕ} {α : Type}
    {cs : List (Box d × RNode d α)} {b : Box d} {t : RNode d α}
    (h : (b, t) ∈ cs) : sizeOf t < 1 + sizeOf cs := by
  have h1 : sizeOf (b, t) < sizeOf cs := List.sizeOf_lt_of_mem h
  have h2 : sizeOf t < sizeOf (b, t) := by simp
  omega

/-- Modelled from the spec: classic R-tree insert — descend by
ChooseSubtree, append to the chosen leaf, split by QuadraticSplit on
overflow and propagate the split upward.  The result is either the
updated node or the pair of entries replacing it after a split. -/
def insertR {d : ℕ} {α : Type} (C : ℕ) :
    RNode d α → Pt d α →
      RNode d α ⊕ ((Box d × RNode d α) × (Box d × RNode d α))
  | .leaf pts, p =>
      if pts.length + 1 ≤ C then .inl (.leaf (pts ++ [p]))
      else
        let g := quadSplit ptBox (mR C) (pts ++ [p])
        .inr ((unionPts g.1, .leaf g.1), (unionPts g.2, .leaf g.2))
  | .node cs, p =>
      match hpk : pickAt cs (chooseIdx cs (ptBox p)) with
      | none => .inl (.node cs)
      | some ((b, child), pre, post) =>
          match insertR C child p with
          | .inl child' =>
              .inl (.node (pre ++ ((b.union (ptBox p), child') :: post)))
          | .inr ee =>
              let cs' := pre ++ (ee.1 :: ee.2 :: post)
              if cs'.length ≤ C then .inl (.node cs')
              else
                let g := quadSplit Prod.fst (mR C) cs'
                .inr ((unionE g.1, .node g.1), (unionE g.2, .node g.2))
  termination_by nd => sizeOf nd
  decreasing_by
    have hcs := pickAt_eq hpk
    have hm : (b, child) ∈ cs := by
      rw [hcs]
      exact List.mem_append_right _ (List.mem_cons_self _ _)
    have := sizeOf_snd_lt_of_mem hm
    simp only [RNode.node.sizeOf_spec]
    omega

/-- The per-entry point multiset. -/
def entPts {d : ℕ} {α : Type} (c : Box d × RNode d α) : Multiset (Pt d α) :=
  ↑(toListR c.2)

theorem toListR_node_coe {d : ℕ} {α : Type} (cs : List (Box d × RNode d α)) :
    (↑(toListR (.node cs)) : Multiset (Pt d α)) = (cs.map entPts).sum := by
  rw [toListR_node, coe_flatMap]
  rfl

theorem nodePts_eq {d : ℕ} {α : Type} (l : List (Box d × RNode d α)) :
    (↑(toListR (.node l)) : Multiset (Pt d α))
      = ((↑l : Multiset (Box d × RNode d α)).map entPts).sum := by
  rw [toListR_node_coe, Multiset.map_coe, Multiset.sum_coe]

theorem insertR_leaf {d : ℕ} {α : Type} (C : ℕ) (pts : List (Pt d α))
    (p : Pt d α) :
    insertR C (.leaf pts) p =
      if pts.length + 1 ≤ C then .inl (.leaf (pts ++ [p]))
      else
        .inr ((unionPts (quadSplit ptBox (mR C) (pts ++ [p])).1,
                .leaf (quadSplit ptBox (mR C) (pts ++ [p])).1),
              (unionPts (quadSplit ptBox (mR C) (pts ++ [p])).2,
                .leaf (quadSplit ptBox (mR C) (pts ++ [p])).2)) := by
  rw [insertR.eq_def]

theorem insertR_node {d : ℕ} {α : Type} (C : ℕ)
    (cs : List (Box d × RNode d α)) (p : Pt d α) :
    insertR C (.node cs) p =
      match pickAt cs (chooseIdx cs (ptBox p)) with
      | none => .inl (.node cs)
      | some ((b, child), pre, post) =>
          match insertR C child p with
          | .inl child' =>
              .inl (.node (pre ++ ((b.union (ptBox p), child') :: post)))
          | .inr ee =>
              if (pre ++ (ee.1 :: ee.2 :: post)).length ≤ C then
                .inl (.node (pre ++ (ee.1 :: ee.2 :: post)))
              else
                .inr ((unionE (quadSplit Prod.fst (mR C)
                          (pre ++ (ee.1 :: ee.2 :: post))).1,
                        .node (quadSplit Prod.fst (mR C)
                          (pre ++ (ee.1 :: ee.2 :: post))).1),
                      (unionE (quadSplit Prod.fst (mR C)
                          (pre ++ (ee.1 :: ee.2 :: post))).2,
                        .node (quadSplit Prod.fst (mR C)
                          (pre ++ (ee.1 :: ee.2 :: post))).2)) := by
  rw [insertR.eq_def]
  dsimp only
  split
  · rename_i heq
    rw [heq]
  · rename_i b child pre post heq
    rw [heq]

/-- Entry-list decompositions inherit the per-entry well-formedness. -/
theorem wf_entries_decomp {d : ℕ} {α : Type}
    {cs pre post : List (Box d × RNode d α)} {e : Box d × RNode d α}
    (hwf : wfRN (RNode.node cs) = true) (hcs : cs = pre ++ e :: post) :
    (∀ c ∈ pre, (∀ p ∈ toListR c.2, c.1.memB p.coords) ∧ wfRN c.2 = true) ∧
    ((∀ p ∈ toListR e.2, e.1.memB p.coords) ∧ wfRN e.2 = true) ∧
    (∀ c ∈ post, (∀ p ∈ toListR c.2, c.1.memB p.coords) ∧ wfRN c.2 = true) := by
  obtain ⟨_, hall⟩ := wfRN_node hwf
  subst hcs
  exact ⟨fun c hc => hall c (List.mem_append_left _ hc),
    hall e (List.mem_append_right _ (List.mem_cons_self _ _)),
    fun c hc => hall c (List.mem_append_right _ (List.mem_cons_of_mem _ hc))⟩

/-- Classic R-tree insert: well-formedness is preserved and the stored
multiset gains exactly the inserted point, in both the no-split and the
split outcome. -/
theorem insertR_spec {d : ℕ} {α : Type} (C : ℕ) (hC : 1 ≤ C) :
    ∀ (nd : RNode d α) (p : Pt d α), wfRN nd = true →
      (∀ nd', insertR C nd p = .inl nd' →
        wfRN nd' = true ∧
        (↑(toListR nd') : Multiset (Pt d α)) = p ::ₘ ↑(toListR nd)) ∧
      (∀ ee : (Box d × RNode d α) × (Box d × RNode d α),
        insertR C nd p = .inr ee →
        wfE ee.1 = true ∧ wfE ee.2 = true ∧
        (↑(toListR ee.1.2) + ↑(toListR ee.2.2) : Multiset (Pt d α))
          = p ::ₘ ↑(toListR nd)) := by
  intro nd p
  induction nd, p using insertR.induct C with
  | case1 pts p hle =>
      intro _
      constructor
      · intro nd' h
        rw [insertR_leaf, if_pos hle] at h
        simp only [Sum.inl.injEq] at h
        subst h
        refine ⟨wfRN_leaf _, ?_⟩
        rw [toListR_leaf, toListR_leaf, ← Multiset.coe_add,
          ← Multiset.singleton_add, add_comm]
        rfl
      · intro ee h
        rw [insertR_leaf, if_pos hle] at h
        exact Sum.noConfusion h
  | case2 pts p hle =>
      intro _
      have hlen : 2 ≤ (pts ++ [p]).length := by
        simp only [List.length_append, List.length_cons, List.length_nil]
        omega
      obtain ⟨hsum, hne1, hne2⟩ := quadSplit_spec ptBox (mR C) hlen
      constructor
      · intro nd' h
        rw [insertR_leaf, if_neg hle] at h
        exact Sum.noConfusion h
      · intro ee h
        rw [insertR_leaf, if_neg hle] at h
        simp only [Sum.inr.injEq] at h
        subst h
        refine ⟨?_, ?_, ?_⟩
        · exact wfE_intro (fun p hp => memB_unionPts (by
            rw [toListR_leaf] at hp; exact hp)) (wfRN_leaf _)
        · exact wfE_intro (fun p hp => memB_unionPts (by
            rw [toListR_leaf] at hp; exact hp)) (wfRN_leaf _)
        · show (↑(toListR (RNode.leaf (quadSplit ptBox (mR C) (pts ++ [p])).1))
              : Multiset (Pt d α))
              + ↑(toListR (RNode.leaf (quadSplit ptBox (mR C) (pts ++ [p])).2))
              = p ::ₘ ↑(toListR (RNode.leaf pts))
          rw [toListR_leaf, toListR_leaf, toListR_leaf, hsum,
            ← Multiset.coe_add, ← Multiset.singleton_add, add_comm]
          rfl
  | case3 cs p hpk =>
      intro hwf
      exfalso
      obtain ⟨hne, _⟩ := wfRN_node hwf
      have hlt : chooseIdx cs (ptBox p) < cs.length :=
        argminIdx_lt _ (by cases cs with
          | nil => exact absurd rfl hne
          | cons c cs => simp)
      have := pickAt_isSome hlt
      rw [hpk] at this
      exact absurd this (by simp)
  | case4 cs p b child pre post hpk child' heq ih =>
      intro hwf
      have hcs := pickAt_eq hpk
      obtain ⟨hpre, ⟨hcont, hcwf⟩, hpost⟩ := wf_entries_decomp hwf hcs
      obtain ⟨hwf', hms⟩ := (ih hcwf).1 child' heq
      constructor
      · intro nd' h
        rw [insertR_node, hpk] at h
        dsimp only at h
        rw [heq] at h
        simp only [Sum.inl.injEq] at h
        subst h
        constructor
        · refine wfRN_node_of (by simp) ?_
          intro c hc
          rcases List.mem_append.mp hc with hc | hc
          · exact hpre c hc
          · rcases List.mem_cons.mp hc with rfl | hc
            · refine ⟨?_, hwf'⟩
              intro x hx
              have hx' : x ∈ (↑(toListR child') : Multiset (Pt d α)) := by
                exact_mod_cast hx
              rw [hms] at hx'
              rcases Multiset.mem_cons.mp hx' with rfl | hx'
              · exact memB_union_right b (memB_ptBox x)
              · exact memB_union_left _ (hcont x (by exact_mod_cast hx'))
            · exact hpost c hc
        · rw [hcs, toListR_node_coe, toListR_node_coe]
          simp only [List.map_append, List.map_cons, List.sum_append,
            List.sum_cons]
          have hent : entPts (b.union (ptBox p), child') = p ::ₘ entPts (b, child) := hms
          rw [hent, Multiset.cons_add, cons_add_right]
      · intro ee h
        rw [insertR_node, hpk] at h
        dsimp only at h
        rw [heq] at h
        exact Sum.noConfusion h
  | case5 cs p b child pre post hpk ee heq cs' hlen ih =>
      intro hwf
      have hcs := pickAt_eq hpk
      obtain ⟨hpre, ⟨hcont, hcwf⟩, hpost⟩ := wf_entries_decomp hwf hcs
      obtain ⟨hwf1, hwf2, hms⟩ := (ih hcwf).2 ee heq
      constructor
      · intro nd' h
        rw [insertR_node, hpk] at h
        dsimp only at h
        rw [heq] at h
        dsimp only at h
        rw [if_pos hlen] at h
        simp only [Sum.inl.injEq] at h
        subst h
        constructor
        · refine wfRN_node_of (by simp) ?_
          intro c hc
          rcases List.mem_append.mp hc with hc | hc
          · exact hpre c hc
          · rcases List.mem_cons.mp hc with rfl | hc
            · exact wfE_elim hwf1
            · rcases List.mem_cons.mp hc with rfl | hc
              · exact wfE_elim hwf2
              · exact hpost c hc
        · rw [hcs, toListR_node_coe, toListR_node_coe]
          simp only [List.map_append, List.map_cons, List.sum_append,
            List.sum_cons]
          have hms' : entPts ee.1 + entPts ee.2 = p ::ₘ entPts (b, child) := hms
          have : entPts ee.1 + (entPts ee.2 + (post.map entPts).sum)
              = p ::ₘ (entPts (b, child) + (post.map entPts).sum) := by
            rw [← add_assoc, hms', Multiset.cons_add]
          rw [this, cons_add_right]
      · intro ee2 h
        rw [insertR_node, hpk] at h
        dsimp only at h
        rw [heq] at h
        dsimp only at h
        rw [if_pos hlen] at h
        exact Sum.noConfusion h
  | case6 cs p b child pre post hpk ee heq cs' hlen ih =>
      intro hwf
      have hcs := pickAt_eq hpk
      obtain ⟨hpre, ⟨hcont, hcwf⟩, hpost⟩ := wf_entries_decomp hwf hcs
      obtain ⟨hwf1, hwf2, hms⟩ := (ih hcwf).2 ee heq
      have hlen2 : 2 ≤ (pre ++ (ee.1 :: ee.2 :: post)).length := by
        simp only [List.length_append, List.length_cons]
        omega
      obtain ⟨hsum, hne1, hne2⟩ :=
        quadSplit_spec (Prod.fst (β := RNode d α)) (mR C) hlen2
      have hallcs' : ∀ c ∈ pre ++ (ee.1 :: ee.2 :: post),
          (∀ x ∈ toListR c.2, c.1.memB x.coords) ∧ wfRN c.2 = true := by
        intro c hc
        rcases List.mem_append.mp hc with hc | hc
        · exact hpre c hc
        · rcases List.mem_cons.mp hc with rfl | hc
          · exact wfE_elim hwf1
          · rcases List.mem_cons.mp hc with rfl | hc
            · exact wfE_elim hwf2
            · exact hpost c hc
      have hmemg : ∀ {c : Box d × RNode d α},
          (c ∈ (quadSplit Prod.fst (mR C) (pre ++ (ee.1 :: ee.2 :: post))).1 ∨
           c ∈ (quadSplit Prod.fst (mR C) (pre ++ (ee.1 :: ee.2 :: post))).2) →
          c ∈ pre ++ (ee.1 :: ee.2 :: post) := by
        intro c hc
        have : c ∈ (↑(pre ++ (ee.1 :: ee.2 :: post))
            : Multiset (Box d × RNode d α)) := by
          rw [← hsum]
          rcases hc with hc | hc
          · exact Multiset.mem_add.mpr (Or.inl (by exact_mod_cast hc))
          · exact Multiset.mem_add.mpr (Or.inr (by exact_mod_cast hc))
        exact_mod_cast this
      have hwfg : ∀ {l : List (Box d × RNode d α)},
          (∀ c ∈ l, c ∈ pre ++ (ee.1 :: ee.2 :: post)) → l ≠ [] →
          wfE (unionE l, RNode.node l) = true := by
        intro l hl hne
        refine wfE_intro ?_ (wfRN_node_of hne (fun c hc => hallcs' c (hl c hc)))
        intro x hx
        rw [toListR_node] at hx
        obtain ⟨c, hc, hxc⟩ := List.mem_flatMap.mp hx
        have := (hallcs' c (hl c hc)).1 x hxc
        exact memB_unionL (List.mem_map_of_mem Prod.fst hc) this
      constructor
      · intro nd' h
        rw [insertR_node, hpk] at h
        dsimp only at h
        rw [heq] at h
        dsimp only at h
        rw [if_neg hlen] at h
        exact Sum.noConfusion h
      · intro ee2 h
        rw [insertR_node, hpk] at h
        dsimp only at h
        rw [heq] at h
        dsimp only at h
        rw [if_neg hlen] at h
        simp only [Sum.inr.injEq] at h
        subst h
        refine ⟨hwfg (fun c hc => hmemg (Or.inl hc)) hne1,
          hwfg (fun c hc => hmemg (Or.inr hc)) hne2, ?_⟩
        rw [nodePts_eq, nodePts_eq, ← Multiset.sum_add, ← Multiset.map_add,
          hsum]
        rw [← nodePts_eq, hcs, toListR_node_coe, toListR_node_coe]
        simp only [List.map_append, List.map_cons, List.sum_append,
          List.sum_cons]
        have hms' : entPts ee.1 + entPts ee.2 = p ::ₘ entPts (b, child) := hms
        have : entPts ee.1 + (entPts ee.2 + (post.map entPts).sum)
            = p ::ₘ (entPts (b, child) + (post.map entPts).sum) := by
          rw [← add_assoc, hms', Multiset.cons_add]
        rw [this, cons_add_right]

/-- The tight bounding box of a node's direct contents. -/
def tightBox {d : ℕ} {α : Type} : RNode d α → Box d
  | .leaf pts => unionPts pts
  | .node cs => unionE cs

theorem tightBox_memB {d : ℕ} {α : Type} {nd : RNode d α}
    (h : wfRN nd = true) : ∀ p ∈ toListR nd, (tightBox nd).memB p.coords := by
  cases nd with
  | leaf pts =>
      intro p hp
      rw [toListR_leaf] at hp
      exact memB_unionPts hp
  | node cs =>
      intro p hp
      rw [toListR_node] at hp
      obtain ⟨c, hc, hpc⟩ := List.mem_flatMap.mp hp
      obtain ⟨_, hall⟩ := wfRN_node h
      exact memB_unionL (List.mem_map_of_mem Prod.fst hc)
        ((hall c hc).1 p hpc)

/-- The point payload of a dissolved leaf (orphaned points). -/
def orphanPts {d : ℕ} {α : Type} : RNode d α → List (Pt d α)
  | .leaf pts => pts
  | .node _ => []

/-- The entries of a dissolved internal node, each tagged with its height
for level-correct reinsertion. -/
def orphanEnts {d : ℕ} {α : Type} : RNode d α →
    List (ℕ × Box d × RNode d α)
  | .leaf _ => []
  | .node cs => cs.map (fun c => (heightR c.2, c.1, c.2))

theorem orphan_split {d : ℕ} {α : Type} (nd : RNode d α) :
    (↑(orphanPts nd) : Multiset (Pt d α))
      + ((orphanEnts nd).map (fun e => (↑(toListR e.2.2) : Multiset (Pt d α)))).sum
      = ↑(toListR nd) := by
  cases nd with
  | leaf pts => simp [orphanPts, orphanEnts, toListR_leaf]
  | node cs =>
      simp only [orphanPts, orphanEnts, Multiset.coe_nil, zero_add,
        List.map_map]
      rw [toListR_node_coe]
      rfl

mutual

/-- Modelled from the spec: R/R* delete — find the leaf containing a point
equal to the target (coordinates AND payload) and remove it; a node left
under the minimum fill is dissolved and its remaining contents are
collected as orphans, propagating upward. -/
def delR {d : ℕ} {α : Type} [DecidableEq α] (m : ℕ) :
    RNode d α → Pt d α →
      RNode d α × Bool × List (Pt d α) × List (ℕ × Box d × RNode d α)
  | .leaf pts, p =>
      if p ∈ pts then (.leaf (pts.erase p), true, [], [])
      else (.leaf pts, false, [], [])
  | .node cs, p =>
      let r := delL m cs p
      (.node r.1, r.2)

def delL {d : ℕ} {α : Type} [DecidableEq α] (m : ℕ) :
    List (Box d × RNode d α) → Pt d α →
      List (Box d × RNode d α) × Bool × List (Pt d α)
        × List (ℕ × Box d × RNode d α)
  | [], _ => ([], false, [], [])
  | (b, n) :: rest, p =>
      if b.memB p.coords then
        let r := delR m n p
        if r.2.1 then
          if entryCount r.1 < m then
            (rest, true, r.2.2.1 ++ orphanPts r.1, r.2.2.2 ++ orphanEnts r.1)
          else ((tightBox r.1, r.1) :: rest, true, r.2.2.1, r.2.2.2)
        else
          let r2 := delL m rest p
          ((b, n) :: r2.1, r2.2)
      else
        let r2 := delL m rest p
        ((b, n) :: r2.1, r2.2)

end

/-- Entry-wise well-formedness of an entry list. -/
def entWfL {d : ℕ} {α : Type} (cs : List (Box d × RNode d α)) : Prop :=
  ∀ c ∈ cs, (∀ x ∈ toListR c.2, c.1.memB x.coords) ∧ wfRN c.2 = true

/-- Well-formedness of an orphan-entry list. -/
def orphWf {d : ℕ} {α : Type} (eo : List (ℕ × Box d × RNode d α)) : Prop :=
  ∀ e ∈ eo, wfE (e.2.1, e.2.2) = true

/-- The points stored below an orphan-entry list. -/
def eoPts {d : ℕ} {α : Type} (eo : List (ℕ × Box d × RNode d α)) :
    Multiset (Pt d α) :=
  (eo.map (fun e => (↑(toListR e.2.2) : Multiset (Pt d α)))).sum

theorem eoPts_append {d : ℕ} {α : Type} (a b : List (ℕ × Box d × RNode d α)) :
    eoPts (a ++ b) = eoPts a + eoPts b := by
  rw [eoPts, List.map_append, List.sum_append]
  rfl

theorem orphanEnts_wf {d : ℕ} {α : Type} {nd : RNode d α}
    (h : wfRN nd = true ∨ nd = RNode.node []) : orphWf (orphanEnts nd) := by
  rcases h with h | h
  · cases nd with
    | leaf pts => intro e he; exact absurd he (by simp [orphanEnts])
    | node cs =>
        intro e he
        simp only [orphanEnts, List.mem_map] at he
        obtain ⟨c, hc, rfl⟩ := he
        obtain ⟨_, hall⟩ := wfRN_node h
        obtain ⟨h1, h2⟩ := hall c hc
        exact wfE_intro h1 h2
  · subst h
    intro e he
    exact absurd he (by simp [orphanEnts])

theorem orphan_split_eo {d : ℕ} {α : Type} (nd : RNode d α) :
    (↑(orphanPts nd) : Multiset (Pt d α)) + eoPts (orphanEnts nd)
      = ↑(toListR nd) := orphan_split nd

/-- The combined specification of the condensing delete: entry lists stay
well-formed, the found flag reports membership, and when found, the kept
points plus all orphaned points are exactly the stored multiset minus one
copy of the target. -/
theorem delRL_spec {d : ℕ} {α : Type} [DecidableEq α] (m : ℕ) (hm : 1 ≤ m) :
    (∀ (nd : RNode d α) (p : Pt d α), wfRN nd = true →
      (wfRN (delR m nd p).1 = true ∨ (delR m nd p).1 = RNode.node []) ∧
      ((delR m nd p).2.1 = true ↔ p ∈ toListR nd) ∧
      ((delR m nd p).2.1 = true →
        (↑(toListR (delR m nd p).1) : Multiset (Pt d α))
          + ↑(delR m nd p).2.2.1 + eoPts (delR m nd p).2.2.2
          = (↑(toListR nd) : Multiset (Pt d α)).erase p) ∧
      ((delR m nd p).2.1 = false → (delR m nd p).1 = nd ∧
        (delR m nd p).2.2.1 = [] ∧ (delR m nd p).2.2.2 = []) ∧
      orphWf (delR m nd p).2.2.2) ∧
    (∀ (cs : List (Box d × RNode d α)) (p : Pt d α), entWfL cs →
      entWfL (delL m cs p).1 ∧
      ((delL m cs p).2.1 = true ↔ ∃ c ∈ cs, p ∈ toListR c.2) ∧
      ((delL m cs p).2.1 = true →
        ((delL m cs p).1.map entPts).sum
          + ↑(delL m cs p).2.2.1 + eoPts (delL m cs p).2.2.2
          = ((cs.map entPts).sum).erase p) ∧
      ((delL m cs p).2.1 = false → (delL m cs p).1 = cs ∧
        (delL m cs p).2.2.1 = [] ∧ (delL m cs p).2.2.2 = []) ∧
      orphWf (delL m cs p).2.2.2) := by
  refine delR.mutual_induct m _ _ ?c1 ?c2 ?c3 ?c4 ?c5 ?c6 ?c7 ?c8
  case c1 =>
    intro pts p hp _
    rw [delR, if_pos hp]
    refine ⟨Or.inl (wfRN_leaf _), ?_, ?_, ?_, ?_⟩
    · rw [toListR_leaf]; simpa using hp
    · intro _
      rw [toListR_leaf, toListR_leaf]
      show (↑(pts.erase p) : Multiset (Pt d α)) + 0 + eoPts [] = _
      rw [← Multiset.coe_erase]
      simp [eoPts]
    · intro h; exact absurd h (by simp)
    · intro e he; exact absurd he (by simp)
  case c2 =>
    intro pts p hp _
    rw [delR, if_neg hp]
    refine ⟨Or.inl (wfRN_leaf _), ?_, ?_, ?_, ?_⟩
    · rw [toListR_leaf]; simpa using hp
    · intro h; exact absurd h (by simp)
    · intro _; exact ⟨rfl, rfl, rfl⟩
    · intro e he; exact absurd he (by simp)
  case c3 =>
    intro cs p ih hwf
    obtain ⟨hne, hall⟩ := wfRN_node hwf
    obtain ⟨L1, L2, L3, L4, L5⟩ := ih hall
    rw [delR]
    refine ⟨?_, ?_, ?_, ?_, L5⟩
    · by_cases h : (delL m cs p).1 = []
      · exact Or.inr (by rw [h])
      · exact Or.inl (wfRN_node_of h L1)
    · rw [L2, toListR_node]
      simp [List.mem_flatMap]
    · intro hf
      rw [toListR_node_coe, toListR_node_coe]
      exact L3 hf
    · intro hf
      obtain ⟨h1, h2, h3⟩ := L4 hf
      exact ⟨by rw [h1], h2, h3⟩
  case c4 =>
    intro p _
    rw [delL]
    refine ⟨fun c hc => absurd hc (by simp), by simp, ?_, fun _ => ⟨rfl, rfl, rfl⟩,
      fun e he => absurd he (by simp)⟩
    intro h; exact absurd h (by simp)
  case c5 =>
    intro b n rest p hb r hf hu ih hcs
    have hn := hcs (b, n) (List.mem_cons_self _ _)
    obtain ⟨R1, R2, R3, R4, R5⟩ := ih hn.2
    rw [delL]
    dsimp only
    rw [if_pos hb, if_pos hf, if_pos hu]
    have hpm : p ∈ entPts (b, n) := by
      show p ∈ (↑(toListR n) : Multiset (Pt d α))
      exact_mod_cast R2.mp hf
    refine ⟨?_, ?_, ?_, ?_, ?_⟩
    · exact fun c hc => hcs c (List.mem_cons_of_mem _ hc)
    · constructor
      · intro _
        exact ⟨(b, n), List.mem_cons_self _ _, R2.mp hf⟩
      · intro _; rfl
    · intro _
      simp only [List.map_cons, List.sum_cons]
      rw [Multiset.erase_add_left_pos _ hpm]
      have h9 : (entPts (b, n)).erase p
          = ↑(toListR (delR m n p).1) + ↑(delR m n p).2.2.1
            + eoPts (delR m n p).2.2.2 := (R3 hf).symm
      rw [h9, ← orphan_split_eo (delR m n p).1]
      simp only [eoPts_append, ← Multiset.coe_add]
      abel
    · intro h; exact absurd h (by simp)
    · intro e he
      rcases List.mem_append.mp he with he | he
      · exact R5 e he
      · exact orphanEnts_wf R1 e he
  case c6 =>
    intro b n rest p hb r hf hu ih hcs
    have hn := hcs (b, n) (List.mem_cons_self _ _)
    obtain ⟨R1, R2, R3, R4, R5⟩ := ih hn.2
    have hwfr : wfRN (delR m n p).1 = true := by
      rcases R1 with h | h
      · exact h
      · exfalso
        apply hu
        rw [h]
        show (0 : ℕ) < m
        omega
    rw [delL]
    dsimp only
    rw [if_pos hb, if_pos hf, if_neg hu]
    have hpm : p ∈ entPts (b, n) := by
      show p ∈ (↑(toListR n) : Multiset (Pt d α))
      exact_mod_cast R2.mp hf
    refine ⟨?_, ?_, ?_, ?_, R5⟩
    · intro c hc
      rcases List.mem_cons.mp hc with rfl | hc
      · exact ⟨tightBox_memB hwfr, hwfr⟩
      · exact hcs c (List.mem_cons_of_mem _ hc)
    · constructor
      · intro _
        exact ⟨(b, n), List.mem_cons_self _ _, R2.mp hf⟩
      · intro _; rfl
    · intro _
      simp only [List.map_cons, List.sum_cons]
      rw [Multiset.erase_add_left_pos _ hpm]
      have h9 : (entPts (b, n)).erase p
          = ↑(toListR (delR m n p).1) + ↑(delR m n p).2.2.1
            + eoPts (delR m n p).2.2.2 := (R3 hf).symm
      rw [h9]
      show (↑(toListR (delR m n p).1) : Multiset (Pt d α))
          + (List.map entPts rest).sum + ↑(delR m n p).2.2.1
          + eoPts (delR m n p).2.2.2 = _
      abel
    · intro h; exact absurd h (by simp)
  case c7 =>
    intro b n rest p hb r hf ih ihl hcs
    have hn := hcs (b, n) (List.mem_cons_self _ _)
    obtain ⟨R1, R2, R3, R4, R5⟩ := ih hn.2
    obtain ⟨L1, L2, L3, L4, L5⟩ := ihl (fun c hc =>
      hcs c (List.mem_cons_of_mem _ hc))
    have hpn : p ∉ toListR n := fun hmem => hf (R2.mpr hmem)
    rw [delL]
    dsimp only
    rw [if_pos hb, if_neg (by simpa using hf)]
    refine ⟨?_, ?_, ?_, ?_, L5⟩
    · intro c hc
      rcases List.mem_cons.mp hc with rfl | hc
      · exact hn
      · exact L1 c hc
    · rw [L2]
      constructor
      · rintro ⟨c, hc, hpc⟩
        exact ⟨c, List.mem_cons_of_mem _ hc, hpc⟩
      · rintro ⟨c, hc, hpc⟩
        rcases List.mem_cons.mp hc with rfl | hc
        · exact absurd hpc hpn
        · exact ⟨c, hc, hpc⟩
    · intro hf2
      simp only [List.map_cons, List.sum_cons]
      have hprest : p ∈ (List.map entPts rest).sum := by
        obtain ⟨c, hc, hpc⟩ := L2.mp hf2
        exact mem_listSum.mpr ⟨c, hc, by exact_mod_cast hpc⟩
      rw [Multiset.erase_add_right_pos _ hprest]
      have h9 := L3 hf2
      rw [← h9]
      abel
    · intro hf2
      obtain ⟨h1, h2, h3⟩ := L4 hf2
      exact ⟨by rw [h1], h2, h3⟩
  case c8 =>
    intro b n rest p hb ihl hcs
    have hn := hcs (b, n) (List.mem_cons_self _ _)
    obtain ⟨L1, L2, L3, L4, L5⟩ := ihl (fun c hc =>
      hcs c (List.mem_cons_of_mem _ hc))
    have hpn : p ∉ toListR n := fun hmem => hb (hn.1 p hmem)
    rw [delL]
    dsimp only
    rw [if_neg hb]
    refine ⟨?_, ?_, ?_, ?_, L5⟩
    · intro c hc
      rcases List.mem_cons.mp hc with rfl | hc
      · exact hn
      · exact L1 c hc
    · rw [L2]
      constructor
      · rintro ⟨c, hc, hpc⟩
        exact ⟨c, List.mem_cons_of_mem _ hc, hpc⟩
      · rintro ⟨c, hc, hpc⟩
        rcases List.mem_cons.mp hc with rfl | hc
        · exact absurd hpc hpn
        · exact ⟨c, hc, hpc⟩
    · intro hf2
      simp only [List.map_cons, List.sum_cons]
      have hprest : p ∈ (List.map entPts rest).sum := by
        obtain ⟨c, hc, hpc⟩ := L2.mp hf2
        exact mem_listSum.mpr ⟨c, hc, by exact_mod_cast hpc⟩
      rw [Multiset.erase_add_right_pos _ hprest]
      have h9 := L3 hf2
      rw [← h9]
      abel
    · intro hf2
      obtain ⟨h1, h2, h3⟩ := L4 hf2
      exact ⟨by rw [h1], h2, h3⟩

/-- Modelled from the spec: reinsertion of an orphaned entry "at its
original level" — descend by ChooseSubtree for the given number of levels,
add the entry there, and split on overflow exactly as insert does.  A
level mismatch (reaching a leaf early) degrades to pairing the entry as a
sibling, which the caller resolves by a root split; no points are lost. -/
def insEnt {d : ℕ} {α : Type} (C : ℕ) :
    RNode d α → Box d × RNode d α → ℕ →
      RNode d α ⊕ ((Box d × RNode d α) × (Box d × RNode d α))
  | .leaf pts, e, _ => .inr ((unionPts pts, .leaf pts), e)
  | .node cs, e, 0 =>
      if (cs ++ [e]).length ≤ C then .inl (.node (cs ++ [e]))
      else
        let g := quadSplit Prod.fst (mR C) (cs ++ [e])
        .inr ((unionE g.1, .node g.1), (unionE g.2, .node g.2))
  | .node cs, e, (lvl+1) =>
      match hpk : pickAt cs (chooseIdx cs e.1) with
      | none => .inl (.node (cs ++ [e]))
      | some ((b, child), pre, post) =>
          match insEnt C child e lvl with
          | .inl child' =>
              .inl (.node (pre ++ ((b.union e.1, child') :: post)))
          | .inr ee =>
              if (pre ++ (ee.1 :: ee.2 :: post)).length ≤ C then
                .inl (.node (pre ++ (ee.1 :: ee.2 :: post)))
              else
                let g := quadSplit Prod.fst (mR C)
                  (pre ++ (ee.1 :: ee.2 :: post))
                .inr ((unionE g.1, .node g.1), (unionE g.2, .node g.2))
  termination_by nd _ lvl => lvl
  decreasing_by
    omega

/-- Entry reinsertion: well-formedness is preserved and the stored
multiset gains exactly the entry's points, in both outcomes. -/
theorem insEnt_spec {d : ℕ} {α : Type} (C : ℕ) (hC : 1 ≤ C) :
    ∀ (nd : RNode d α) (e : Box d × RNode d α) (lvl : ℕ),
      wfRN nd = true → wfE e = true →
      (∀ nd', insEnt C nd e lvl = .inl nd' →
        wfRN nd' = true ∧
        (↑(toListR nd') : Multiset (Pt d α))
          = ↑(toListR nd) + ↑(toListR e.2)) ∧
      (∀ ee : (Box d × RNode d α) × (Box d × RNode d α),
        insEnt C nd e lvl = .inr ee →
        wfE ee.1 = true ∧ wfE ee.2 = true ∧
        (↑(toListR ee.1.2) + ↑(toListR ee.2.2) : Multiset (Pt d α))
          = ↑(toListR nd) + ↑(toListR e.2)) := by
  intro nd e lvl
  induction nd, e, lvl using insEnt.induct C with
  | case1 pts e lvl =>
      intro hwf hwfe
      constructor
      · intro nd' h
        rw [insEnt] at h
        exact Sum.noConfusion h
      · intro ee h
        rw [insEnt] at h
        simp only [Sum.inr.injEq] at h
        subst h
        refine ⟨?_, hwfe, ?_⟩
        · exact wfE_intro (fun x hx => memB_unionPts (by
            rw [toListR_leaf] at hx; exact hx)) (wfRN_leaf _)
        · show (↑(toListR (RNode.leaf pts)) : Multiset (Pt d α))
            + ↑(toListR e.2) = _
          rfl
  | case2 cs e hlen =>
      intro hwf hwfe
      obtain ⟨hne, hall⟩ := wfRN_node hwf
      have hallx : ∀ c ∈ cs ++ [e],
          (∀ x ∈ toListR c.2, c.1.memB x.coords) ∧ wfRN c.2 = true := by
        intro c hc
        rcases List.mem_append.mp hc with hc | hc
        · exact hall c hc
        · rcases List.mem_cons.mp hc with rfl | hc
          · exact wfE_elim hwfe
          · exact absurd hc (by simp)
      constructor
      · intro nd' h
        rw [insEnt, if_pos hlen] at h
        simp only [Sum.inl.injEq] at h
        subst h
        refine ⟨wfRN_node_of (by simp) hallx, ?_⟩
        rw [toListR_node_coe, toListR_node_coe, List.map_append,
          List.sum_append]
        simp [entPts]
      · intro ee h
        rw [insEnt, if_pos hlen] at h
        exact Sum.noConfusion h
  | case3 cs e hlen =>
      intro hwf hwfe
      obtain ⟨hne, hall⟩ := wfRN_node hwf
      have hallx : ∀ c ∈ cs ++ [e],
          (∀ x ∈ toListR c.2, c.1.memB x.coords) ∧ wfRN c.2 = true := by
        intro c hc
        rcases List.mem_append.mp hc with hc | hc
        · exact hall c hc
        · rcases List.mem_cons.mp hc with rfl | hc
          · exact wfE_elim hwfe
          · exact absurd hc (by simp)
      have hlen2 : 2 ≤ (cs ++ [e]).length := by
        simp only [List.length_append, List.length_cons, List.length_nil]
        cases cs with
        | nil => exact absurd rfl hne
        | cons c cs => simp
      obtain ⟨hsum, hne1, hne2⟩ :=
        quadSplit_spec (Prod.fst (β := RNode d α)) (mR C) hlen2
      have hmemg : ∀ {c : Box d × RNode d α},
          (c ∈ (quadSplit Prod.fst (mR C) (cs ++ [e])).1 ∨
           c ∈ (quadSplit Prod.fst (mR C) (cs ++ [e])).2) → c ∈ cs ++ [e] := by
        intro c hc
        have : c ∈ (↑(cs ++ [e]) : Multiset (Box d × RNode d α)) := by
          rw [← hsum]
          rcases hc with hc | hc
          · exact Multiset.mem_add.mpr (Or.inl (by exact_mod_cast hc))
          · exact Multiset.mem_add.mpr (Or.inr (by exact_mod_cast hc))
        exact_mod_cast this
      have hwfg : ∀ {l : List (Box d × RNode d α)},
          (∀ c ∈ l, c ∈ cs ++ [e]) → l ≠ [] →
          wfE (unionE l, RNode.node l) = true := by
        intro l hl hnel
        refine wfE_intro ?_ (wfRN_node_of hnel (fun c hc => hallx c (hl c hc)))
        intro x hx
        rw [toListR_node] at hx
        obtain ⟨c, hc, hxc⟩ := List.mem_flatMap.mp hx
        exact memB_unionL (List.mem_map_of_mem Prod.fst hc)
          ((hallx c (hl c hc)).1 x hxc)
      constructor
      · intro nd' h
        rw [insEnt, if_neg hlen] at h
        exact Sum.noConfusion h
      · intro ee h
        rw [insEnt, if_neg hlen] at h
        simp only [Sum.inr.injEq] at h
        subst h
        refine ⟨hwfg (fun c hc => hmemg (Or.inl hc)) hne1,
          hwfg (fun c hc => hmemg (Or.inr hc)) hne2, ?_⟩
        rw [nodePts_eq, nodePts_eq, ← Multiset.sum_add, ← Multiset.map_add,
          hsum, ← nodePts_eq, toListR_node_coe, toListR_node_coe,
          List.map_append, List.sum_append]
        simp [entPts]
  | case4 cs e lvl hpk =>
      intro hwf hwfe
      exfalso
      obtain ⟨hne, _⟩ := wfRN_node hwf
      have hlt : chooseIdx cs e.1 < cs.length :=
        argminIdx_lt _ (by cases cs with
          | nil => exact absurd rfl hne
          | cons c cs => simp)
      have := pickAt_isSome hlt
      rw [hpk] at this
      exact absurd this (by simp)
  | case5 cs e lvl b child pre post hpk child' heq ih =>
      intro hwf hwfe
      have hcs := pickAt_eq hpk
      obtain ⟨hpre, ⟨hcont, hcwf⟩, hpost⟩ := wf_entries_decomp hwf hcs
      obtain ⟨hwf', hms⟩ := (ih hcwf hwfe).1 child' heq
      constructor
      · intro nd' h
        rw [insEnt, hpk] at h
        dsimp only at h
        rw [heq] at h
        simp only [Sum.inl.injEq] at h
        subst h
        constructor
        · refine wfRN_node_of (by simp) ?_
          intro c hc
          rcases List.mem_append.mp hc with hc | hc
          · exact hpre c hc
          · rcases List.mem_cons.mp hc with rfl | hc
            · refine ⟨?_, hwf'⟩
              intro x hx
              have hx' : x ∈ (↑(toListR child') : Multiset (Pt d α)) := by
                exact_mod_cast hx
              rw [hms] at hx'
              rcases Multiset.mem_add.mp hx' with hx' | hx'
              · exact memB_union_left _ (hcont x (by exact_mod_cast hx'))
              · exact memB_union_right b
                  ((wfE_elim hwfe).1 x (by exact_mod_cast hx'))
            · exact hpost c hc
        · rw [hcs, toListR_node_coe, toListR_node_coe]
          simp only [List.map_append, List.map_cons, List.sum_append,
            List.sum_cons]
          have hent : entPts (b.union e.1, child')
              = entPts (b, child) + ↑(toListR e.2) := hms
          rw [hent]
          abel
      · intro ee h
        rw [insEnt, hpk] at h
        dsimp only at h
        rw [heq] at h
        exact Sum.noConfusion h
  | case6 cs e lvl b child pre post hpk ee heq hlen ih =>
      intro hwf hwfe
      have hcs := pickAt_eq hpk
      obtain ⟨hpre, ⟨hcont, hcwf⟩, hpost⟩ := wf_entries_decomp hwf hcs
      obtain ⟨hwf1, hwf2, hms⟩ := (ih hcwf hwfe).2 ee heq
      constructor
      · intro nd' h
        rw [insEnt, hpk] at h
        dsimp only at h
        rw [heq] at h
        dsimp only at h
        rw [if_pos hlen] at h
        simp only [Sum.inl.injEq] at h
        subst h
        constructor
        · refine wfRN_node_of (by simp) ?_
          intro c hc
          rcases List.mem_append.mp hc with hc | hc
          · exact hpre c hc
          · rcases List.mem_cons.mp hc with rfl | hc
            · exact wfE_elim hwf1
            · rcases List.mem_cons.mp hc with rfl | hc
              · exact wfE_elim hwf2
              · exact hpost c hc
        · rw [hcs, toListR_node_coe, toListR_node_coe]
          simp only [List.map_append, List.map_cons, List.sum_append,
            List.sum_cons]
          have hms' : entPts ee.1 + entPts ee.2
              = entPts (b, child) + ↑(toListR e.2) := hms
          calc (List.map entPts pre).sum + (entPts ee.1
                + (entPts ee.2 + (List.map entPts post).sum))
              = (List.map entPts pre).sum + (entPts ee.1 + entPts ee.2)
                + (List.map entPts post).sum := by abel
            _ = (List.map entPts pre).sum + (entPts (b, child) + ↑(toListR e.2))
                + (List.map entPts post).sum := by rw [hms']
            _ = (List.map entPts pre).sum + (entPts (b, child)
                + (List.map entPts post).sum) + ↑(toListR e.2) := by abel
      · intro ee2 h
        rw [insEnt, hpk] at h
        dsimp only at h
        rw [heq] at h
        dsimp only at h
        rw [if_pos hlen] at h
        exact Sum.noConfusion h
  | case7 cs e lvl b child pre post hpk ee heq hlen ih =>
      intro hwf hwfe
      have hcs := pickAt_eq hpk
      obtain ⟨hpre, ⟨hcont, hcwf⟩, hpost⟩ := wf_entries_decomp hwf hcs
      obtain ⟨hwf1, hwf2, hms⟩ := (ih hcwf hwfe).2 ee heq
      have hlen2 : 2 ≤ (pre ++ (ee.1 :: ee.2 :: post)).length := by
        simp only [List.length_append, List.length_cons]
        omega
      obtain ⟨hsum, hne1, hne2⟩ :=
        quadSplit_spec (Prod.fst (β := RNode d α)) (mR C) hlen2
      have hallcs' : ∀ c ∈ pre ++ (ee.1 :: ee.2 :: post),
          (∀ x ∈ toListR c.2, c.1.memB x.coords) ∧ wfRN c.2 = true := by
        intro c hc
        rcases List.mem_append.mp hc with hc | hc
        · exact hpre c hc
        · rcases List.mem_cons.mp hc with rfl | hc
          · exact wfE_elim hwf1
          · rcases List.mem_cons.mp hc with rfl | hc
            · exact wfE_elim hwf2
            · exact hpost c hc
      have hmemg : ∀ {c : Box d × RNode d α},
          (c ∈ (quadSplit Prod.fst (mR C) (pre ++ (ee.1 :: ee.2 :: post))).1 ∨
           c ∈ (quadSplit Prod.fst (mR C) (pre ++ (ee.1 :: ee.2 :: post))).2) →
          c ∈ pre ++ (ee.1 :: ee.2 :: post) := by
        intro c hc
        have : c ∈ (↑(pre ++ (ee.1 :: ee.2 :: post))
            : Multiset (Box d × RNode d α)) := by
          rw [← hsum]
          rcases hc with hc | hc
          · exact Multiset.mem_add.mpr (Or.inl (by exact_mod_cast hc))
          · exact Multiset.mem_add.mpr (Or.inr (by exact_mod_cast hc))
        exact_mod_cast this
      have hwfg : ∀ {l : List (Box d × RNode d α)},
          (∀ c ∈ l, c ∈ pre ++ (ee.1 :: ee.2 :: post)) → l ≠ [] →
          wfE (unionE l, RNode.node l) = true := by
        intro l hl hnel
        refine wfE_intro ?_ (wfRN_node_of hnel (fun c hc => hallcs' c (hl c hc)))
        intro x hx
        rw [toListR_node] at hx
        obtain ⟨c, hc, hxc⟩ := List.mem_flatMap.mp hx
        exact memB_unionL (List.mem_map_of_mem Prod.fst hc)
          ((hallcs' c (hl c hc)).1 x hxc)
      constructor
      · intro nd' h
        rw [insEnt, hpk] at h
        dsimp only at h
        rw [heq] at h
        dsimp only at h
        rw [if_neg hlen] at h
        exact Sum.noConfusion h
      · intro ee2 h
        rw [insEnt, hpk] at h
        dsimp only at h
        rw [heq] at h
        dsimp only at h
        rw [if_neg hlen] at h
        simp only [Sum.inr.injEq] at h
        subst h
        refine ⟨hwfg (fun c hc => hmemg (Or.inl hc)) hne1,
          hwfg (fun c hc => hmemg (Or.inr hc)) hne2, ?_⟩
        rw [nodePts_eq, nodePts_eq, ← Multiset.sum_add, ← Multiset.map_add,
          hsum, ← nodePts_eq, hcs, toListR_node_coe, toListR_node_coe]
        simp only [List.map_append, List.map_cons, List.sum_append,
          List.sum_cons]
        have hms' : entPts ee.1 + entPts ee.2
            = entPts (b, child) + ↑(toListR e.2) := hms
        calc (List.map entPts pre).sum + (entPts ee.1
              + (entPts ee.2 + (List.map entPts post).sum))
            = (List.map entPts pre).sum + (entPts ee.1 + entPts ee.2)
              + (List.map entPts post).sum := by abel
          _ = (List.map entPts pre).sum + (entPts (b, child) + ↑(toListR e.2))
              + (List.map entPts post).sum := by rw [hms']
          _ = (List.map entPts pre).sum + (entPts (b, child)
              + (List.map entPts post).sum) + ↑(toListR e.2) := by abel

/-- The freshly constructed, empty R/R* tree. -/
def RTree.empty (d : ℕ) (α : Type) (cap : ℕ) : RTree d α := ⟨cap, .leaf []⟩

/-- Modelled from the spec: `insert(p)` — always succeeds for the R
families (no boundary); a root split creates a new root. -/
def RTree.insert {d : ℕ} {α : Type} (t : RTree d α) (p : Pt d α) :
    RTree d α :=
  match insertR t.cap t.root p with
  | .inl r => ⟨t.cap, r⟩
  | .inr ee => ⟨t.cap, .node [ee.1, ee.2]⟩

theorem RTree.insert_specR {d : ℕ} {α : Type} {t : RTree d α}
    (hC : 1 ≤ t.cap) (hwf : wfRN t.root = true) (p : Pt d α) :
    (t.insert p).cap = t.cap ∧ wfRN (t.insert p).root = true ∧
    (↑(t.insert p).toList : Multiset (Pt d α)) = p ::ₘ ↑t.toList := by
  obtain ⟨h1, h2⟩ := insertR_spec t.cap hC t.root p hwf
  unfold RTree.insert
  cases heq : insertR t.cap t.root p with
  | inl r =>
      obtain ⟨hw, hms⟩ := h1 r heq
      exact ⟨rfl, hw, hms⟩
  | inr ee =>
      obtain ⟨hw1, hw2, hms⟩ := h2 ee heq
      refine ⟨rfl, ?_, ?_⟩
      · refine wfRN_node_of (by simp) ?_
        intro c hc
        rcases List.mem_cons.mp hc with rfl | hc
        · exact wfE_elim hw1
        · rcases List.mem_cons.mp hc with rfl | hc
          · exact wfE_elim hw2
          · exact absurd hc (by simp)
      · show (↑(toListR (.node [ee.1, ee.2])) : Multiset (Pt d α)) = _
        rw [toListR_node_coe]
        simp only [List.map_cons, List.map_nil, List.sum_cons,
          List.sum_nil, add_zero]
        exact hms

/-- Modelled from the spec: `insert_bulk(ps)` for the R families — the
spec defines no special bulk algorithm here, so the points are inserted
sequentially. -/
def RTree.insert_bulk {d : ℕ} {α : Type} (t : RTree d α)
    (ps : List (Pt d α)) : RTree d α :=
  ps.foldl (fun a p => a.insert p) t

theorem RTree.insert_bulk_specR {d : ℕ} {α : Type} :
    ∀ (ps : List (Pt d α)) (t : RTree d α), 1 ≤ t.cap →
      wfRN t.root = true →
      (t.insert_bulk ps).cap = t.cap ∧
      wfRN (t.insert_bulk ps).root = true ∧
      (↑(t.insert_bulk ps).toList : Multiset (Pt d α)) = ↑t.toList + ↑ps := by
  intro ps
  induction ps with
  | nil =>
      intro t hC hwf
      refine ⟨rfl, hwf, ?_⟩
      show (↑t.toList : Multiset (Pt d α)) = ↑t.toList + ↑([] : List (Pt d α))
      simp
  | cons p ps ih =>
      intro t hC hwf
      obtain ⟨hc1, hw1, hm1⟩ := RTree.insert_specR hC hwf p
      obtain ⟨hc2, hw2, hm2⟩ := ih (t.insert p) (hc1 ▸ hC) hw1
      have hstep : t.insert_bulk (p :: ps) = (t.insert p).insert_bulk ps := by
        rw [RTree.insert_bulk, List.foldl_cons]
        rfl
      rw [hstep]
      refine ⟨by rw [hc2, hc1], hw2, ?_⟩
      rw [hm2, hm1, Multiset.cons_add, ← Multiset.cons_coe, cons_add_right]

/-- Reinsert an orphaned entry at its original height via the standard
insert path. -/
def RTree.insertEntry {d : ℕ} {α : Type} (t : RTree d α)
    (e : Box d × RNode d α) (h : ℕ) : RTree d α :=
  match insEnt t.cap t.root e (heightR t.root - 1 - h) with
  | .inl r => ⟨t.cap, r⟩
  | .inr ee => ⟨t.cap, .node [ee.1, ee.2]⟩

theorem RTree.insertEntry_spec {d : ℕ} {α : Type} {t : RTree d α}
    (hC : 1 ≤ t.cap) (hwf : wfRN t.root = true) {e : Box d × RNode d α}
    (hwfe : wfE e = true) (h : ℕ) :
    (t.insertEntry e h).cap = t.cap ∧
    wfRN (t.insertEntry e h).root = true ∧
    (↑(t.insertEntry e h).toList : Multiset (Pt d α))
      = ↑t.toList + ↑(toListR e.2) := by
  obtain ⟨h1, h2⟩ := insEnt_spec t.cap hC t.root e
    (heightR t.root - 1 - h) hwf hwfe
  unfold RTree.insertEntry
  cases heq : insEnt t.cap t.root e (heightR t.root - 1 - h) with
  | inl r =>
      obtain ⟨hw, hms⟩ := h1 r heq
      exact ⟨rfl, hw, hms⟩
  | inr ee =>
      obtain ⟨hw1, hw2, hms⟩ := h2 ee heq
      refine ⟨rfl, ?_, ?_⟩
      · refine wfRN_node_of (by simp) ?_
        intro c hc
        rcases List.mem_cons.mp hc with rfl | hc
        · exact wfE_elim hw1
        · rcases List.mem_cons.mp hc with rfl | hc
          · exact wfE_elim hw2
          · exact absurd hc (by simp)
      · show (↑(toListR (.node [ee.1, ee.2])) : Multiset (Pt d α)) = _
        rw [toListR_node_coe]
        simp only [List.map_cons, List.map_nil, List.sum_cons,
          List.sum_nil, add_zero]
        exact hms

/-- Modelled from the spec: the root clean-up after a delete — an emptied
root becomes an empty leaf, and a root with exactly one internal child is
replaced by that child. -/
def rootFix {d : ℕ} {α : Type} : RNode d α → RNode d α
  | .node [] => .leaf []
  | .node [(b, .node cs)] => .node cs
  | nd => nd

theorem rootFix_spec {d : ℕ} {α : Type} {nd : RNode d α}
    (h : wfRN nd = true ∨ nd = RNode.node []) :
    wfRN (rootFix nd) = true ∧
    (↑(toListR (rootFix nd)) : Multiset (Pt d α)) = ↑(toListR nd) := by
  rcases h with h | h
  · cases nd with
    | leaf pts => exact ⟨h, rfl⟩
    | node cs =>
        match cs with
        | [] =>
            obtain ⟨hne, _⟩ := wfRN_node h
            exact absurd rfl hne
        | [(b, RNode.leaf pts)] => exact ⟨h, rfl⟩
        | [(b, RNode.node cs2)] =>
            obtain ⟨_, hall⟩ := wfRN_node h
            refine ⟨(hall _ (List.mem_cons_self _ _)).2, ?_⟩
            have h1 : toListR (RNode.node [(b, RNode.node cs2)])
                = toListR (RNode.node cs2) := by
              rw [toListR_node]
              simp
            show (↑(toListR (RNode.node cs2)) : Multiset (Pt d α))
              = ↑(toListR (RNode.node [(b, RNode.node cs2)]))
            rw [h1]
        | e1 :: e2 :: rest =>
            have hfix : rootFix (RNode.node (e1 :: e2 :: rest))
                = RNode.node (e1 :: e2 :: rest) := by
              rcases e1 with ⟨b1, n1⟩
              cases n1 <;> rfl
            rw [hfix]
            exact ⟨h, rfl⟩
  · subst h
    have hfix : rootFix (RNode.node ([] : List (Box d × RNode d α)))
        = RNode.leaf [] := rfl
    rw [hfix]
    refine ⟨wfRN_leaf _, ?_⟩
    rw [toListR_leaf, toListR_node]
    simp

theorem foldl_insertEntry_spec {d : ℕ} {α : Type} :
    ∀ (eo : List (ℕ × Box d × RNode d α)) (t : RTree d α), 1 ≤ t.cap →
      wfRN t.root = true → orphWf eo →
      (eo.foldl (fun acc e => acc.insertEntry (e.2.1, e.2.2) e.1) t).cap
        = t.cap ∧
      wfRN (eo.foldl (fun acc e => acc.insertEntry (e.2.1, e.2.2) e.1) t).root
        = true ∧
      (↑(eo.foldl (fun acc e => acc.insertEntry (e.2.1, e.2.2) e.1) t).toList
          : Multiset (Pt d α))
        = ↑t.toList + eoPts eo := by
  intro eo
  induction eo with
  | nil => intro t hC hwf _; exact ⟨rfl, hwf, by simp [eoPts]⟩
  | cons e eo ih =>
      intro t hC hwf ho
      have hwfe := ho e (List.mem_cons_self _ _)
      obtain ⟨hc1, hw1, hm1⟩ := RTree.insertEntry_spec hC hwf hwfe e.1
      obtain ⟨hc2, hw2, hm2⟩ := ih _ (hc1 ▸ hC) hw1
        (fun x hx => ho x (List.mem_cons_of_mem _ hx))
      refine ⟨by rw [List.foldl_cons, hc2, hc1], hw2, ?_⟩
      rw [List.foldl_cons]
      rw [hm2, hm1, eoPts]
      simp only [List.map_cons, List.sum_cons]
      show _ = ↑t.toList + (↑(toListR e.2.2) + eoPts eo)
      rw [add_assoc]
      rfl

/-- Modelled from the spec: `delete(p)` for the R families — condensing
delete followed by reinsertion of the orphaned entries at their original
levels and of the orphaned points via the normal insert path. -/
def RTree.delete {d : ℕ} {α : Type} [DecidableEq α] (t : RTree d α)
    (p : Pt d α) : RTree d α × Bool :=
  if (delR (mR t.cap) t.root p).2.1 then
    ((((delR (mR t.cap) t.root p).2.2.2.foldl
        (fun acc e => acc.insertEntry (e.2.1, e.2.2) e.1)
        (⟨t.cap, rootFix (delR (mR t.cap) t.root p).1⟩ : RTree d α)).insert_bulk
          (delR (mR t.cap) t.root p).2.2.1), true)
  else (t, false)

theorem RTree.delete_specR {d : ℕ} {α : Type} [DecidableEq α]
    {t : RTree d α} (hC : 1 ≤ t.cap) (hwf : wfRN t.root = true)
    (p : Pt d α) :
    wfRN (t.delete p).1.root = true ∧
    ((t.delete p).2 = true ↔ p ∈ t.toList) ∧
    ((t.delete p).2 = true →
      (↑(t.delete p).1.toList : Multiset (Pt d α))
        = (↑t.toList : Multiset (Pt d α)).erase p) ∧
    ((t.delete p).2 = false → (t.delete p).1 = t) := by
  have hm : 1 ≤ mR t.cap := by simp [mR]
  obtain ⟨R1, R2, R3, R4, R5⟩ := (delRL_spec (mR t.cap) hm).1 t.root p hwf
  unfold RTree.delete
  by_cases hf : (delR (mR t.cap) t.root p).2.1 = true
  · rw [if_pos hf]
    obtain ⟨hwfix, hmfix⟩ := rootFix_spec R1
    obtain ⟨hc1, hw1, hm1⟩ := foldl_insertEntry_spec
      (delR (mR t.cap) t.root p).2.2.2
      ⟨t.cap, rootFix (delR (mR t.cap) t.root p).1⟩ hC hwfix R5
    obtain ⟨hc2, hw2, hm2⟩ := RTree.insert_bulk_specR
      (delR (mR t.cap) t.root p).2.2.1 _ (by rw [hc1]; exact hC) hw1
    refine ⟨hw2, ⟨fun _ => R2.mp hf, fun _ => rfl⟩, ?_, ?_⟩
    · intro _
      rw [hm2, hm1]
      have hfix' : (↑(RTree.toList
          (⟨t.cap, rootFix (delR (mR t.cap) t.root p).1⟩ : RTree d α))
            : Multiset (Pt d α))
          = ↑(toListR (delR (mR t.cap) t.root p).1) := hmfix
      rw [hfix']
      have := R3 hf
      show (↑(toListR (delR (mR t.cap) t.root p).1) : Multiset (Pt d α))
          + eoPts (delR (mR t.cap) t.root p).2.2.2
          + ↑(delR (mR t.cap) t.root p).2.2.1
          = (↑(toListR t.root) : Multiset (Pt d α)).erase p
      rw [← this]
      abel
    · intro h; exact absurd h (by simp)
  · rw [if_neg hf]
    rw [Bool.not_eq_true] at hf
    refine ⟨hwf, ?_, ?_, fun _ => rfl⟩
    · constructor
      · intro h; exact absurd h (by simp [hf])
      · intro hmem
        exact absurd (R2.mpr hmem) (by simp [hf])
    · intro h; exact absurd h (by simp [hf])

/-- The number of stored points does not depend on the capacity field. -/
theorem RTree.toList_emptyR (d : ℕ) (α : Type) (cap : ℕ) :
    (RTree.empty d α cap).toList = [] := toListR_leaf []

theorem wfRN_empty (d : ℕ) (α : Type) (cap : ℕ) :
    wfRN (RTree.empty d α cap).root = true := wfRN_leaf []

/-- Modelled from the spec: `RTree2D(capacity)` construction —
"capacity == 0 → argument error", otherwise a new empty tree. -/
def mkR (d : ℕ) (α : Type) (cap : ℕ) : Except String (RTree d α) :=
  if cap = 0 then .error "InvalidArgument: capacity must be positive"
  else .ok (RTree.empty d α cap)

/-! ## R*-tree

Same node shape and searches as the classic R-tree; the differences are
the minimum fill, ChooseSubtree at the level just above the leaves,
forced reinsertion on first overflow per level, and the margin-driven
split. -/

/-- Modelled from the spec: the R* minimum fill `m = ⌈0.4·C⌉`, clamped
to ≥ 1. -/
def mRStar (C : ℕ) : ℕ := max 1 ((2 * C + 4) / 5)

/-- Modelled from the spec: the reinsertion count `p = ⌈0.3·C⌉`. -/
def p30 (C : ℕ) : ℕ := max 1 ((3 * C + 9) / 10)

/-- The first element attaining the lexicographic minimum of `f`. -/
def minByL {γ : Type} (f : γ → ℚ × ℚ) : List γ → Option γ
  | [] => none
  | x :: xs =>
      match minByL f xs with
      | none => some x
      | some y => if lexLt (f y) (f x) then some y else some x

theorem minByL_mem {γ : Type} (f : γ → ℚ × ℚ) :
    ∀ {l : List γ} {x : γ}, minByL f l = some x → x ∈ l := by
  intro l
  induction l with
  | nil => intro x h; exact Option.noConfusion h
  | cons a as ih =>
      intro x h
      rw [minByL] at h
      cases hm : minByL f as with
      | none =>
          rw [hm] at h
          dsimp only at h
          simp only [Option.some.injEq] at h
          subst h
          exact List.mem_cons_self _ _
      | some y =>
          rw [hm] at h
          dsimp only at h
          by_cases hlt : lexLt (f y) (f x) = true
          · by_cases hlt2 : lexLt (f y) (f a) = true
            · rw [if_pos hlt2] at h
              simp only [Option.some.injEq] at h
              subst h
              exact List.mem_cons_of_mem _ (ih hm)
            · rw [if_neg hlt2] at h
              simp only [Option.some.injEq] at h
              subst h
              exact List.mem_cons_self _ _
          · by_cases hlt2 : lexLt (f y) (f a) = true
            · rw [if_pos hlt2] at h
              simp only [Option.some.injEq] at h
              subst h
              exact List.mem_cons_of_mem _ (ih hm)
            · rw [if_neg hlt2] at h
              simp only [Option.some.injEq] at h
              subst h
              exact List.mem_cons_self _ _

theorem minByL_ne_none {γ : Type} (f : γ → ℚ × ℚ) {l : List γ}
    (h : l ≠ []) : minByL f l ≠ none := by
  cases l with
  | nil => exact absurd rfl h
  | cons a as =>
      rw [minByL]
      cases minByL f as with
      | none => simp
      | some y =>
          dsimp only
          by_cases hlt : lexLt (f y) (f a) = true
          · rw [if_pos hlt]; simp
          · rw [if_neg hlt]; simp

section RStarSplit

variable {d : ℕ} {β : Type}

/-- Modelled from the spec: per-axis entry order for the R*-split — "sort
entries by lower then upper bound on that axis". -/
def axisSorted (bx : β → Box d) (a : Fin d) (l : List β) : List β :=
  l.mergeSort (fun x y => decide ((bx x).lo a < (bx y).lo a ∨
    ((bx x).lo a = (bx y).lo a ∧ (bx x).hi a ≤ (bx y).hi a)))

theorem axisSorted_perm (bx : β → Box d) (a : Fin d) (l : List β) :
    List.Perm (axisSorted bx a l) l := List.mergeSort_perm l _

/-- Modelled from the spec: the valid splits on an axis — "for each split
index from `m` to `C − m + 1` produce two groups" (first `k` entries of
the axis order against the rest). -/
def splitsFor (bx : β → Box d) (m : ℕ) (a : Fin d) (l : List β) :
    List (List β × List β) :=
  ((List.range (l.length + 1)).filter
    (fun k => decide (m ≤ k) && decide (k + m ≤ l.length))).map
    (fun k => ((axisSorted bx a l).take k, (axisSorted bx a l).drop k))

theorem splitsFor_mem {bx : β → Box d} {m : ℕ} {a : Fin d} {l : List β}
    {g : List β × List β} (hm : 1 ≤ m) (h : g ∈ splitsFor bx m a l) :
    (↑g.1 + ↑g.2 : Multiset β) = ↑l ∧ g.1 ≠ [] ∧ g.2 ≠ [] := by
  obtain ⟨k, hk, rfl⟩ := List.mem_map.mp h
  rw [List.mem_filter] at hk
  obtain ⟨hkr, hcond⟩ := hk
  rw [Bool.and_eq_true, decide_eq_true_eq, decide_eq_true_eq] at hcond
  obtain ⟨hmk, hkm⟩ := hcond
  have hlen : (axisSorted bx a l).length = l.length :=
    (axisSorted_perm bx a l).length_eq
  refine ⟨?_, ?_, ?_⟩
  · show (↑((axisSorted bx a l).take k) : Multiset β)
      + ↑((axisSorted bx a l).drop k) = ↑l
    rw [Multiset.coe_add, List.take_append_drop]
    exact Quot.sound (axisSorted_perm bx a l)
  · have hlt : ((axisSorted bx a l).take k).length = min k l.length := by
      rw [List.length_take, hlen]
    intro hnil
    have hnil' : (axisSorted bx a l).take k = [] := hnil
    rw [hnil'] at hlt
    simp only [List.length_nil] at hlt
    omega
  · have hld : ((axisSorted bx a l).drop k).length = l.length - k := by
      rw [List.length_drop, hlen]
    intro hnil
    have hnil' : (axisSorted bx a l).drop k = [] := hnil
    rw [hnil'] at hld
    simp only [List.length_nil] at hld
    omega

theorem splitsFor_ne_nil {bx : β → Box d} {m : ℕ} {a : Fin d} {l : List β}
    (hm : 1 ≤ m) (h2 : 2 * m ≤ l.length) : splitsFor bx m a l ≠ [] := by
  have hmem : m ∈ (List.range (l.length + 1)).filter
      (fun k => decide (m ≤ k) && decide (k + m ≤ l.length)) := by
    rw [List.mem_filter]
    refine ⟨List.mem_range.mpr (by omega), ?_⟩
    rw [Bool.and_eq_true, decide_eq_true_eq, decide_eq_true_eq]
    omega
  rw [splitsFor]
  intro hcontra
  rw [List.map_eq_nil_iff] at hcontra
  rw [hcontra] at hmem
  exact absurd hmem (by simp)

/-- Modelled from the spec: the total margin of an axis — the sum of
`perimeter(group1.box) + perimeter(group2.box)` over all its splits. -/
def marginSum (bx : β → Box d) (m : ℕ) (a : Fin d) (l : List β) : ℚ :=
  ((splitsFor bx m a l).map (fun g =>
    (unionL (g.1.map bx)).margin + (unionL (g.2.map bx)).margin)).sum

/-- Modelled from the spec: the R*-split — choose the axis with minimum
total margin, then on that axis the split with minimum overlap (tie →
minimum area sum). -/
def rstarSplit (bx : β → Box d) (m : ℕ) (l : List β) : List β × List β :=
  match minByL (fun a => (marginSum bx m a l, 0)) (List.finRange d) with
  | none => (l, [])
  | some a =>
      match minByL (fun g =>
          ((unionL (g.1.map bx)).overlap (unionL (g.2.map bx)),
            (unionL (g.1.map bx)).area + (unionL (g.2.map bx)).area))
          (splitsFor bx m a l) with
      | none => (l, [])
      | some g => g

theorem rstarSplit_spec {bx : β → Box d} {m : ℕ} {l : List β}
    (hm : 1 ≤ m) (h2 : 2 * m ≤ l.length) (hd : 0 < d) :
    (↑(rstarSplit bx m l).1 + ↑(rstarSplit bx m l).2 : Multiset β) = ↑l ∧
    (rstarSplit bx m l).1 ≠ [] ∧ (rstarSplit bx m l).2 ≠ [] := by
  rw [rstarSplit]
  split
  · rename_i hax
    exfalso
    refine minByL_ne_none _ ?_ hax
    intro hnil
    have hlfr : (List.finRange d).length = d := List.length_finRange d
    rw [hnil] at hlfr
    simp only [List.length_nil] at hlfr
    omega
  · rename_i a hax
    split
    · rename_i hsp
      exact absurd hsp (minByL_ne_none _ (splitsFor_ne_nil hm h2))
    · rename_i g hsp
      exact splitsFor_mem hm (minByL_mem _ hsp)

end RStarSplit

/-- Lexicographic order on cost triples. -/
def lexLt3 (a b : ℚ × ℚ × ℚ) : Bool :=
  decide (a.1 < b.1) || (decide (a.1 = b.1) && lexLt a.2 b.2)

/-- The first index minimising a lexicographic cost triple. -/
def argminIdx3 (f : ℕ → ℚ × ℚ × ℚ) (n : ℕ) : ℕ :=
  (List.range n).foldl (fun b i => if lexLt3 (f i) (f b) then i else b) 0

theorem argminIdx3_lt (f : ℕ → ℚ × ℚ × ℚ) {n : ℕ} (h : 0 < n) :
    argminIdx3 f n < n := by
  rw [argminIdx3]
  have hstep : ∀ {l : List ℕ} {acc : ℕ}, acc < n → (∀ i ∈ l, i < n) →
      l.foldl (fun b i => if lexLt3 (f i) (f b) then i else b) acc < n := by
    intro l
    induction l with
    | nil => intro acc h _; exact h
    | cons x xs ih =>
        intro acc hacc hall
        rw [List.foldl_cons]
        refine ih ?_ (fun i hi => hall i (List.mem_cons_of_mem _ hi))
        by_cases hx : lexLt3 (f x) (f acc) = true
        · rw [if_pos hx]; exact hall x (List.mem_cons_self _ _)
        · rw [if_neg hx]; exact hacc
  exact hstep h (fun i hi => List.mem_range.mp hi)

/-- Whether a node is a leaf. -/
def isLeafN {d : ℕ} {α : Type} : RNode d α → Bool
  | .leaf _ => true
  | .node _ => false

/-- Modelled from the spec: the R* overlap enlargement of child `i` when
its box is extended by `x` — the growth of its total overlap with the
sibling boxes. -/
def ovlEnl {d : ℕ} {α : Type} (cs : List (Box d × RNode d α)) (i : ℕ)
    (x : Box d) : ℚ :=
  ((List.range cs.length).filter (fun j => decide (j ≠ i))).foldl
    (fun acc j =>
      acc + ((((cs.getD i (dfltE d α)).1.union x).overlap
                (cs.getD j (dfltE d α)).1)
             - ((cs.getD i (dfltE d α)).1.overlap
                (cs.getD j (dfltE d α)).1))) 0

/-- Modelled from the spec: R* ChooseSubtree — at the level just above
the leaves, minimum overlap enlargement (ties → minimum area enlargement,
then minimum area); at deeper levels, minimum area enlargement (ties →
minimum area), as in the classic R-tree. -/
def chooseIdxRS {d : ℕ} {α : Type} (cs : List (Box d × RNode d α))
    (x : Box d) : ℕ :=
  if cs.all (fun c => isLeafN c.2) then
    argminIdx3 (fun i => (ovlEnl cs i x,
      enlarge (cs.getD i (dfltE d α)).1 x,
      ((cs.getD i (dfltE d α)).1).area)) cs.length
  else
    argminIdx (fun i => (enlarge (cs.getD i (dfltE d α)).1 x,
      ((cs.getD i (dfltE d α)).1).area)) cs.length

theorem chooseIdxRS_lt {d : ℕ} {α : Type} {cs : List (Box d × RNode d α)}
    (x : Box d) (h : cs ≠ []) : chooseIdxRS cs x < cs.length := by
  have hn : 0 < cs.length := by
    cases cs with
    | nil => exact absurd rfl h
    | cons c cs => simp
  rw [chooseIdxRS]
  by_cases hl : cs.all (fun c => isLeafN c.2) = true
  · rw [if_pos hl]; exact argminIdx3_lt _ hn
  · rw [if_neg hl]; exact argminIdx_lt _ hn

/-- A pending reinsertion item: a point, or an orphaned entry tagged with
its height. -/
def RItem (d : ℕ) (α : Type) : Type := Pt d α ⊕ (ℕ × Box d × RNode d α)

/-- The points carried by an item. -/
def itemPts {d : ℕ} {α : Type} : RItem d α → Multiset (Pt d α)
  | .inl p => {p}
  | .inr e => ↑(toListR e.2.2)

/-- Item well-formedness: an orphaned entry's box contains its points. -/
def itemWf {d : ℕ} {α : Type} : RItem d α → Prop
  | .inl _ => True
  | .inr e => wfE (e.2.1, e.2.2) = true

/-- The box an item occupies, used by ChooseSubtree. -/
def itemBox {d : ℕ} {α : Type} : RItem d α → Box d
  | .inl p => ptBox p
  | .inr e => e.2.1

def itemsWfL {d : ℕ} {α : Type} (l : List (RItem d α)) : Prop :=
  ∀ x ∈ l, itemWf x

def itemsPts {d : ℕ} {α : Type} (l : List (RItem d α)) : Multiset (Pt d α) :=
  (l.map itemPts).sum

theorem itemsPts_append {d : ℕ} {α : Type} (a b : List (RItem d α)) :
    itemsPts (a ++ b) = itemsPts a + itemsPts b := by
  rw [itemsPts, List.map_append, List.sum_append]
  rfl

/-- Modelled from the spec: the R* overflow treatment for an entry list —
"the first time a given level overflows during a single top-level
insertion, perform forced reinsertion": remove the `p = ⌈0.3·C⌉` entries
whose centers are farthest from the node's box center and queue them for
reinsertion at the same level; on a subsequent overflow at that level,
perform the R*-split instead. -/
def ovHandleE {d : ℕ} {α : Type} (C : ℕ) (done : List ℕ) (L : ℕ)
    (cs' : List (Box d × RNode d α)) :
    (RNode d α ⊕ ((Box d × RNode d α) × (Box d × RNode d α)))
      × List (RItem d α) × List ℕ :=
  if cs'.length ≤ C then (.inl (.node cs'), [], done)
  else if L ∈ done then
    let g := rstarSplit Prod.fst (mRStar C) cs'
    (.inr ((unionE g.1, .node g.1), (unionE g.2, .node g.2)), [], done)
  else
    ((.inl (.node ((cs'.mergeSort (fun x y =>
        decide (d2 ((unionE cs').center) (y.1.center)
          ≤ d2 ((unionE cs').center) (x.1.center)))).drop (p30 C)))),
      ((cs'.mergeSort (fun x y =>
        decide (d2 ((unionE cs').center) (y.1.center)
          ≤ d2 ((unionE cs').center) (x.1.center)))).take (p30 C)).map
        (fun c => .inr (heightR c.2, c.1, c.2)),
      L :: done)

/-- Modelled from the spec: the same overflow treatment at the leaf
level, acting on points. -/
def ovHandleP {d : ℕ} {α : Type} (C : ℕ) (done : List ℕ)
    (pts : List (Pt d α)) :
    (RNode d α ⊕ ((Box d × RNode d α) × (Box d × RNode d α)))
      × List (RItem d α) × List ℕ :=
  if pts.length ≤ C then (.inl (.leaf pts), [], done)
  else if 0 ∈ done then
    let g := rstarSplit ptBox (mRStar C) pts
    (.inr ((unionPts g.1, .leaf g.1), (unionPts g.2, .leaf g.2)), [], done)
  else
    ((.inl (.leaf ((pts.mergeSort (fun x y =>
        decide (d2 ((unionPts pts).center) y.coords
          ≤ d2 ((unionPts pts).center) x.coords))).drop (p30 C)))),
      ((pts.mergeSort (fun x y =>
        decide (d2 ((unionPts pts).center) y.coords
          ≤ d2 ((unionPts pts).center) x.coords))).take (p30 C)).map Sum.inl,
      0 :: done)

/-- Modelled from the spec: one R* insertion descent — R* ChooseSubtree,
add at the target (leaf for points, the recorded level for orphan
entries), and treat overflow by forced reinsertion or R*-split. -/
def insRS {d : ℕ} {α : Type} (C : ℕ) :
    RNode d α → RItem d α → ℕ → List ℕ →
      (RNode d α ⊕ ((Box d × RNode d α) × (Box d × RNode d α)))
        × List (RItem d α) × List ℕ
  | .leaf pts, .inl p, _, done => ovHandleP C done (pts ++ [p])
  | .leaf pts, .inr e, _, done =>
      (.inr ((unionPts pts, .leaf pts), (e.2.1, e.2.2)), [], done)
  | .node cs, .inr e, 0, done =>
      ovHandleE C done (heightR (.node cs)) (cs ++ [(e.2.1, e.2.2)])
  | .node cs, it, lvl+1, done =>
      match hpk : pickAt cs (chooseIdxRS cs (itemBox it)) with
      | none => (.inl (.node cs), [it], done)
      | some ((b, child), pre, post) =>
          match insRS C child it lvl done with
          | (.inl child', items, done') =>
              (.inl (.node (pre ++ ((b.union (itemBox it), child') :: post))),
                items, done')
          | (.inr ee, items, done') =>
              let h := ovHandleE C done' (heightR (.node cs))
                (pre ++ (ee.1 :: ee.2 :: post))
              (h.1, items ++ h.2.1, h.2.2)
  | .node cs, .inl p, 0, done =>
      match hpk : pickAt cs (chooseIdxRS cs (ptBox p)) with
      | none => (.inl (.node cs), [.inl p], done)
      | some ((b, child), pre, post) =>
          match insRS C child (.inl p) 0 done with
          | (.inl child', items, done') =>
              (.inl (.node (pre ++ ((b.union (ptBox p), child') :: post))),
                items, done')
          | (.inr ee, items, done') =>
              let h := ovHandleE C done' (heightR (.node cs))
                (pre ++ (ee.1 :: ee.2 :: post))
              (h.1, items ++ h.2.1, h.2.2)
  termination_by nd => sizeOf nd
  decreasing_by
  · have hcs := pickAt_eq hpk
    have hmm : (b, child) ∈ cs := by
      rw [hcs]
      exact List.mem_append_right _ (List.mem_cons_self _ _)
    have := sizeOf_snd_lt_of_mem hmm
    simp only [RNode.node.sizeOf_spec]
    omega
  · have hcs := pickAt_eq hpk
    have hmm : (b, child) ∈ cs := by
      rw [hcs]
      exact List.mem_append_right _ (List.mem_cons_self _ _)
    have := sizeOf_snd_lt_of_mem hmm
    simp only [RNode.node.sizeOf_spec]
    omega

theorem sum_map_singleton_list {β : Type} (l : List β) :
    (l.map (fun a => ({a} : Multiset β))).sum = ↑l := by
  induction l with
  | nil => simp
  | cons x xs ih =>
      simp only [List.map_cons, List.sum_cons, ih]
      rw [← Multiset.cons_coe, ← Multiset.singleton_add]

theorem mRStar_le (C : ℕ) (hC : 1 ≤ C) : 2 * mRStar C ≤ C + 1 := by
  rw [mRStar]
  omega

theorem p30_le (C : ℕ) (hC : 1 ≤ C) : p30 C ≤ C := by
  rw [p30]
  omega

theorem ovHandleE_spec {d : ℕ} {α : Type} (C : ℕ) (hC : 1 ≤ C)
    (hd : 0 < d) (done : List ℕ) (L : ℕ)
    {cs' : List (Box d × RNode d α)} (hne : cs' ≠ []) (hall : entWfL cs') :
    (∀ nd' items done', ovHandleE C done L cs' = (.inl nd', items, done') →
      wfRN nd' = true ∧
      ((↑(toListR nd') : Multiset (Pt d α)) + itemsPts items
        = (cs'.map entPts).sum) ∧
      itemsWfL items) ∧
    (∀ (ee : (Box d × RNode d α) × (Box d × RNode d α)) items done',
      ovHandleE C done L cs' = (.inr ee, items, done') →
      wfE ee.1 = true ∧ wfE ee.2 = true ∧
      ((↑(toListR ee.1.2) + ↑(toListR ee.2.2) : Multiset (Pt d α))
        + itemsPts items = (cs'.map entPts).sum) ∧
      itemsWfL items) := by
  by_cases hlen : cs'.length ≤ C
  · constructor
    · intro nd' items done' h
      rw [ovHandleE, if_pos hlen] at h
      simp only [Prod.mk.injEq, Sum.inl.injEq] at h
      obtain ⟨rfl, rfl, rfl⟩ := h
      refine ⟨wfRN_node_of hne hall, ?_, fun x hx => absurd hx (by simp)⟩
      rw [toListR_node_coe]
      simp [itemsPts]
    · intro ee items done' h
      rw [ovHandleE, if_pos hlen] at h
      simp only [Prod.mk.injEq] at h
      exact absurd h.1 (by simp)
  · have hlen2 : C + 1 ≤ cs'.length := by omega
    by_cases hdone : L ∈ done
    · have hsp : (↑(rstarSplit (Prod.fst (β := RNode d α)) (mRStar C) cs').1
          + ↑(rstarSplit Prod.fst (mRStar C) cs').2
          : Multiset (Box d × RNode d α)) = ↑cs' ∧
          (rstarSplit Prod.fst (mRStar C) cs').1 ≠ [] ∧
          (rstarSplit Prod.fst (mRStar C) cs').2 ≠ [] :=
        rstarSplit_spec (by rw [mRStar]; omega)
          (le_trans (mRStar_le C hC) hlen2) hd
      obtain ⟨hsum, hne1, hne2⟩ := hsp
      have hmemg : ∀ {c : Box d × RNode d α},
          (c ∈ (rstarSplit Prod.fst (mRStar C) cs').1 ∨
           c ∈ (rstarSplit Prod.fst (mRStar C) cs').2) → c ∈ cs' := by
        intro c hc
        have : c ∈ (↑cs' : Multiset (Box d × RNode d α)) := by
          rw [← hsum]
          rcases hc with hc | hc
          · exact Multiset.mem_add.mpr (Or.inl (by exact_mod_cast hc))
          · exact Multiset.mem_add.mpr (Or.inr (by exact_mod_cast hc))
        exact_mod_cast this
      have hwfg : ∀ {l : List (Box d × RNode d α)},
          (∀ c ∈ l, c ∈ cs') → l ≠ [] →
          wfE (unionE l, RNode.node l) = true := by
        intro l hl hnel
        refine wfE_intro ?_ (wfRN_node_of hnel (fun c hc => hall c (hl c hc)))
        intro x hx
        rw [toListR_node] at hx
        obtain ⟨c, hc, hxc⟩ := List.mem_flatMap.mp hx
        exact memB_unionL (List.mem_map_of_mem Prod.fst hc)
          ((hall c (hl c hc)).1 x hxc)
      constructor
      · intro nd' items done' h
        rw [ovHandleE, if_neg hlen, if_pos hdone] at h
        simp only [Prod.mk.injEq] at h
        exact absurd h.1 (by simp)
      · intro ee items done' h
        rw [ovHandleE, if_neg hlen, if_pos hdone] at h
        simp only [Prod.mk.injEq, Sum.inr.injEq] at h
        obtain ⟨rfl, rfl, rfl⟩ := h
        refine ⟨hwfg (fun c hc => hmemg (Or.inl hc)) hne1,
          hwfg (fun c hc => hmemg (Or.inr hc)) hne2, ?_,
          fun x hx => absurd hx (by simp)⟩
        rw [nodePts_eq, nodePts_eq, ← Multiset.sum_add, ← Multiset.map_add,
          hsum, ← nodePts_eq, toListR_node_coe]
        simp [itemsPts]
    · constructor
      · intro nd' items done' h
        rw [ovHandleE, if_neg hlen, if_neg hdone] at h
        simp only [Prod.mk.injEq, Sum.inl.injEq] at h
        obtain ⟨rfl, rfl, rfl⟩ := h
        set srt := cs'.mergeSort (fun x y =>
          decide (d2 ((unionE cs').center) (y.1.center)
            ≤ d2 ((unionE cs').center) (x.1.center))) with hsrt
        have hperm : List.Perm srt cs' := List.mergeSort_perm cs' _
        have hmems2 : ∀ {c : Box d × RNode d α}, c ∈ srt → c ∈ cs' :=
          fun hc => hperm.mem_iff.mp hc
        refine ⟨?_, ?_, ?_⟩
        · refine wfRN_node_of ?_
            (fun c hc => hall c (hmems2 (List.mem_of_mem_drop hc)))
          intro hnil
          have hlend : (srt.drop (p30 C)).length = cs'.length - p30 C := by
            rw [List.length_drop, hsrt, List.length_mergeSort]
          rw [hnil] at hlend
          simp only [List.length_nil] at hlend
          have := p30_le C hC
          omega
        · rw [toListR_node_coe, itemsPts, List.map_map]
          have htake : (srt.take (p30 C)).map
              ((fun it => itemPts it) ∘ (fun c : Box d × RNode d α =>
                (Sum.inr (heightR c.2, c.1, c.2) : RItem d α)))
              = (srt.take (p30 C)).map entPts :=
            List.map_congr_left (fun c _ => rfl)
          rw [htake, ← List.sum_append, ← List.map_append]
          have hp2 : List.Perm (srt.drop (p30 C) ++ srt.take (p30 C)) cs' := by
            refine List.Perm.trans List.perm_append_comm ?_
            rw [List.take_append_drop]
            exact hperm
          exact (hp2.map entPts).sum_eq
        · intro x hx
          obtain ⟨c, hc, rfl⟩ := List.mem_map.mp hx
          show wfE (c.1, c.2) = true
          obtain ⟨h1, h2⟩ := hall c (hmems2 (List.mem_of_mem_take hc))
          exact wfE_intro h1 h2
      · intro ee items done' h
        rw [ovHandleE, if_neg hlen, if_neg hdone] at h
        simp only [Prod.mk.injEq] at h
        exact absurd h.1 (by simp)

theorem ovHandleP_spec {d : ℕ} {α : Type} (C : ℕ) (hC : 1 ≤ C)
    (hd : 0 < d) (done : List ℕ) {pts : List (Pt d α)} :
    (∀ nd' items done', ovHandleP C done pts = (.inl nd', items, done') →
      wfRN nd' = true ∧
      ((↑(toListR nd') : Multiset (Pt d α)) + itemsPts items = ↑pts) ∧
      itemsWfL items) ∧
    (∀ (ee : (Box d × RNode d α) × (Box d × RNode d α)) items done',
      ovHandleP C done pts = (.inr ee, items, done') →
      wfE ee.1 = true ∧ wfE ee.2 = true ∧
      ((↑(toListR ee.1.2) + ↑(toListR ee.2.2) : Multiset (Pt d α))
        + itemsPts items = ↑pts) ∧
      itemsWfL items) := by
  by_cases hlen : pts.length ≤ C
  · constructor
    · intro nd' items done' h
      rw [ovHandleP, if_pos hlen] at h
      simp only [Prod.mk.injEq, Sum.inl.injEq] at h
      obtain ⟨rfl, rfl, rfl⟩ := h
      refine ⟨wfRN_leaf _, ?_, fun x hx => absurd hx (by simp)⟩
      rw [toListR_leaf]
      simp [itemsPts]
    · intro ee items done' h
      rw [ovHandleP, if_pos hlen] at h
      simp only [Prod.mk.injEq] at h
      exact absurd h.1 (by simp)
  · have hlen2 : C + 1 ≤ pts.length := by omega
    by_cases hdone : (0 : ℕ) ∈ done
    · have hsp : (↑(rstarSplit (ptBox (d := d) (α := α)) (mRStar C) pts).1
          + ↑(rstarSplit ptBox (mRStar C) pts).2 : Multiset (Pt d α)) = ↑pts ∧
          (rstarSplit ptBox (mRStar C) pts).1 ≠ [] ∧
          (rstarSplit ptBox (mRStar C) pts).2 ≠ [] :=
        rstarSplit_spec (by rw [mRStar]; omega)
          (le_trans (mRStar_le C hC) hlen2) hd
      obtain ⟨hsum, hne1, hne2⟩ := hsp
      constructor
      · intro nd' items done' h
        rw [ovHandleP, if_neg hlen, if_pos hdone] at h
        simp only [Prod.mk.injEq] at h
        exact absurd h.1 (by simp)
      · intro ee items done' h
        rw [ovHandleP, if_neg hlen, if_pos hdone] at h
        simp only [Prod.mk.injEq, Sum.inr.injEq] at h
        obtain ⟨rfl, rfl, rfl⟩ := h
        refine ⟨?_, ?_, ?_, fun x hx => absurd hx (by simp)⟩
        · exact wfE_intro (fun x hx => memB_unionPts (by
            rw [toListR_leaf] at hx; exact hx)) (wfRN_leaf _)
        · exact wfE_intro (fun x hx => memB_unionPts (by
            rw [toListR_leaf] at hx; exact hx)) (wfRN_leaf _)
        · show (↑(toListR (RNode.leaf (rstarSplit ptBox (mRStar C) pts).1))
              : Multiset (Pt d α))
              + ↑(toListR (RNode.leaf (rstarSplit ptBox (mRStar C) pts).2))
              + itemsPts [] = ↑pts
          rw [toListR_leaf, toListR_leaf]
          simp only [itemsPts, List.map_nil, List.sum_nil, add_zero]
          exact hsum
    · constructor
      · intro nd' items done' h
        rw [ovHandleP, if_neg hlen, if_neg hdone] at h
        simp only [Prod.mk.injEq, Sum.inl.injEq] at h
        obtain ⟨rfl, rfl, rfl⟩ := h
        set srt := pts.mergeSort (fun x y =>
          decide (d2 ((unionPts pts).center) y.coords
            ≤ d2 ((unionPts pts).center) x.coords)) with hsrt
        have hperm : List.Perm srt pts := List.mergeSort_perm pts _
        refine ⟨wfRN_leaf _, ?_, fun x hx => ?_⟩
        · rw [toListR_leaf, itemsPts, List.map_map]
          have htake : (srt.take (p30 C)).map
              ((fun it => itemPts it) ∘ (Sum.inl : Pt d α → RItem d α))
              = (srt.take (p30 C)).map (fun p => ({p} : Multiset (Pt d α))) :=
            List.map_congr_left (fun c _ => rfl)
          rw [htake, sum_map_singleton_list, Multiset.coe_add]
          refine Quot.sound ?_
          refine List.Perm.trans List.perm_append_comm ?_
          rw [List.take_append_drop]
          exact hperm
        · obtain ⟨c, hc, rfl⟩ := List.mem_map.mp hx
          trivial
      · intro ee items done' h
        rw [ovHandleP, if_neg hlen, if_neg hdone] at h
        simp only [Prod.mk.injEq] at h
        exact absurd h.1 (by simp)

theorem itemPts_memB {d : ℕ} {α : Type} {it : RItem d α} (h : itemWf it) :
    ∀ x ∈ itemPts it, (itemBox it).memB x.coords := by
  cases it with
  | inl p =>
      intro x hx
      have : x = p := by simpa [itemPts] using hx
      subst this
      exact memB_ptBox x
  | inr e =>
      intro x hx
      exact (wfE_elim h).1 x (by exact_mod_cast hx)

theorem insRS_leaf_inl {d : ℕ} {α : Type} (C : ℕ) (pts : List (Pt d α))
    (p : Pt d α) (lvl : ℕ) (done : List ℕ) :
    insRS C (.leaf pts) (.inl p) lvl done = ovHandleP C done (pts ++ [p]) := by
  rw [insRS]

theorem insRS_leaf_inr {d : ℕ} {α : Type} (C : ℕ) (pts : List (Pt d α))
    (e : ℕ × Box d × RNode d α) (lvl : ℕ) (done : List ℕ) :
    insRS C (.leaf pts) (.inr e) lvl done
      = (.inr ((unionPts pts, .leaf pts), (e.2.1, e.2.2)), [], done) := by
  rw [insRS]

theorem insRS_node_inr0 {d : ℕ} {α : Type} (C : ℕ)
    (cs : List (Box d × RNode d α)) (e : ℕ × Box d × RNode d α)
    (done : List ℕ) :
    insRS C (.node cs) (.inr e) 0 done
      = ovHandleE C done (heightR (.node cs)) (cs ++ [(e.2.1, e.2.2)]) := by
  rw [insRS]

theorem insRS_node_succ_none {d : ℕ} {α : Type} {C : ℕ}
    {cs : List (Box d × RNode d α)} {it : RItem d α} {lvl : ℕ}
    {done : List ℕ}
    (hpk : pickAt cs (chooseIdxRS cs (itemBox it)) = none) :
    insRS C (.node cs) it (lvl+1) done = (.inl (.node cs), [it], done) := by
  cases it with
  | inl p =>
      rw [insRS.eq_def]
      dsimp only
      rw [hpk]
  | inr e =>
      rw [insRS.eq_def]
      dsimp only
      rw [hpk]

theorem insRS_node_succ_some {d : ℕ} {α : Type} {C : ℕ}
    {cs : List (Box d × RNode d α)} {it : RItem d α} {lvl : ℕ}
    {done : List ℕ} {b : Box d} {child : RNode d α}
    {pre post : List (Box d × RNode d α)}
    (hpk : pickAt cs (chooseIdxRS cs (itemBox it))
      = some ((b, child), pre, post)) :
    insRS C (.node cs) it (lvl+1) done =
      match insRS C child it lvl done with
      | (.inl child', items, done') =>
          (.inl (.node (pre ++ ((b.union (itemBox it), child') :: post))),
            items, done')
      | (.inr ee, items, done') =>
          ((ovHandleE C done' (heightR (.node cs))
              (pre ++ (ee.1 :: ee.2 :: post))).1,
            items ++ (ovHandleE C done' (heightR (.node cs))
              (pre ++ (ee.1 :: ee.2 :: post))).2.1,
            (ovHandleE C done' (heightR (.node cs))
              (pre ++ (ee.1 :: ee.2 :: post))).2.2) := by
  cases it with
  | inl p =>
      rw [insRS.eq_def]
      dsimp only
      rw [hpk]
  | inr e =>
      rw [insRS.eq_def]
      dsimp only
      rw [hpk]

theorem insRS_node_inl0_none {d : ℕ} {α : Type} {C : ℕ}
    {cs : List (Box d × RNode d α)} {p : Pt d α} {done : List ℕ}
    (hpk : pickAt cs (chooseIdxRS cs (ptBox p)) = none) :
    insRS C (.node cs) (.inl p) 0 done
      = (.inl (.node cs), [.inl p], done) := by
  rw [insRS.eq_def]
  dsimp only
  rw [hpk]

theorem insRS_node_inl0_some {d : ℕ} {α : Type} {C : ℕ}
    {cs : List (Box d × RNode d α)} {p : Pt d α} {done : List ℕ}
    {b : Box d} {child : RNode d α} {pre post : List (Box d × RNode d α)}
    (hpk : pickAt cs (chooseIdxRS cs (ptBox p))
      = some ((b, child), pre, post)) :
    insRS C (.node cs) (.inl p) 0 done =
      match insRS C child (.inl p) 0 done with
      | (.inl child', items, done') =>
          (.inl (.node (pre ++ ((b.union (ptBox p), child') :: post))),
            items, done')
      | (.inr ee, items, done') =>
          ((ovHandleE C done' (heightR (.node cs))
              (pre ++ (ee.1 :: ee.2 :: post))).1,
            items ++ (ovHandleE C done' (heightR (.node cs))
              (pre ++ (ee.1 :: ee.2 :: post))).2.1,
            (ovHandleE C done' (heightR (.node cs))
              (pre ++ (ee.1 :: ee.2 :: post))).2.2) := by
  rw [insRS.eq_def]
  dsimp only
  rw [hpk]


/-- One R* insertion descent: well-formedness is preserved, and the kept
points plus the queued reinsertion items account exactly for the old
points plus the inserted item. -/
theorem insRS_spec {d : ℕ} {α : Type} (C : ℕ) (hC : 1 ≤ C) (hd : 0 < d) :
    ∀ (nd : RNode d α) (it : RItem d α) (lvl : ℕ) (done : List ℕ),
      wfRN nd = true → itemWf it →
      (∀ nd' items done', insRS C nd it lvl done = (.inl nd', items, done') →
        wfRN nd' = true ∧
        ((↑(toListR nd') : Multiset (Pt d α)) + itemsPts items
          = ↑(toListR nd) + itemPts it) ∧
        itemsWfL items) ∧
      (∀ (ee : (Box d × RNode d α) × (Box d × RNode d α)) items done',
        insRS C nd it lvl done = (.inr ee, items, done') →
        wfE ee.1 = true ∧ wfE ee.2 = true ∧
        ((↑(toListR ee.1.2) + ↑(toListR ee.2.2) : Multiset (Pt d α))
          + itemsPts items = ↑(toListR nd) + itemPts it) ∧
        itemsWfL items) := by
  intro nd it lvl done
  induction nd, it, lvl, done using insRS.induct C with
  | case1 pts p lvl done =>
      intro hwf hit
      obtain ⟨P1, P2⟩ := @ovHandleP_spec d α C hC hd done (pts ++ [p])
      have hpp : (↑(pts ++ [p]) : Multiset (Pt d α))
          = ↑(toListR (RNode.leaf pts)) + itemPts (Sum.inl p : RItem d α) := by
        rw [toListR_leaf]
        show (↑(pts ++ [p]) : Multiset (Pt d α))
          = ↑pts + ({p} : Multiset (Pt d α))
        rw [← Multiset.coe_add]
        rfl
      constructor
      · intro nd' items done' h
        rw [insRS_leaf_inl] at h
        obtain ⟨h1, h2, h3⟩ := P1 nd' items done' h
        exact ⟨h1, by rw [h2, hpp], h3⟩
      · intro ee items done' h
        rw [insRS_leaf_inl] at h
        obtain ⟨h1, h2, h3, h4⟩ := P2 ee items done' h
        exact ⟨h1, h2, by rw [h3, hpp], h4⟩
  | case2 pts e lvl done =>
      intro hwf hit
      constructor
      · intro nd' items done' h
        rw [insRS_leaf_inr] at h
        simp only [Prod.mk.injEq] at h
        exact absurd h.1 (by simp)
      · intro ee items done' h
        rw [insRS_leaf_inr] at h
        simp only [Prod.mk.injEq, Sum.inr.injEq] at h
        obtain ⟨rfl, rfl, rfl⟩ := h
        refine ⟨?_, hit, ?_, fun x hx => absurd hx (by simp)⟩
        · exact wfE_intro (fun x hx => memB_unionPts (by
            rw [toListR_leaf] at hx; exact hx)) (wfRN_leaf _)
        · show (↑(toListR (RNode.leaf pts)) : Multiset (Pt d α))
            + ↑(toListR e.2.2) + itemsPts [] = _
          simp only [itemsPts, List.map_nil, List.sum_nil, add_zero]
          rfl
  | case3 cs e done =>
      intro hwf hit
      obtain ⟨hne, hall⟩ := wfRN_node hwf
      have hallx : entWfL (cs ++ [(e.2.1, e.2.2)]) := by
        intro c hc
        rcases List.mem_append.mp hc with hc | hc
        · exact hall c hc
        · rcases List.mem_cons.mp hc with rfl | hc
          · exact wfE_elim hit
          · exact absurd hc (by simp)
      obtain ⟨E1, E2⟩ := @ovHandleE_spec d α C hC hd done
        (heightR (RNode.node cs)) (cs ++ [(e.2.1, e.2.2)]) (by simp) hallx
      have hsum1 : ((cs ++ [(e.2.1, e.2.2)]).map entPts).sum
          = ↑(toListR (RNode.node cs)) + itemPts (Sum.inr e : RItem d α) := by
        rw [toListR_node_coe, List.map_append, List.sum_append]
        simp [entPts, itemPts]
      constructor
      · intro nd' items done' h
        rw [insRS_node_inr0] at h
        obtain ⟨h1, h2, h3⟩ := E1 nd' items done' h
        exact ⟨h1, by rw [h2, hsum1], h3⟩
      · intro ee items done' h
        rw [insRS_node_inr0] at h
        obtain ⟨h1, h2, h3, h4⟩ := E2 ee items done' h
        exact ⟨h1, h2, by rw [h3, hsum1], h4⟩
  | case4 cs it lvl done hpk =>
      intro hwf hit
      constructor
      · intro nd' items done' h
        rw [insRS_node_succ_none hpk] at h
        simp only [Prod.mk.injEq, Sum.inl.injEq] at h
        obtain ⟨rfl, rfl, rfl⟩ := h
        refine ⟨hwf, ?_, fun x hx => by
          rcases List.mem_cons.mp hx with rfl | hx
          · exact hit
          · exact absurd hx (by simp)⟩
        simp only [itemsPts, List.map_cons, List.map_nil, List.sum_cons,
          List.sum_nil, add_zero]
      · intro ee items done' h
        rw [insRS_node_succ_none hpk] at h
        simp only [Prod.mk.injEq] at h
        exact absurd h.1 (by simp)
  | case5 cs it lvl done b child pre post hpk child' items done2 heq ih =>
      intro hwf hit
      have hcs := pickAt_eq hpk
      obtain ⟨hpre, ⟨hcont, hcwf⟩, hpost⟩ := wf_entries_decomp hwf hcs
      obtain ⟨hwf', hms', hiw⟩ := ((ih hcwf hit).1 child' items done2 heq)
      have hnew : wfRN (RNode.node
          (pre ++ ((b.union (itemBox it), child') :: post))) = true ∧
          (↑(toListR (RNode.node (pre ++ ((b.union (itemBox it), child') :: post))))
            : Multiset (Pt d α)) + itemsPts items
            = ↑(toListR (RNode.node cs)) + itemPts it := by
        constructor
        · refine wfRN_node_of (by simp) ?_
          intro c hc
          rcases List.mem_append.mp hc with hc | hc
          · exact hpre c hc
          · rcases List.mem_cons.mp hc with rfl | hc
            · refine ⟨?_, hwf'⟩
              intro x hx
              have hx' : x ∈ (↑(toListR child') : Multiset (Pt d α))
                  + itemsPts items ∨ False := by
                left
                exact Multiset.mem_add.mpr (Or.inl (by exact_mod_cast hx))
              rcases hx' with hx' | hx'
              · rw [hms'] at hx'
                rcases Multiset.mem_add.mp hx' with hx' | hx'
                · exact memB_union_left _ (hcont x (by exact_mod_cast hx'))
                · exact memB_union_right b (itemPts_memB hit x hx')
              · exact absurd hx' (by simp)
            · exact hpost c hc
        · rw [hcs, toListR_node_coe, toListR_node_coe]
          simp only [List.map_append, List.map_cons, List.sum_append,
            List.sum_cons]
          have hent : entPts (b.union (itemBox it), child') + itemsPts items
              = entPts (b, child) + itemPts it := hms'
          calc (List.map entPts pre).sum + (entPts (b.union (itemBox it), child')
                + (List.map entPts post).sum) + itemsPts items
              = (List.map entPts pre).sum
                + (entPts (b.union (itemBox it), child') + itemsPts items)
                + (List.map entPts post).sum := by abel
            _ = (List.map entPts pre).sum
                + (entPts (b, child) + itemPts it)
                + (List.map entPts post).sum := by rw [hent]
            _ = (List.map entPts pre).sum + (entPts (b, child)
                + (List.map entPts post).sum) + itemPts it := by abel
      constructor
      · intro nd' its dn h
        rw [insRS_node_succ_some hpk, heq] at h
        dsimp only at h
        simp only [Prod.mk.injEq, Sum.inl.injEq] at h
        obtain ⟨rfl, rfl, rfl⟩ := h
        exact ⟨hnew.1, hnew.2, hiw⟩
      · intro ee its dn h
        rw [insRS_node_succ_some hpk, heq] at h
        dsimp only at h
        simp only [Prod.mk.injEq] at h
        exact absurd h.1 (by simp)
  | case6 cs it lvl done b child pre post hpk ee items done2 heq ih =>
      intro hwf hit
      have hcs := pickAt_eq hpk
      obtain ⟨hpre, ⟨hcont, hcwf⟩, hpost⟩ := wf_entries_decomp hwf hcs
      obtain ⟨hwf1, hwf2, hms', hiw⟩ := ((ih hcwf hit).2 ee items done2 heq)
      have hallcs' : entWfL (pre ++ (ee.1 :: ee.2 :: post)) := by
        intro c hc
        rcases List.mem_append.mp hc with hc | hc
        · exact hpre c hc
        · rcases List.mem_cons.mp hc with rfl | hc
          · exact wfE_elim hwf1
          · rcases List.mem_cons.mp hc with rfl | hc
            · exact wfE_elim hwf2
            · exact hpost c hc
      have hsum' : ((pre ++ (ee.1 :: ee.2 :: post)).map entPts).sum
          + itemsPts items
          = ↑(toListR (RNode.node cs)) + itemPts it := by
        rw [hcs, toListR_node_coe]
        simp only [List.map_append, List.map_cons, List.sum_append,
          List.sum_cons]
        have hent : entPts ee.1 + entPts ee.2 + itemsPts items
            = entPts (b, child) + itemPts it := hms'
        calc (List.map entPts pre).sum + (entPts ee.1
              + (entPts ee.2 + (List.map entPts post).sum)) + itemsPts items
            = (List.map entPts pre).sum
              + (entPts ee.1 + entPts ee.2 + itemsPts items)
              + (List.map entPts post).sum := by abel
          _ = (List.map entPts pre).sum
              + (entPts (b, child) + itemPts it)
              + (List.map entPts post).sum := by rw [hent]
          _ = (List.map entPts pre).sum + (entPts (b, child)
              + (List.map entPts post).sum) + itemPts it := by abel
      obtain ⟨OV1, OV2⟩ := @ovHandleE_spec d α C hC hd done2
        (heightR (RNode.node cs)) (pre ++ (ee.1 :: ee.2 :: post)) (by simp)
        hallcs'
      constructor
      · intro nd' its dn h
        rw [insRS_node_succ_some hpk, heq] at h
        dsimp only at h
        simp only [Prod.mk.injEq] at h
        obtain ⟨h1, h2, h3⟩ := h
        cases hov : (ovHandleE C done2 (heightR (RNode.node cs))
            (pre ++ (ee.1 :: ee.2 :: post))) with
        | mk ov1 ovrest =>
        rw [hov] at h1 h2 h3
        dsimp only at h1 h2 h3
        obtain ⟨hw9, hm9, hi9⟩ := OV1 nd' ovrest.1 ovrest.2
          (by rw [hov, h1])
        refine ⟨hw9, ?_, ?_⟩
        · rw [← h2, itemsPts_append]
          calc (↑(toListR nd') : Multiset (Pt d α))
              + (itemsPts items + itemsPts ovrest.1)
              = ↑(toListR nd') + itemsPts ovrest.1 + itemsPts items := by abel
            _ = ((pre ++ (ee.1 :: ee.2 :: post)).map entPts).sum
                + itemsPts items := by rw [hm9]
            _ = ↑(toListR (RNode.node cs)) + itemPts it := hsum'
        · intro x hx
          rw [← h2] at hx
          rcases List.mem_append.mp hx with hx | hx
          · exact hiw x hx
          · exact hi9 x hx
      · intro ee2 its dn h
        rw [insRS_node_succ_some hpk, heq] at h
        dsimp only at h
        simp only [Prod.mk.injEq] at h
        obtain ⟨h1, h2, h3⟩ := h
        cases hov : (ovHandleE C done2 (heightR (RNode.node cs))
            (pre ++ (ee.1 :: ee.2 :: post))) with
        | mk ov1 ovrest =>
        rw [hov] at h1 h2 h3
        dsimp only at h1 h2 h3
        obtain ⟨hw8, hw9, hm9, hi9⟩ := OV2 ee2 ovrest.1 ovrest.2
          (by rw [hov, h1])
        refine ⟨hw8, hw9, ?_, ?_⟩
        · rw [← h2, itemsPts_append]
          calc (↑(toListR ee2.1.2) + ↑(toListR ee2.2.2) : Multiset (Pt d α))
              + (itemsPts items + itemsPts ovrest.1)
              = ↑(toListR ee2.1.2) + ↑(toListR ee2.2.2)
                + itemsPts ovrest.1 + itemsPts items := by abel
            _ = ((pre ++ (ee.1 :: ee.2 :: post)).map entPts).sum
                + itemsPts items := by rw [hm9]
            _ = ↑(toListR (RNode.node cs)) + itemPts it := hsum'
        · intro x hx
          rw [← h2] at hx
          rcases List.mem_append.mp hx with hx | hx
          · exact hiw x hx
          · exact hi9 x hx
  | case7 cs p done hpk =>
      intro hwf hit
      constructor
      · intro nd' items done' h
        rw [insRS_node_inl0_none hpk] at h
        simp only [Prod.mk.injEq, Sum.inl.injEq] at h
        obtain ⟨rfl, rfl, rfl⟩ := h
        refine ⟨hwf, ?_, fun x hx => by
          rcases List.mem_cons.mp hx with rfl | hx
          · exact hit
          · exact absurd hx (by simp)⟩
        simp only [itemsPts, List.map_cons, List.map_nil, List.sum_cons,
          List.sum_nil, add_zero]
      · intro ee items done' h
        rw [insRS_node_inl0_none hpk] at h
        simp only [Prod.mk.injEq] at h
        exact absurd h.1 (by simp)
  | case8 cs p  done b child pre post hpk child' items done2 heq ih =>
      intro hwf hit
      have hcs := pickAt_eq hpk
      obtain ⟨hpre, ⟨hcont, hcwf⟩, hpost⟩ := wf_entries_decomp hwf hcs
      obtain ⟨hwf', hms', hiw⟩ := ((ih hcwf hit).1 child' items done2 heq)
      have hnew : wfRN (RNode.node
          (pre ++ ((b.union (ptBox p), child') :: post))) = true ∧
          (↑(toListR (RNode.node (pre ++ ((b.union (ptBox p), child') :: post))))
            : Multiset (Pt d α)) + itemsPts items
            = ↑(toListR (RNode.node cs)) + itemPts (Sum.inl p : RItem d α) := by
        constructor
        · refine wfRN_node_of (by simp) ?_
          intro c hc
          rcases List.mem_append.mp hc with hc | hc
          · exact hpre c hc
          · rcases List.mem_cons.mp hc with rfl | hc
            · refine ⟨?_, hwf'⟩
              intro x hx
              have hx' : x ∈ (↑(toListR child') : Multiset (Pt d α))
                  + itemsPts items ∨ False := by
                left
                exact Multiset.mem_add.mpr (Or.inl (by exact_mod_cast hx))
              rcases hx' with hx' | hx'
              · rw [hms'] at hx'
                rcases Multiset.mem_add.mp hx' with hx' | hx'
                · exact memB_union_left _ (hcont x (by exact_mod_cast hx'))
                · exact memB_union_right b (itemPts_memB hit x hx')
              · exact absurd hx' (by simp)
            · exact hpost c hc
        · rw [hcs, toListR_node_coe, toListR_node_coe]
          simp only [List.map_append, List.map_cons, List.sum_append,
            List.sum_cons]
          have hent : entPts (b.union (ptBox p), child') + itemsPts items
              = entPts (b, child) + itemPts (Sum.inl p : RItem d α) := hms'
          calc (List.map entPts pre).sum + (entPts (b.union (ptBox p), child')
                + (List.map entPts post).sum) + itemsPts items
              = (List.map entPts pre).sum
                + (entPts (b.union (ptBox p), child') + itemsPts items)
                + (List.map entPts post).sum := by abel
            _ = (List.map entPts pre).sum
                + (entPts (b, child) + itemPts (Sum.inl p : RItem d α))
                + (List.map entPts post).sum := by rw [hent]
            _ = (List.map entPts pre).sum + (entPts (b, child)
                + (List.map entPts post).sum) + itemPts (Sum.inl p : RItem d α) := by abel
      constructor
      · intro nd' its dn h
        rw [insRS_node_inl0_some hpk, heq] at h
        dsimp only at h
        simp only [Prod.mk.injEq, Sum.inl.injEq] at h
        obtain ⟨rfl, rfl, rfl⟩ := h
        exact ⟨hnew.1, hnew.2, hiw⟩
      · intro ee its dn h
        rw [insRS_node_inl0_some hpk, heq] at h
        dsimp only at h
        simp only [Prod.mk.injEq] at h
        exact absurd h.1 (by simp)
  | case9 cs p  done b child pre post hpk ee items done2 heq ih =>
      intro hwf hit
      have hcs := pickAt_eq hpk
      obtain ⟨hpre, ⟨hcont, hcwf⟩, hpost⟩ := wf_entries_decomp hwf hcs
      obtain ⟨hwf1, hwf2, hms', hiw⟩ := ((ih hcwf hit).2 ee items done2 heq)
      have hallcs' : entWfL (pre ++ (ee.1 :: ee.2 :: post)) := by
        intro c hc
        rcases List.mem_append.mp hc with hc | hc
        · exact hpre c hc
        · rcases List.mem_cons.mp hc with rfl | hc
          · exact wfE_elim hwf1
          · rcases List.mem_cons.mp hc with rfl | hc
            · exact wfE_elim hwf2
            · exact hpost c hc
      have hsum' : ((pre ++ (ee.1 :: ee.2 :: post)).map entPts).sum
          + itemsPts items
          = ↑(toListR (RNode.node cs)) + itemPts (Sum.inl p : RItem d α) := by
        rw [hcs, toListR_node_coe]
        simp only [List.map_append, List.map_cons, List.sum_append,
          List.sum_cons]
        have hent : entPts ee.1 + entPts ee.2 + itemsPts items
            = entPts (b, child) + itemPts (Sum.inl p : RItem d α) := hms'
        calc (List.map entPts pre).sum + (entPts ee.1
              + (entPts ee.2 + (List.map entPts post).sum)) + itemsPts items
            = (List.map entPts pre).sum
              + (entPts ee.1 + entPts ee.2 + itemsPts items)
              + (List.map entPts post).sum := by abel
          _ = (List.map entPts pre).sum
              + (entPts (b, child) + itemPts (Sum.inl p : RItem d α))
              + (List.map entPts post).sum := by rw [hent]
          _ = (List.map entPts pre).sum + (entPts (b, child)
              + (List.map entPts post).sum) + itemPts (Sum.inl p : RItem d α) := by abel
      obtain ⟨OV1, OV2⟩ := @ovHandleE_spec d α C hC hd done2
        (heightR (RNode.node cs)) (pre ++ (ee.1 :: ee.2 :: post)) (by simp)
        hallcs'
      constructor
      · intro nd' its dn h
        rw [insRS_node_inl0_some hpk, heq] at h
        dsimp only at h
        simp only [Prod.mk.injEq] at h
        obtain ⟨h1, h2, h3⟩ := h
        cases hov : (ovHandleE C done2 (heightR (RNode.node cs))
            (pre ++ (ee.1 :: ee.2 :: post))) with
        | mk ov1 ovrest =>
        rw [hov] at h1 h2 h3
        dsimp only at h1 h2 h3
        obtain ⟨hw9, hm9, hi9⟩ := OV1 nd' ovrest.1 ovrest.2
          (by rw [hov, h1])
        refine ⟨hw9, ?_, ?_⟩
        · rw [← h2, itemsPts_append]
          calc (↑(toListR nd') : Multiset (Pt d α))
              + (itemsPts items + itemsPts ovrest.1)
              = ↑(toListR nd') + itemsPts ovrest.1 + itemsPts items := by abel
            _ = ((pre ++ (ee.1 :: ee.2 :: post)).map entPts).sum
                + itemsPts items := by rw [hm9]
            _ = ↑(toListR (RNode.node cs)) + itemPts (Sum.inl p : RItem d α) := hsum'
        · intro x hx
          rw [← h2] at hx
          rcases List.mem_append.mp hx with hx | hx
          · exact hiw x hx
          · exact hi9 x hx
      · intro ee2 its dn h
        rw [insRS_node_inl0_some hpk, heq] at h
        dsimp only at h
        simp only [Prod.mk.injEq] at h
        obtain ⟨h1, h2, h3⟩ := h
        cases hov : (ovHandleE C done2 (heightR (RNode.node cs))
            (pre ++ (ee.1 :: ee.2 :: post))) with
        | mk ov1 ovrest =>
        rw [hov] at h1 h2 h3
        dsimp only at h1 h2 h3
        obtain ⟨hw8, hw9, hm9, hi9⟩ := OV2 ee2 ovrest.1 ovrest.2
          (by rw [hov, h1])
        refine ⟨hw8, hw9, ?_, ?_⟩
        · rw [← h2, itemsPts_append]
          calc (↑(toListR ee2.1.2) + ↑(toListR ee2.2.2) : Multiset (Pt d α))
              + (itemsPts items + itemsPts ovrest.1)
              = ↑(toListR ee2.1.2) + ↑(toListR ee2.2.2)
                + itemsPts ovrest.1 + itemsPts items := by abel
            _ = ((pre ++ (ee.1 :: ee.2 :: post)).map entPts).sum
                + itemsPts items := by rw [hm9]
            _ = ↑(toListR (RNode.node cs)) + itemPts (Sum.inl p : RItem d α) := hsum'
        · intro x hx
          rw [← h2] at hx
          rcases List.mem_append.mp hx with hx | hx
          · exact hiw x hx
          · exact hi9 x hx

/-- The descent level of a pending item: points go to the leaves, an
orphaned entry goes back to its recorded height. -/
def itemLvl {d : ℕ} {α : Type} (root : RNode d α) : RItem d α → ℕ
  | .inl _ => 0
  | .inr e => heightR root - 1 - e.1

/-- Modelled from the spec: the top-level R* insertion loop — process the
pending item list (the original point, then any forcibly removed
entries), restarting each from the root; the per-level reinsertion guard
`done` persists for the whole top-level operation.  The loop is fuelled;
`none` reports fuel exhaustion. -/
def rstarLoop {d : ℕ} {α : Type} (C : ℕ) :
    ℕ → RNode d α → List (RItem d α) → List ℕ → Option (RNode d α)
  | _, root, [], _ => some root
  | 0, _, _ :: _, _ => none
  | fuel+1, root, it :: rest, done =>
      match insRS C root it (itemLvl root it) done with
      | (.inl r, items, done') => rstarLoop C fuel r (rest ++ items) done'
      | (.inr ee, items, done') =>
          rstarLoop C fuel (.node [ee.1, ee.2]) (rest ++ items) done'

theorem rstarLoop_nil {d : ℕ} {α : Type} (C : ℕ) (fuel : ℕ)
    (root : RNode d α) (done : List ℕ) :
    rstarLoop C fuel root [] done = some root := by
  cases fuel <;> rfl

theorem rstarLoop_zero_cons {d : ℕ} {α : Type} (C : ℕ) (root : RNode d α)
    (it : RItem d α) (rest : List (RItem d α)) (done : List ℕ) :
    rstarLoop C 0 root (it :: rest) done = none := rfl

theorem rstarLoop_succ_cons {d : ℕ} {α : Type} (C : ℕ) (fuel : ℕ)
    (root : RNode d α) (it : RItem d α) (rest : List (RItem d α))
    (done : List ℕ) :
    rstarLoop C (fuel+1) root (it :: rest) done =
      match insRS C root it (itemLvl root it) done with
      | (.inl r, items, done') => rstarLoop C fuel r (rest ++ items) done'
      | (.inr ee, items, done') =>
          rstarLoop C fuel (.node [ee.1, ee.2]) (rest ++ items) done' := rfl

theorem rstarLoop_spec {d : ℕ} {α : Type} (C : ℕ) (hC : 1 ≤ C)
    (hd : 0 < d) :
    ∀ (fuel : ℕ) (root : RNode d α) (items : List (RItem d α))
      (done : List ℕ) (r' : RNode d α),
      wfRN root = true → itemsWfL items →
      rstarLoop C fuel root items done = some r' →
      wfRN r' = true ∧
      (↑(toListR r') : Multiset (Pt d α)) = ↑(toListR root) + itemsPts items := by
  intro fuel
  induction fuel with
  | zero =>
      intro root items done r' hwf hiw h
      cases items with
      | nil =>
          rw [rstarLoop_nil] at h
          simp only [Option.some.injEq] at h
          subst h
          exact ⟨hwf, by simp [itemsPts]⟩
      | cons it rest =>
          rw [rstarLoop_zero_cons] at h
          exact Option.noConfusion h
  | succ fuel ih =>
      intro root items done r' hwf hiw h
      cases items with
      | nil =>
          rw [rstarLoop_nil] at h
          simp only [Option.some.injEq] at h
          subst h
          exact ⟨hwf, by simp [itemsPts]⟩
      | cons it rest =>
          rw [rstarLoop_succ_cons] at h
          have hit := hiw it (List.mem_cons_self _ _)
          have hrest : itemsWfL rest :=
            fun x hx => hiw x (List.mem_cons_of_mem _ hx)
          obtain ⟨S1, S2⟩ := insRS_spec C hC hd root it (itemLvl root it)
            done hwf hit
          cases hins : insRS C root it (itemLvl root it) done with
          | mk res rest2 =>
          rw [hins] at h
          cases res with
          | inl r =>
              dsimp only at h
              obtain ⟨hw1, hm1, hi1⟩ := S1 r rest2.1 rest2.2 (by rw [hins])
              obtain ⟨hw2, hm2⟩ := ih r (rest ++ rest2.1) rest2.2 r' hw1
                (fun x hx => by
                  rcases List.mem_append.mp hx with hx | hx
                  · exact hrest x hx
                  · exact hi1 x hx) h
              refine ⟨hw2, ?_⟩
              rw [hm2, itemsPts_append]
              calc (↑(toListR r) : Multiset (Pt d α))
                  + (itemsPts rest + itemsPts rest2.1)
                  = ↑(toListR r) + itemsPts rest2.1 + itemsPts rest := by abel
                _ = ↑(toListR root) + itemPts it + itemsPts rest := by rw [hm1]
                _ = ↑(toListR root) + itemsPts (it :: rest) := by
                    have hc : itemsPts (it :: rest)
                        = itemPts it + itemsPts rest := by
                      rw [itemsPts, itemsPts, List.map_cons, List.sum_cons]
                    rw [hc]
                    abel
          | inr ee =>
              dsimp only at h
              obtain ⟨hw0, hw1, hm1, hi1⟩ := S2 ee rest2.1 rest2.2
                (by rw [hins])
              have hwnew : wfRN (RNode.node [ee.1, ee.2]) = true := by
                refine wfRN_node_of (by simp) ?_
                intro c hc
                rcases List.mem_cons.mp hc with rfl | hc
                · exact wfE_elim hw0
                · rcases List.mem_cons.mp hc with rfl | hc
                  · exact wfE_elim hw1
                  · exact absurd hc (by simp)
              obtain ⟨hw2, hm2⟩ := ih (RNode.node [ee.1, ee.2])
                (rest ++ rest2.1) rest2.2 r' hwnew
                (fun x hx => by
                  rcases List.mem_append.mp hx with hx | hx
                  · exact hrest x hx
                  · exact hi1 x hx) h
              refine ⟨hw2, ?_⟩
              rw [hm2, itemsPts_append]
              have hnn : (↑(toListR (RNode.node [ee.1, ee.2]))
                  : Multiset (Pt d α))
                  = ↑(toListR ee.1.2) + ↑(toListR ee.2.2) := by
                rw [toListR_node_coe]
                simp only [List.map_cons, List.map_nil, List.sum_cons,
                  List.sum_nil, add_zero]
                rfl
              rw [hnn]
              calc (↑(toListR ee.1.2) + ↑(toListR ee.2.2) : Multiset (Pt d α))
                  + (itemsPts rest + itemsPts rest2.1)
                  = ↑(toListR ee.1.2) + ↑(toListR ee.2.2) + itemsPts rest2.1
                    + itemsPts rest := by abel
                _ = ↑(toListR root) + itemPts it + itemsPts rest := by rw [hm1]
                _ = ↑(toListR root) + itemsPts (it :: rest) := by
                    have hc : itemsPts (it :: rest)
                        = itemPts it + itemsPts rest := by
                      rw [itemsPts, itemsPts, List.map_cons, List.sum_cons]
                    rw [hc]
                    abel

/-- Modelled from the spec: `RStarTree2D(capacity)` / `RStarTree3D(capacity)` —
same node shape and external contract as the R-tree. -/
structure RSTree (d : ℕ) (α : Type) where
  cap : ℕ
  root : RNode d α

def RSTree.empty (d : ℕ) (α : Type) (cap : ℕ) : RSTree d α := ⟨cap, .leaf []⟩

/-- Modelled from the spec: R* construction — capacity 0 is rejected. -/
def mkRStar (d : ℕ) (α : Type) (cap : ℕ) : Except String (RSTree d α) :=
  if cap = 0 then .error "InvalidArgument: capacity must be positive"
  else .ok (RSTree.empty d α cap)

def RSTree.toList {d : ℕ} {α : Type} (t : RSTree d α) : List (Pt d α) :=
  toListR t.root

def RSTree.population {d : ℕ} {α : Type} (t : RSTree d α) : ℕ :=
  t.toList.length

/-- Modelled from the spec: R* `insert(p)` — the standard insert path with
forced reinsertion; fuelled. -/
def RSTree.insert {d : ℕ} {α : Type} (t : RSTree d α) (fuel : ℕ)
    (p : Pt d α) : Option (RSTree d α) :=
  (rstarLoop t.cap fuel t.root [.inl p] []).map (fun r => ⟨t.cap, r⟩)

/-- Modelled from the spec: R* `insert_bulk(ps)` — sequential insertion. -/
def RSTree.insert_bulk {d : ℕ} {α : Type} (t : RSTree d α) (fuel : ℕ)
    (ps : List (Pt d α)) : Option (RSTree d α) :=
  ps.foldlM (fun acc p => acc.insert fuel p) t

/-- Modelled from the spec: R* `knn_search` — identical in shape to the
R-tree search. -/
def RSTree.knn_search {d : ℕ} {α : Type} [DecidableEq α] (t : RSTree d α)
    (q : Coords d) (k : ℕ) : List (Pt d α) :=
  RTree.knn_search ⟨t.cap, t.root⟩ q k

/-- Modelled from the spec: R* `range_search` — identical in shape to the
R-tree search. -/
def RSTree.range_search {d : ℕ} {α : Type} (t : RSTree d α) (q : Coords d)
    (r : ℚ) : List (Pt d α) :=
  rangeR q r t.root

/-- Modelled from the spec: R* `delete(p)` — like the R-tree delete, with
the orphans reinserted through the R* insert path; fuelled. -/
def RSTree.delete {d : ℕ} {α : Type} [DecidableEq α] (t : RSTree d α)
    (fuel : ℕ) (p : Pt d α) : Option (RSTree d α × Bool) :=
  if (delR (mRStar t.cap) t.root p).2.1 then
    (rstarLoop t.cap fuel (rootFix (delR (mRStar t.cap) t.root p).1)
      (((delR (mRStar t.cap) t.root p).2.2.2.map Sum.inr)
        ++ ((delR (mRStar t.cap) t.root p).2.2.1.map Sum.inl)) []).map
      (fun r => (⟨t.cap, r⟩, true))
  else some (t, false)

theorem itemsPts_map_inr {d : ℕ} {α : Type}
    (eo : List (ℕ × Box d × RNode d α)) :
    itemsPts (eo.map (Sum.inr : _ → RItem d α)) = eoPts eo := by
  rw [itemsPts, eoPts, List.map_map]
  rfl

theorem itemsPts_map_inl {d : ℕ} {α : Type} (po : List (Pt d α)) :
    itemsPts (po.map (Sum.inl : _ → RItem d α)) = ↑po := by
  rw [itemsPts, List.map_map]
  have : po.map ((fun it => itemPts it) ∘ (Sum.inl : _ → RItem d α))
      = po.map (fun p => ({p} : Multiset (Pt d α))) :=
    List.map_congr_left (fun c _ => rfl)
  rw [this, sum_map_singleton_list]

theorem RSTree.insert_specS {d : ℕ} {α : Type} {t : RSTree d α}
    (hC : 1 ≤ t.cap) (hd : 0 < d) (hwf : wfRN t.root = true)
    {fuel : ℕ} {p : Pt d α} {t' : RSTree d α}
    (h : t.insert fuel p = some t') :
    t'.cap = t.cap ∧ wfRN t'.root = true ∧
    (↑t'.toList : Multiset (Pt d α)) = p ::ₘ ↑t.toList := by
  rw [RSTree.insert] at h
  cases hl : rstarLoop t.cap fuel t.root [.inl p] [] with
  | none => rw [hl] at h; exact Option.noConfusion h
  | some r =>
      rw [hl] at h
      have h' : (⟨t.cap, r⟩ : RSTree d α) = t' := Option.some.inj h
      subst h'
      obtain ⟨hw, hm⟩ := rstarLoop_spec t.cap hC hd fuel t.root [.inl p] []
        r hwf (fun x hx => by
          rcases List.mem_cons.mp hx with rfl | hx
          · trivial
          · exact absurd hx (by simp)) hl
      refine ⟨rfl, hw, ?_⟩
      show (↑(toListR r) : Multiset (Pt d α)) = _
      rw [hm]
      show ↑(toListR t.root) + itemsPts [Sum.inl p] = p ::ₘ ↑(toListR t.root)
      simp only [itemsPts, List.map_cons, List.map_nil, List.sum_cons,
        List.sum_nil, add_zero]
      show ↑(toListR t.root) + ({p} : Multiset (Pt d α)) = _
      rw [add_comm, Multiset.singleton_add]

theorem RSTree.insert_bulk_specS {d : ℕ} {α : Type} (hd : 0 < d) :
    ∀ (ps : List (Pt d α)) (t : RSTree d α) (fuel : ℕ)
      (t' : RSTree d α), 1 ≤ t.cap → wfRN t.root = true →
      t.insert_bulk fuel ps = some t' →
      t'.cap = t.cap ∧ wfRN t'.root = true ∧
      (↑t'.toList : Multiset (Pt d α)) = ↑t.toList + ↑ps := by
  intro ps
  induction ps with
  | nil =>
      intro t fuel t' hC hwf h
      rw [RSTree.insert_bulk, List.foldlM_nil] at h
      have h' : t = t' := Option.some.inj h
      subst h'
      exact ⟨rfl, hwf, by simp⟩
  | cons p ps ih =>
      intro t fuel t' hC hwf h
      rw [RSTree.insert_bulk, List.foldlM_cons] at h
      cases h1 : t.insert fuel p with
      | none => rw [h1] at h; exact Option.noConfusion h
      | some t1 =>
          rw [h1] at h
          have h2 : t1.insert_bulk fuel ps = some t' := h
          obtain ⟨hc1, hw1, hm1⟩ := RSTree.insert_specS hC hd hwf h1
          obtain ⟨hc2, hw2, hm2⟩ := ih t1 fuel t' (by rw [hc1]; exact hC)
            hw1 h2
          refine ⟨by rw [hc2, hc1], hw2, ?_⟩
          rw [hm2, hm1, Multiset.cons_add, ← Multiset.cons_coe, cons_add_right]

theorem RSTree.delete_specS {d : ℕ} {α : Type} [DecidableEq α]
    {t : RSTree d α} (hC : 1 ≤ t.cap) (hd : 0 < d)
    (hwf : wfRN t.root = true) (fuel : ℕ) (p : Pt d α) :
    ((∃ t', t.delete fuel p = some (t', true)) ∨
      t.delete fuel p = none → p ∈ t.toList) ∧
    (∀ t' found, t.delete fuel p = some (t', found) →
      (found = true →
        wfRN t'.root = true ∧
        (↑t'.toList : Multiset (Pt d α)) = (↑t.toList : Multiset (Pt d α)).erase p) ∧
      (found = false → t' = t ∧ p ∉ t.toList)) := by
  have hm : 1 ≤ mRStar t.cap := by simp [mRStar]
  obtain ⟨R1, R2, R3, R4, R5⟩ := (delRL_spec (mRStar t.cap) hm).1 t.root p hwf
  rw [RSTree.delete]
  by_cases hf : (delR (mRStar t.cap) t.root p).2.1 = true
  · rw [if_pos hf]
    refine ⟨fun _ => R2.mp hf, ?_⟩
    intro t' found h
    cases hl : rstarLoop t.cap fuel (rootFix (delR (mRStar t.cap) t.root p).1)
        (((delR (mRStar t.cap) t.root p).2.2.2.map Sum.inr)
          ++ ((delR (mRStar t.cap) t.root p).2.2.1.map Sum.inl)) [] with
    | none => rw [hl] at h; exact Option.noConfusion h
    | some r =>
        rw [hl] at h
        have h' : ((⟨t.cap, r⟩ : RSTree d α), true) = (t', found) :=
          Option.some.inj h
        obtain ⟨h1, h2⟩ := Prod.mk.injEq .. ▸ h'
        subst h1
        subst h2
        obtain ⟨hwfix, hmfix⟩ := rootFix_spec R1
        obtain ⟨hw, hmm⟩ := rstarLoop_spec t.cap hC hd fuel _ _ [] r hwfix
          (fun x hx => by
            rcases List.mem_append.mp hx with hx | hx
            · obtain ⟨e, he, rfl⟩ := List.mem_map.mp hx
              exact R5 e he
            · obtain ⟨q, hq, rfl⟩ := List.mem_map.mp hx
              trivial) hl
        refine ⟨fun _ => ⟨hw, ?_⟩, fun hcontra => Bool.noConfusion hcontra⟩
        show (↑(toListR r) : Multiset (Pt d α)) = _
        rw [hmm, hmfix, itemsPts_append, itemsPts_map_inr, itemsPts_map_inl]
        have h9 := R3 hf
        rw [show (↑t.toList : Multiset (Pt d α)) = ↑(toListR t.root) from rfl,
          ← h9]
        abel
  · rw [if_neg hf]
    rw [Bool.not_eq_true] at hf
    refine ⟨?_, ?_⟩
    · intro hcase
      rcases hcase with ⟨t', ht'⟩ | hnone
      · simp only [Option.some.injEq, Prod.mk.injEq] at ht'
        exact absurd ht'.2 (by simp)
      · exact Option.noConfusion hnone
    · intro t' found h
      have h' : ((t, false) : RSTree d α × Bool) = (t', found) :=
        Option.some.inj h
      obtain ⟨h1, h2⟩ := Prod.mk.injEq .. ▸ h'
      subst h1
      subst h2
      refine ⟨fun hcontra => absurd hcontra (by simp [hf]), fun _ => ⟨rfl, ?_⟩⟩
      intro hmem
      exact absurd (R2.mpr hmem) (by simp [hf])

theorem RSTree.knn_search_isKBestS {d : ℕ} {α : Type} [DecidableEq α]
    {t : RSTree d α} (h : wfRN t.root = true) (q : Coords d) (k : ℕ) :
    IsKBest (fun p => d2 q p.coords) k (t.knn_search q k) ↑t.toList :=
  RTree.knn_search_isKBestR (t := ⟨t.cap, t.root⟩) h q k

theorem RSTree.range_search_eq_filterS {d : ℕ} {α : Type}
    {t : RSTree d α} (h : wfRN t.root = true) (q : Coords d) (r : ℚ) :
    t.range_search q r
      = t.toList.filter (fun p => decide (d2 q p.coords ≤ r * r)) :=
  rangeR_eq_filter q r h

/-! ## Binary persistence

The binary format is modelled at token level: integers (tags, counts,
magic, version), IEEE floats (here exact rationals) and the opaque
length-prefixed payload blobs each become one token.  The payload codec
is the abstract capability the spec allows ("encode, decode, equals" —
here the payload is carried opaquely, which round-trips by
construction). -/

/-- One token of the persisted stream. -/
inductive Tok (α : Type) where
  | nat (n : ℕ)
  | rat (q : ℚ)
  | pay (a : α)
deriving DecidableEq

/-- Modelled from the spec: each point entry emits its coordinates
followed by its payload blob. -/
def encPt {d : ℕ} {α : Type} (p : Pt d α) : List (Tok α) :=
  (List.finRange d).map (fun i => Tok.rat (p.coords i)) ++ [Tok.pay p.data]

/-- Read `n` float tokens. -/
def decRats {α : Type} : ℕ → List (Tok α) → Option (List ℚ × List (Tok α))
  | 0, ts => some ([], ts)
  | n+1, Tok.rat q :: ts =>
      (decRats n ts).map (fun pr => (q :: pr.1, pr.2))
  | _+1, _ => none

/-- Rebuild a coordinate vector from its float list. -/
def listToCoords (d : ℕ) (l : List ℚ) : Coords d := fun i => l.getD i 0

/-- Decode one point entry. -/
def decPt (d : ℕ) {α : Type} (ts : List (Tok α)) :
    Option (Pt d α × List (Tok α)) :=
  match decRats d ts with
  | some (l, Tok.pay a :: ts') => some (⟨listToCoords d l, a⟩, ts')
  | _ => none

/-- Decode a counted point list. -/
def decPts (d : ℕ) {α : Type} : ℕ → List (Tok α) →
    Option (List (Pt d α) × List (Tok α))
  | 0, ts => some ([], ts)
  | n+1, ts =>
      match decPt d ts with
      | some (p, ts') => (decPts d n ts').map (fun pr => (p :: pr.1, pr.2))
      | none => none

theorem decRats_enc {α : Type} :
    ∀ (l : List ℚ) (rest : List (Tok α)),
      decRats l.length (l.map Tok.rat ++ rest) = some (l, rest) := by
  intro l
  induction l with
  | nil => intro rest; rfl
  | cons q qs ih =>
      intro rest
      show decRats (qs.length + 1) (Tok.rat q :: (qs.map Tok.rat ++ rest)) = _
      rw [decRats, ih]
      rfl

theorem length_map_finRange {d : ℕ} {γ : Type} (f : Fin d → γ) :
    ((List.finRange d).map f).length = d := by
  rw [List.length_map, List.length_finRange]

theorem listToCoords_map {d : ℕ} (c : Coords d) :
    listToCoords d ((List.finRange d).map c) = c := by
  funext i
  rw [listToCoords]
  have hlt : (i : ℕ) < ((List.finRange d).map c).length := by
    rw [length_map_finRange]
    exact i.isLt
  rw [List.getD_eq_getElem _ _ hlt]
  rw [List.getElem_map]
  congr 1
  exact Fin.ext (by simp [List.getElem_finRange])

theorem decPt_enc {d : ℕ} {α : Type} (p : Pt d α) (rest : List (Tok α)) :
    decPt d (encPt p ++ rest) = some (p, rest) := by
  rw [decPt, encPt]
  have h1 : ((List.finRange d).map (fun i => Tok.rat (p.coords i))
      ++ [Tok.pay p.data]) ++ rest
      = ((List.finRange d).map p.coords).map Tok.rat
        ++ (Tok.pay p.data :: rest) := by
    rw [List.append_assoc, List.map_map]
    rfl
  rw [h1]
  have h2 := decRats_enc ((List.finRange d).map p.coords)
    (Tok.pay p.data :: rest)
  rw [length_map_finRange] at h2
  rw [h2]
  show some (⟨listToCoords d ((List.finRange d).map p.coords), p.data⟩, rest)
    = some (p, rest)
  rw [listToCoords_map]

theorem decPts_enc {d : ℕ} {α : Type} :
    ∀ (pts : List (Pt d α)) (rest : List (Tok α)),
      decPts d pts.length (pts.flatMap encPt ++ rest) = some (pts, rest) := by
  intro pts
  induction pts with
  | nil => intro rest; rfl
  | cons p ps ih =>
      intro rest
      show decPts d (ps.length + 1)
        ((encPt p ++ ps.flatMap encPt) ++ rest) = _
      rw [decPts, List.append_assoc, decPt_enc]
      dsimp only
      rw [ih]
      rfl

/-- Modelled from the spec: a box emits its minimum then maximum corner. -/
def encBox {d : ℕ} {α : Type} (b : Box d) : List (Tok α) :=
  (List.finRange d).map (fun i => Tok.rat (b.lo i))
    ++ (List.finRange d).map (fun i => Tok.rat (b.hi i))

def decBox (d : ℕ) {α : Type} (ts : List (Tok α)) :
    Option (Box d × List (Tok α)) :=
  match decRats d ts with
  | some (lo, ts') =>
      match decRats d ts' with
      | some (hi, ts'') =>
          some (⟨listToCoords d lo, listToCoords d hi⟩, ts'')
      | none => none
  | none => none

theorem decBox_enc {d : ℕ} {α : Type} (b : Box d) (rest : List (Tok α)) :
    decBox d (encBox b ++ rest) = some (b, rest) := by
  rw [decBox, encBox]
  have h1 : ((List.finRange d).map (fun i => Tok.rat (b.lo i))
      ++ (List.finRange d).map (fun i => Tok.rat (b.hi i))) ++ rest
      = ((List.finRange d).map b.lo).map Tok.rat
        ++ (((List.finRange d).map b.hi).map Tok.rat ++ rest) := by
    rw [List.append_assoc, List.map_map, List.map_map]
    rfl
  rw [h1]
  have h2 := decRats_enc ((List.finRange d).map b.lo)
    (((List.finRange d).map b.hi).map Tok.rat ++ rest)
  rw [length_map_finRange] at h2
  rw [h2]
  dsimp only
  have h3 := decRats_enc ((List.finRange d).map b.hi) rest
  rw [length_map_finRange] at h3
  rw [List.map_map] at h3 ⊢
  rw [h3]
  show some (⟨listToCoords d ((List.finRange d).map b.lo),
      listToCoords d ((List.finRange d).map b.hi)⟩, rest) = some (b, rest)
  rw [listToCoords_map, listToCoords_map]

theorem getD_map_idxOf {γ δ : Type} [DecidableEq γ] (dflt : δ) :
    ∀ {l : List γ} (f : γ → δ) {s : γ}, s ∈ l → l.Nodup →
      (l.map f).getD (l.indexOf s) dflt = f s := by
  intro l
  induction l with
  | nil => intro f s h _; exact absurd h (by simp)
  | cons x xs ih =>
      intro f s hmem hnd
      rw [List.nodup_cons] at hnd
      by_cases hx : s = x
      · subst hx
        rw [List.indexOf_cons_self]
        rfl
      · have hmem' : s ∈ xs := by
          rcases List.mem_cons.mp hmem with h | h
          · exact absurd h hx
          · exact h
        rw [List.indexOf_cons_ne _ (fun h => hx h.symm)]
        show ((f x :: xs.map f)).getD (xs.indexOf s + 1) dflt = f s
        rw [List.getD_cons_succ]
        exact ih f hmem' hnd.2

/-- Modelled from the spec: the quad/octree body — pre-order, each node a
tag, a count, then its entries (leaf points, or the children in the
fixed child order). -/
def encQ {d : ℕ} {α : Type} : QNode d α → List (Tok α)
  | .leaf pts => Tok.nat 0 :: Tok.nat pts.length :: pts.flatMap encPt
  | .node f =>
      Tok.nat 1 :: Tok.nat (childIdxList d).length ::
        (childIdxList d).flatMap (fun s => encQ (f s))

mutual

def decQ (d : ℕ) {α : Type} : ℕ → List (Tok α) →
    Option (QNode d α × List (Tok α))
  | 0, _ => none
  | _+1, Tok.nat 0 :: Tok.nat n :: ts =>
      (decPts d n ts).map (fun pr => (.leaf pr.1, pr.2))
  | fuel+1, Tok.nat 1 :: Tok.nat c :: ts =>
      if c = (childIdxList d).length then
        (decQs d fuel (childIdxList d).length ts).map (fun pr =>
          (.node (fun s => pr.1.getD ((childIdxList d).indexOf s) (.leaf [])),
            pr.2))
      else none
  | _+1, _ => none

def decQs (d : ℕ) {α : Type} : ℕ → ℕ → List (Tok α) →
    Option (List (QNode d α) × List (Tok α))
  | _, 0, ts => some ([], ts)
  | fuel, k+1, ts =>
      match decQ d fuel ts with
      | some (nd, ts') => (decQs d fuel k ts').map (fun pr => (nd :: pr.1, pr.2))
      | none => none

end

theorem decQ_enc {d : ℕ} {α : Type} :
    ∀ (nd : QNode d α) (fuel : ℕ), sizeQ nd ≤ fuel →
      ∀ rest, decQ d fuel (encQ nd ++ rest) = some (nd, rest) := by
  intro nd
  induction nd with
  | leaf pts =>
      intro fuel hf rest
      have h1 : 1 ≤ fuel := le_trans (sizeQ_pos _) hf
      obtain ⟨f, rfl⟩ : ∃ f, fuel = f + 1 := ⟨fuel - 1, by omega⟩
      show decQ d (f+1) (Tok.nat 0 :: Tok.nat pts.length
        :: (pts.flatMap encPt ++ rest)) = _
      rw [decQ, decPts_enc]
      rfl
  | node f ih =>
      intro fuel hf rest
      have h1 : 1 ≤ fuel := le_trans (sizeQ_pos _) hf
      obtain ⟨fl, rfl⟩ : ∃ fl, fuel = fl + 1 := ⟨fuel - 1, by omega⟩
      show decQ d (fl+1) (Tok.nat 1 :: Tok.nat (childIdxList d).length
        :: ((childIdxList d).flatMap (fun s => encQ (f s)) ++ rest)) = _
      rw [decQ, if_pos rfl]
      have hsz : ∀ s, sizeQ (f s) ≤ fl := by
        intro s
        have hmem : sizeQ (f s) ∈ (childIdxList d).map (fun s => sizeQ (f s)) :=
          List.mem_map_of_mem _ (mem_childIdxList s)
        have hle := List.single_le_sum
          (l := (childIdxList d).map (fun s => sizeQ (f s)))
          (fun x _ => Nat.zero_le x) _ hmem
        simp only [sizeQ] at hf
        omega
      have hqs : ∀ (ss : List (Fin d → Bool)), (∀ s ∈ ss, sizeQ (f s) ≤ fl) →
          ∀ rest2, decQs d fl ss.length
            (ss.flatMap (fun s => encQ (f s)) ++ rest2)
            = some (ss.map f, rest2) := by
        intro ss
        induction ss with
        | nil => intro _ rest2; simp [decQs]
        | cons s ss ihs =>
            intro hall rest2
            show decQs d fl (ss.length + 1)
              ((encQ (f s) ++ ss.flatMap (fun s => encQ (f s))) ++ rest2) = _
            rw [decQs, List.append_assoc,
              ih s fl (hall s (List.mem_cons_self _ _))]
            dsimp only
            rw [ihs (fun x hx => hall x (List.mem_cons_of_mem _ hx))]
            rfl
      rw [hqs (childIdxList d) (fun s _ => hsz s) rest]
      have hfun : (fun s => ((childIdxList d).map f).getD
          ((childIdxList d).indexOf s) (QNode.leaf ([] : List (Pt d α)))) = f := by
        funext s
        exact getD_map_idxOf _ f (mem_childIdxList s) (nodup_childIdxList d)
      show some (QNode.node (fun s => ((childIdxList d).map f).getD
          ((childIdxList d).indexOf s) (QNode.leaf [])), rest)
        = some (QNode.node f, rest)
      rw [hfun]

/-- Number of k-d nodes (decoder fuel measure). -/
def sizeK {d : ℕ} {α : Type} : KNode d α → ℕ
  | .nil => 1
  | .node _ l r => 1 + sizeK l + sizeK r

/-- Modelled from the spec: the k-d body — pre-order, each node a tag, a
count, then its point and its two subtrees. -/
def encK {d : ℕ} {α : Type} : KNode d α → List (Tok α)
  | .nil => [Tok.nat 0, Tok.nat 0]
  | .node c l r => Tok.nat 1 :: Tok.nat 1 :: (encPt c ++ (encK l ++ encK r))

def decK (d : ℕ) {α : Type} : ℕ → List (Tok α) →
    Option (KNode d α × List (Tok α))
  | 0, _ => none
  | _+1, Tok.nat 0 :: Tok.nat 0 :: ts => some (.nil, ts)
  | fuel+1, Tok.nat 1 :: Tok.nat 1 :: ts =>
      match decPt d ts with
      | some (c, ts1) =>
          match decK d fuel ts1 with
          | some (l, ts2) =>
              (decK d fuel ts2).map (fun pr => (.node c l pr.1, pr.2))
          | none => none
      | none => none
  | _+1, _ => none

theorem decK_enc {d : ℕ} {α : Type} :
    ∀ (nd : KNode d α) (fuel : ℕ), sizeK nd ≤ fuel →
      ∀ rest, decK d fuel (encK nd ++ rest) = some (nd, rest) := by
  intro nd
  induction nd with
  | nil =>
      intro fuel hf rest
      obtain ⟨f, rfl⟩ : ∃ f, fuel = f + 1 := ⟨fuel - 1, by
        simp only [sizeK] at hf; omega⟩
      rfl
  | node c l r ihl ihr =>
      intro fuel hf rest
      simp only [sizeK] at hf
      obtain ⟨f, rfl⟩ : ∃ f, fuel = f + 1 := ⟨fuel - 1, by omega⟩
      show decK d (f+1) (Tok.nat 1 :: Tok.nat 1 ::
        ((encPt c ++ (encK l ++ encK r)) ++ rest)) = _
      rw [decK, List.append_assoc, decPt_enc]
      dsimp only
      rw [List.append_assoc, ihl f (by omega)]
      dsimp only
      rw [ihr f (by omega)]
      rfl

/-- Modelled from the spec: the R/R* body — pre-order, each node a tag, a
count, then its entries (points, or child boxes each followed by the
child subtree). -/
def encR {d : ℕ} {α : Type} : RNode d α → List (Tok α)
  | .leaf pts => Tok.nat 0 :: Tok.nat pts.length :: pts.flatMap encPt
  | .node cs =>
      Tok.nat 1 :: Tok.nat cs.length ::
        cs.attach.flatMap (fun c => encBox c.1.1 ++ encR c.1.2)
  decreasing_by
    have := sizeOf_entry_lt c
    simp only [RNode.node.sizeOf_spec]
    omega

theorem encR_leaf {d : ℕ} {α : Type} (pts : List (Pt d α)) :
    encR (.leaf pts) = (Tok.nat 0 : Tok α) :: Tok.nat pts.length
      :: pts.flatMap encPt := by
  rw [encR]

theorem encR_node {d : ℕ} {α : Type} (cs : List (Box d × RNode d α)) :
    encR (.node cs) = (Tok.nat 1 : Tok α) :: Tok.nat cs.length
      :: cs.flatMap (fun c => encBox c.1 ++ encR c.2) := by
  rw [encR]
  congr 1
  congr 1
  conv_rhs => rw [← List.attach_map_subtype_val cs]
  rw [List.flatMap_map]

mutual

def decR (d : ℕ) {α : Type} : ℕ → List (Tok α) →
    Option (RNode d α × List (Tok α))
  | 0, _ => none
  | _+1, Tok.nat 0 :: Tok.nat n :: ts =>
      (decPts d n ts).map (fun pr => (.leaf pr.1, pr.2))
  | fuel+1, Tok.nat 1 :: Tok.nat k :: ts =>
      (decRs d fuel k ts).map (fun pr => (.node pr.1, pr.2))
  | _+1, _ => none

def decRs (d : ℕ) {α : Type} : ℕ → ℕ → List (Tok α) →
    Option (List (Box d × RNode d α) × List (Tok α))
  | _, 0, ts => some ([], ts)
  | fuel, k+1, ts =>
      match decBox d ts with
      | some (b, ts1) =>
          match decR d fuel ts1 with
          | some (nd, ts2) =>
              (decRs d fuel k ts2).map (fun pr => ((b, nd) :: pr.1, pr.2))
          | none => none
      | none => none

end

theorem decR_enc {d : ℕ} {α : Type} :
    ∀ (nd : RNode d α) (fuel : ℕ), sizeR nd ≤ fuel →
      ∀ rest, decR d fuel (encR nd ++ rest) = some (nd, rest) := by
  intro nd
  induction nd using toListR.induct with
  | case1 pts =>
      intro fuel hf rest
      rw [sizeR_leaf] at hf
      obtain ⟨f, rfl⟩ : ∃ f, fuel = f + 1 := ⟨fuel - 1, by omega⟩
      rw [encR_leaf]
      show decR d (f+1) (Tok.nat 0 :: Tok.nat pts.length ::
        (pts.flatMap encPt ++ rest)) = _
      rw [decR, decPts_enc]
      rfl
  | case2 cs ih =>
      intro fuel hf rest
      rw [sizeR_node] at hf
      obtain ⟨f, rfl⟩ : ∃ f, fuel = f + 1 := ⟨fuel - 1, by omega⟩
      rw [encR_node]
      show decR d (f+1) (Tok.nat 1 :: Tok.nat cs.length ::
        (cs.flatMap (fun c => encBox c.1 ++ encR c.2) ++ rest)) = _
      rw [decR]
      have hsz : ∀ c ∈ cs, sizeR c.2 ≤ f := by
        intro c hc
        have hmem : sizeR c.2 ∈ cs.map (fun c => sizeR c.2) :=
          List.mem_map_of_mem _ hc
        have hle := List.single_le_sum
          (l := cs.map (fun c => sizeR c.2)) (fun x _ => Nat.zero_le x) _ hmem
        omega
      have hrs : ∀ (l : List (Box d × RNode d α)),
          (∀ c ∈ l, c ∈ cs) → ∀ rest2,
          decRs d f l.length
            (l.flatMap (fun c => encBox c.1 ++ encR c.2) ++ rest2)
          = some (l, rest2) := by
        intro l
        induction l with
        | nil => intro _ rest2; simp [decRs]
        | cons c l ihl =>
            intro hall rest2
            show decRs d f (l.length + 1)
              (((encBox c.1 ++ encR c.2)
                ++ l.flatMap (fun c => encBox c.1 ++ encR c.2)) ++ rest2) = _
            rw [decRs, List.append_assoc, List.append_assoc, decBox_enc]
            have hthis : decR d f (encR c.2 ++
                (l.flatMap (fun c => encBox c.1 ++ encR c.2) ++ rest2))
                = some (c.2,
                    l.flatMap (fun c => encBox c.1 ++ encR c.2) ++ rest2) :=
              ih ⟨c, hall c (List.mem_cons_self _ _)⟩ f
                (hsz c (hall c (List.mem_cons_self _ _)))
                (l.flatMap (fun c => encBox c.1 ++ encR c.2) ++ rest2)
            dsimp only
            rw [hthis]
            dsimp only
            rw [ihl (fun x hx => hall x (List.mem_cons_of_mem _ hx))]
            rfl
      rw [hrs cs (fun c hc => hc) rest]
      rfl

theorem encPt_length {d : ℕ} {α : Type} (p : Pt d α) :
    (encPt p).length = d + 1 := by
  simp [encPt]

theorem length_le_flatMap_encPt {d : ℕ} {α : Type} (pts : List (Pt d α)) :
    pts.length ≤ (pts.flatMap encPt).length := by
  induction pts with
  | nil => simp
  | cons p ps ih =>
      show ps.length + 1 ≤ (encPt p ++ ps.flatMap encPt).length
      rw [List.length_append, encPt_length]
      omega

/-- The node-count fuel bound needed at load time: token length dominates
the node count. -/
theorem sizeQ_le_encQ_length {d : ℕ} {α : Type} :
    ∀ nd : QNode d α, sizeQ nd ≤ (encQ nd).length := by
  intro nd
  induction nd with
  | leaf pts =>
      show 1 + pts.length ≤ (Tok.nat 0 :: Tok.nat pts.length ::
        pts.flatMap encPt).length
      have := length_le_flatMap_encPt pts
      simp only [List.length_cons]
      omega
  | node f ih =>
      show 1 + ((childIdxList d).map (fun s => sizeQ (f s))).sum
        ≤ (Tok.nat 1 :: Tok.nat (childIdxList d).length ::
            (childIdxList d).flatMap (fun s => encQ (f s))).length
      simp only [List.length_cons, List.length_flatMap, Function.comp_def]
      have hle : ((childIdxList d).map (fun s => sizeQ (f s))).sum
          ≤ ((childIdxList d).map (fun s => (encQ (f s)).length)).sum :=
        List.sum_le_sum (fun s _ => ih s)
      omega

theorem sizeK_le_encK_length {d : ℕ} {α : Type} :
    ∀ nd : KNode d α, sizeK nd ≤ (encK nd).length := by
  intro nd
  induction nd with
  | nil => simp [sizeK, encK]
  | node c l r ihl ihr =>
      show 1 + sizeK l + sizeK r ≤ (Tok.nat 1 :: Tok.nat 1 ::
        (encPt c ++ (encK l ++ encK r))).length
      simp only [List.length_cons, List.length_append]
      omega

theorem sizeR_le_encR_length {d : ℕ} {α : Type} :
    ∀ nd : RNode d α, sizeR nd ≤ (encR nd).length := by
  intro nd
  induction nd using toListR.induct with
  | case1 pts =>
      rw [sizeR_leaf, encR_leaf]
      have := length_le_flatMap_encPt pts
      simp only [List.length_cons]
      omega
  | case2 cs ih =>
      rw [sizeR_node, encR_node]
      simp only [List.length_cons, List.length_flatMap, Function.comp_def]
      have hle : (cs.map (fun c => sizeR c.2)).sum
          ≤ (cs.map (fun c => (encBox c.1 ++ encR c.2).length)).sum :=
        List.sum_le_sum (fun c hc => by
          have h1 : sizeR c.2 ≤ (encR c.2).length := ih ⟨c, hc⟩
          rw [List.length_append]
          omega)
      omega

/-- Modelled from the spec: the per-family magic constants ("QUAD"/"OCTR",
"KDT2"/"KDT3", "RTR2"/"RTR3", "RST2"/"RST3" as big-endian byte values). -/
def magicQO (d : ℕ) : ℕ := if d = 2 then 0x51554144 else 0x4F435452

def magicKD (d : ℕ) : ℕ := if d = 2 then 0x4B445432 else 0x4B445433

def magicRT (d : ℕ) : ℕ := if d = 2 then 0x52545232 else 0x52545233

def magicRS (d : ℕ) : ℕ := if d = 2 then 0x52535432 else 0x52535433

/-- Modelled from the spec: save = magic, version 1, header (capacity and
root region), then the pre-order body. -/
def QTree.save {d : ℕ} {α : Type} (t : QTree d α) : List (Tok α) :=
  Tok.nat (magicQO d) :: Tok.nat 1 :: Tok.nat t.cap ::
    (encBox t.box ++ encQ t.root)

/-- Modelled from the spec: load checks magic and version, reads the
header, decodes the body and rejects trailing bytes. -/
def QTree.load (d : ℕ) (α : Type) (ts : List (Tok α)) :
    Except String (QTree d α) :=
  match ts with
  | Tok.nat m :: Tok.nat v :: Tok.nat cap :: ts1 =>
      if m ≠ magicQO d then .error "FormatError: bad magic"
      else if v ≠ 1 then .error "FormatError: unsupported version"
      else match decBox d ts1 with
        | some (b, ts2) =>
            match decQ d ts2.length ts2 with
            | some (root, []) => .ok ⟨b, cap, root⟩
            | some (_, _ :: _) => .error "FormatError: trailing bytes"
            | none => .error "FormatError: truncated stream"
        | none => .error "FormatError: truncated stream"
  | _ => .error "FormatError: truncated stream"

theorem QTree.load_saveQ {d : ℕ} {α : Type} (t : QTree d α) :
    QTree.load d α t.save = .ok t := by
  show QTree.load d α (Tok.nat (magicQO d) :: Tok.nat 1 :: Tok.nat t.cap ::
    (encBox t.box ++ encQ t.root)) = .ok t
  rw [QTree.load]
  rw [if_neg (by simp), if_neg (by simp)]
  have hbox : decBox d (encBox t.box ++ encQ t.root)
      = some (t.box, encQ t.root) := decBox_enc t.box (encQ t.root)
  rw [hbox]
  dsimp only
  have hq : decQ d (encQ t.root).length (encQ t.root ++ [])
      = some (t.root, []) :=
    decQ_enc t.root (encQ t.root).length (sizeQ_le_encQ_length t.root) []
  rw [List.append_nil] at hq
  rw [hq]

/-- Modelled from the spec: the k-d stream has no header fields beyond
magic and version. -/
def KTree.save {d : ℕ} {α : Type} (t : KTree d α) : List (Tok α) :=
  Tok.nat (magicKD d) :: Tok.nat 1 :: encK t.root

def KTree.load (d : ℕ) (α : Type) (ts : List (Tok α)) :
    Except String (KTree d α) :=
  match ts with
  | Tok.nat m :: Tok.nat v :: ts1 =>
      if m ≠ magicKD d then .error "FormatError: bad magic"
      else if v ≠ 1 then .error "FormatError: unsupported version"
      else match decK d ts1.length ts1 with
        | some (root, []) => .ok ⟨root⟩
        | some (_, _ :: _) => .error "FormatError: trailing bytes"
        | none => .error "FormatError: truncated stream"
  | _ => .error "FormatError: truncated stream"

theorem KTree.load_saveK {d : ℕ} {α : Type} (t : KTree d α) :
    KTree.load d α t.save = .ok t := by
  show KTree.load d α (Tok.nat (magicKD d) :: Tok.nat 1 :: encK t.root)
    = .ok t
  rw [KTree.load]
  rw [if_neg (by simp), if_neg (by simp)]
  have hk : decK d (encK t.root).length (encK t.root ++ [])
      = some (t.root, []) :=
    decK_enc t.root (encK t.root).length (sizeK_le_encK_length t.root) []
  rw [List.append_nil] at hk
  rw [hk]

/-- Modelled from the spec: the R-tree stream carries the capacity in its
header, then the pre-order body. -/
def RTree.save {d : ℕ} {α : Type} (t : RTree d α) : List (Tok α) :=
  Tok.nat (magicRT d) :: Tok.nat 1 :: Tok.nat t.cap :: encR t.root

def RTree.load (d : ℕ) (α : Type) (ts : List (Tok α)) :
    Except String (RTree d α) :=
  match ts with
  | Tok.nat m :: Tok.nat v :: Tok.nat cap :: ts1 =>
      if m ≠ magicRT d then .error "FormatError: bad magic"
      else if v ≠ 1 then .error "FormatError: unsupported version"
      else match decR d ts1.length ts1 with
        | some (root, []) => .ok ⟨cap, root⟩
        | some (_, _ :: _) => .error "FormatError: trailing bytes"
        | none => .error "FormatError: truncated stream"
  | _ => .error "FormatError: truncated stream"

theorem RTree.load_saveR {d : ℕ} {α : Type} (t : RTree d α) :
    RTree.load d α t.save = .ok t := by
  show RTree.load d α (Tok.nat (magicRT d) :: Tok.nat 1 :: Tok.nat t.cap ::
    encR t.root) = .ok t
  rw [RTree.load]
  rw [if_neg (by simp), if_neg (by simp)]
  have hr : decR d (encR t.root).length (encR t.root ++ [])
      = some (t.root, []) :=
    decR_enc t.root (encR t.root).length (sizeR_le_encR_length t.root) []
  rw [List.append_nil] at hr
  rw [hr]

/-- Modelled from the spec: the R*-tree stream is the R-tree layout under
its own magic. -/
def RSTree.save {d : ℕ} {α : Type} (t : RSTree d α) : List (Tok α) :=
  Tok.nat (magicRS d) :: Tok.nat 1 :: Tok.nat t.cap :: encR t.root

def RSTree.load (d : ℕ) (α : Type) (ts : List (Tok α)) :
    Except String (RSTree d α) :=
  match ts with
  | Tok.nat m :: Tok.nat v :: Tok.nat cap :: ts1 =>
      if m ≠ magicRS d then .error "FormatError: bad magic"
      else if v ≠ 1 then .error "FormatError: unsupported version"
      else match decR d ts1.length ts1 with
        | some (root, []) => .ok ⟨cap, root⟩
        | some (_, _ :: _) => .error "FormatError: trailing bytes"
        | none => .error "FormatError: truncated stream"
  | _ => .error "FormatError: truncated stream"

theorem RSTree.load_saveS {d : ℕ} {α : Type} (t : RSTree d α) :
    RSTree.load d α t.save = .ok t := by
  show RSTree.load d α (Tok.nat (magicRS d) :: Tok.nat 1 :: Tok.nat t.cap ::
    encR t.root) = .ok t
  rw [RSTree.load]
  rw [if_neg (by simp), if_neg (by simp)]
  have hr : decR d (encR t.root).length (encR t.root ++ [])
      = some (t.root, []) :=
    decR_enc t.root (encR t.root).length (sizeR_le_encR_length t.root) []
  rw [List.append_nil] at hr
  rw [hr]

/-! ## Statement vocabulary for the specification's quantified properties -/

/-- The nondecreasing list of squared distances from `q` to the stored
points. -/
def sortedD2 {d : ℕ} {α : Type} (q : Coords d) (all : List (Pt d α)) :
    List ℚ :=
  (↑(all.map (fun p => d2 q p.coords)) : Multiset ℚ).sort (· ≤ ·)

/-- The kNN postcondition of the specification: the result is ordered by
nondecreasing Euclidean distance to the query, and its distance sequence
is the `k`-element prefix of the sorted sequence of the Euclidean
distances of all stored points (so the i-th result realises the i-th
smallest distance). -/
def KnnStmt {d : ℕ} {α : Type} (q : Coords d) (k : ℕ)
    (res all : List (Pt d α)) : Prop :=
  res.Pairwise (fun a b => edist q a.coords ≤ edist q b.coords) ∧
  ((sortedD2 q all).map (fun x : ℚ => Real.sqrt (x : ℝ))).Pairwise (· ≤ ·) ∧
  List.Perm ((sortedD2 q all).map (fun x : ℚ => Real.sqrt (x : ℝ)))
    (all.map (fun p => edist q p.coords)) ∧
  res.map (fun p => edist q p.coords)
    = ((sortedD2 q all).map (fun x : ℚ => Real.sqrt (x : ℝ))).take k

theorem sortedD2_eq_sort {d : ℕ} {α : Type} (q : Coords d)
    (all : List (Pt d α)) :
    sortedD2 q all
      = (((↑all : Multiset (Pt d α)).map (fun p => d2 q p.coords)).sort
          (· ≤ ·)) := by
  rw [sortedD2, Multiset.map_coe]

/-- Any `IsKBest` result (on squared distances) meets the specification's
Euclidean-distance kNN postcondition. -/
theorem knnStmt_of_isKBest {d : ℕ} {α : Type} [DecidableEq α]
    {q : Coords d} {k : ℕ} {res all : List (Pt d α)}
    (h : IsKBest (fun p => d2 q p.coords) k res ↑all) :
    KnnStmt q k res all := by
  refine ⟨?_, ?_, ?_, ?_⟩
  · exact h.1.imp (fun hab => edist_le_edist_iff.mpr hab)
  · rw [List.pairwise_map]
    refine (Multiset.sort_sorted (· ≤ ·) _).imp ?_
    intro a b hab
    exact Real.sqrt_le_sqrt (by exact_mod_cast hab)
  · have hperm : List.Perm (sortedD2 q all)
        (all.map (fun p => d2 q p.coords)) := by
      rw [← Multiset.coe_eq_coe, sortedD2, Multiset.sort_eq]
    have hm := hperm.map (fun x : ℚ => Real.sqrt (x : ℝ))
    rw [List.map_map] at hm
    exact hm
  · have hkey := h.map_key_eq
    have h1 : res.map (fun p => edist q p.coords)
        = (res.map (fun p => d2 q p.coords)).map
            (fun x : ℚ => Real.sqrt (x : ℝ)) := by
      rw [List.map_map]
      rfl
    rw [h1, hkey, sortedD2_eq_sort, List.map_take]

/-- On an empty population, any `IsKBest` result is empty. -/
theorem isKBest_all_nil {β : Type} [DecidableEq β] {κ : β → ℚ} {k : ℕ}
    {res : List β} (h : IsKBest κ k res (↑([] : List β))) : res = [] :=
  List.length_eq_zero.mp (by have := h.2.2.1; simpa using this)

/-- With `k = 0`, any `IsKBest` result is empty. -/
theorem isKBest_k_zero {β : Type} [DecidableEq β] {κ : β → ℚ}
    {res : List β} {all : Multiset β} (h : IsKBest κ 0 res all) : res = [] :=
  List.length_eq_zero.mp (by have := h.2.2.1; simpa using this)

/-- Membership in a squared-radius filter is membership within Euclidean
distance `r`, for `r ≥ 0`. -/
theorem mem_filter_d2_iff {d : ℕ} {α : Type} (q : Coords d) {r : ℚ}
    (hr : 0 ≤ r) (l : List (Pt d α)) (p : Pt d α) :
    p ∈ l.filter (fun p => decide (d2 q p.coords ≤ r * r)) ↔
      p ∈ l ∧ edist q p.coords ≤ (r : ℝ) := by
  rw [List.mem_filter, decide_eq_true_eq, edist_le_iff_d2_le hr]

/-- Membership in a radius-zero filter is exact coordinate equality. -/
theorem mem_filter_zero_iff {d : ℕ} {α : Type} (q : Coords d)
    (l : List (Pt d α)) (p : Pt d α) :
    p ∈ l.filter (fun p => decide (d2 q p.coords ≤ 0 * 0)) ↔
      p ∈ l ∧ p.coords = q := by
  rw [List.mem_filter, decide_eq_true_eq]
  constructor
  · rintro ⟨h1, h2⟩
    refine ⟨h1, ?_⟩
    have hz : d2 q p.coords = 0 :=
      le_antisymm (by simpa using h2) (d2_nonneg _ _)
    exact ((d2_eq_zero_iff q p.coords).mp hz).symm
  · rintro ⟨h1, h2⟩
    refine ⟨h1, ?_⟩
    rw [(d2_eq_zero_iff q p.coords).mpr h2.symm]
    norm_num

/-- Sequential single-point insertion into a k-d tree: invariant and
stored multiset. -/
theorem KTree.foldl_insert_spec {d : ℕ} {α : Type} [DecidableEq α] :
    ∀ (ps : List (Pt d α)) (t : KTree d α), t.Wf →
      (ps.foldl (fun a p => a.insert p) t).Wf ∧
      (↑(ps.foldl (fun a p => a.insert p) t).toList : Multiset (Pt d α))
        = ↑t.toList + ↑ps := by
  intro ps
  induction ps with
  | nil =>
      intro t h
      exact ⟨h, by simp⟩
  | cons p ps ih =>
      intro t h
      rw [List.foldl_cons]
      obtain ⟨hw, hm⟩ := ih (t.insert p) (KTree.insert_wf h p)
      refine ⟨hw, ?_⟩
      rw [hm, KTree.toList_insert h p, Multiset.cons_add,
        ← Multiset.cons_coe, cons_add_right]

/-! ## The specification's claims -/

/-- Claim C1: for every tree family, every query point `q` and every
`k > 0`, `knn_search(q, k)` returns a sequence ordered by non-decreasing
Euclidean distance to `q`, and the i-th returned point's distance equals
the i-th smallest distance to `q` among all stored points (for every `i`
up to `min(k, population)`). -/
theorem claim_C1 {d : ℕ} {α : Type} [DecidableEq α] (q : Coords d) (k : ℕ)
    (hk : 0 < k)
    (tq : QTree d α) (hwq : wfQ tq.box tq.root = true)
    (tk : KTree d α) (hwk : tk.Wf)
    (tr : RTree d α) (hwr : wfRN tr.root = true)
    (ts : RSTree d α) (hws : wfRN ts.root = true) :
    KnnStmt q k (tq.knn_search q k) tq.toList ∧
    KnnStmt q k (tk.knn_search q k) tk.toList ∧
    KnnStmt q k (tr.knn_search q k) tr.toList ∧
    KnnStmt q k (ts.knn_search q k) ts.toList :=
  ⟨knnStmt_of_isKBest (QTree.knn_search_isKBestQ tq hwq q k),
   knnStmt_of_isKBest (KTree.knn_search_isKBestK hwk q k),
   knnStmt_of_isKBest (RTree.knn_search_isKBestR hwr q k),
   knnStmt_of_isKBest (RSTree.knn_search_isKBestS hws q k)⟩

/-- A concrete region for the witness instances. -/
def wBox : Box 2 := ⟨![0, 0], ![1, 1]⟩

def wQT : QTree 2 ℕ := ⟨wBox, 1, .leaf []⟩

def wKT : KTree 2 ℕ := KTree.empty 2 ℕ

def wRT : RTree 2 ℕ := RTree.empty 2 ℕ 1

def wST : RSTree 2 ℕ := RSTree.empty 2 ℕ 1

def wq : Coords 2 := ![0, 0]

theorem wQT_wf : wfQ wQT.box wQT.root = true := by
  show wfQ wBox (.leaf []) = true
  rw [wfQ]
  simp only [List.all_nil, Bool.and_true, decide_eq_true_eq]
  intro i
  fin_cases i <;> norm_num [wBox]

theorem claim_C1_witness :
    ((0 : ℕ) < 1 ∧ wfQ wQT.box wQT.root = true ∧ wKT.Wf ∧
      wfRN wRT.root = true ∧ wfRN wST.root = true) ∧
    (KnnStmt wq 1 (wQT.knn_search wq 1) wQT.toList ∧
     KnnStmt wq 1 (wKT.knn_search wq 1) wKT.toList ∧
     KnnStmt wq 1 (wRT.knn_search wq 1) wRT.toList ∧
     KnnStmt wq 1 (wST.knn_search wq 1) wST.toList) :=
  ⟨⟨Nat.one_pos, wQT_wf, trivial, wfRN_leaf [], wfRN_leaf []⟩,
   claim_C1 wq 1 Nat.one_pos wQT wQT_wf wKT trivial wRT (wfRN_leaf [])
     wST (wfRN_leaf [])⟩

/-- Claim C2: for every tree family, every query point `q` and every
radius `r ≥ 0`, `range_search(q, r)` returns exactly the set of stored
points whose Euclidean distance to `q` is at most `r`: the boundary is
inclusive, and no point at distance greater than `r` is returned. -/
theorem claim_C2 {d : ℕ} {α : Type} [DecidableEq α] (q : Coords d) {r : ℚ}
    (hr : 0 ≤ r)
    (tq : QTree d α) (hwq : wfQ tq.box tq.root = true)
    (tk : KTree d α) (hwk : tk.Wf)
    (tr : RTree d α) (hwr : wfRN tr.root = true)
    (ts : RSTree d α) (hws : wfRN ts.root = true) :
    (∀ p, p ∈ tq.range_search q r ↔
      p ∈ tq.toList ∧ edist q p.coords ≤ (r : ℝ)) ∧
    (∀ p, p ∈ tk.range_search q r ↔
      p ∈ tk.toList ∧ edist q p.coords ≤ (r : ℝ)) ∧
    (∀ p, p ∈ tr.range_search q r ↔
      p ∈ tr.toList ∧ edist q p.coords ≤ (r : ℝ)) ∧
    (∀ p, p ∈ ts.range_search q r ↔
      p ∈ ts.toList ∧ edist q p.coords ≤ (r : ℝ)) := by
  refine ⟨fun p => ?_, fun p => ?_, fun p => ?_, fun p => ?_⟩
  · rw [QTree.range_search, rangeQ_eq_filter q r hwq]
    exact mem_filter_d2_iff q hr _ p
  · rw [KTree.range_search_eq_filterK hwk q r]
    exact mem_filter_d2_iff q hr _ p
  · rw [RTree.range_search_eq_filterR hwr q r]
    exact mem_filter_d2_iff q hr _ p
  · rw [RSTree.range_search_eq_filterS hws q r]
    exact mem_filter_d2_iff q hr _ p

theorem claim_C2_witness :
    ((0 : ℚ) ≤ 1 ∧ wfQ wQT.box wQT.root = true ∧ wKT.Wf ∧
      wfRN wRT.root = true ∧ wfRN wST.root = true) ∧
    ((∀ p, p ∈ wQT.range_search wq 1 ↔
      p ∈ wQT.toList ∧ edist wq p.coords ≤ ((1 : ℚ) : ℝ)) ∧
     (∀ p, p ∈ wKT.range_search wq 1 ↔
      p ∈ wKT.toList ∧ edist wq p.coords ≤ ((1 : ℚ) : ℝ)) ∧
     (∀ p, p ∈ wRT.range_search wq 1 ↔
      p ∈ wRT.toList ∧ edist wq p.coords ≤ ((1 : ℚ) : ℝ)) ∧
     (∀ p, p ∈ wST.range_search wq 1 ↔
      p ∈ wST.toList ∧ edist wq p.coords ≤ ((1 : ℚ) : ℝ))) :=
  ⟨⟨by norm_num, wQT_wf, trivial, wfRN_leaf [], wfRN_leaf []⟩,
   claim_C2 wq (by norm_num) wQT wQT_wf wKT trivial wRT (wfRN_leaf [])
     wST (wfRN_leaf [])⟩

/-- Claim C3: for every tree of any family (with arbitrary structured
payloads, here the opaque payload type `α`), loading the result of `save`
yields a tree whose kNN and range search results agree with the original
on every query, with identical coordinates and equal payloads (indeed the
loaded tree is the original). -/
theorem claim_C3 {d : ℕ} {α : Type} [DecidableEq α]
    (tq : QTree d α) (tk : KTree d α) (tr : RTree d α) (ts : RSTree d α) :
    (∃ tq', QTree.load d α tq.save = .ok tq' ∧
      (∀ q k, tq'.knn_search q k = tq.knn_search q k) ∧
      (∀ q r, tq'.range_search q r = tq.range_search q r)) ∧
    (∃ tk', KTree.load d α tk.save = .ok tk' ∧
      (∀ q k, tk'.knn_search q k = tk.knn_search q k) ∧
      (∀ q r, tk'.range_search q r = tk.range_search q r)) ∧
    (∃ tr', RTree.load d α tr.save = .ok tr' ∧
      (∀ q k, tr'.knn_search q k = tr.knn_search q k) ∧
      (∀ q r, tr'.range_search q r = tr.range_search q r)) ∧
    (∃ ts', RSTree.load d α ts.save = .ok ts' ∧
      (∀ q k, ts'.knn_search q k = ts.knn_search q k) ∧
      (∀ q r, ts'.range_search q r = ts.range_search q r)) :=
  ⟨⟨tq, QTree.load_saveQ tq, fun _ _ => rfl, fun _ _ => rfl⟩,
   ⟨tk, KTree.load_saveK tk, fun _ _ => rfl, fun _ _ => rfl⟩,
   ⟨tr, RTree.load_saveR tr, fun _ _ => rfl, fun _ _ => rfl⟩,
   ⟨ts, RSTree.load_saveS ts, fun _ _ => rfl, fun _ _ => rfl⟩⟩

/-- Claim C4: for every tree family and every point `p`, `delete(p)`
removes at most one stored point, where a stored point matches `p` iff
all of its coordinates and its payload are equal to `p`'s (point equality);
delete returns `true` iff such a point was present, and `false` otherwise,
leaving the tree unchanged.  (For the fuelled R* delete the same holds for
any returned result.) -/
theorem claim_C4 {d : ℕ} {α : Type} [DecidableEq α] (p : Pt d α)
    (fuel : ℕ)
    (tq : QTree d α) (hwq : wfQ tq.box tq.root = true)
    (tk : KTree d α) (hwk : tk.Wf)
    (tr : RTree d α) (hcr : 1 ≤ tr.cap) (hwr : wfRN tr.root = true)
    (ts : RSTree d α) (hcs : 1 ≤ ts.cap) (hds : 0 < d)
    (hws : wfRN ts.root = true) :
    (((tq.delete p).2 = true ↔ p ∈ tq.toList) ∧
     ((tq.delete p).2 = true →
       (↑(tq.delete p).1.toList : Multiset (Pt d α))
         = (↑tq.toList : Multiset (Pt d α)).erase p) ∧
     ((tq.delete p).2 = false → (tq.delete p).1 = tq)) ∧
    (((tk.delete p).2 = true ↔ p ∈ tk.toList) ∧
     ((tk.delete p).2 = true →
       (↑(tk.delete p).1.toList : Multiset (Pt d α))
         = (↑tk.toList : Multiset (Pt d α)).erase p) ∧
     ((tk.delete p).2 = false → (tk.delete p).1 = tk)) ∧
    (((tr.delete p).2 = true ↔ p ∈ tr.toList) ∧
     ((tr.delete p).2 = true →
       (↑(tr.delete p).1.toList : Multiset (Pt d α))
         = (↑tr.toList : Multiset (Pt d α)).erase p) ∧
     ((tr.delete p).2 = false → (tr.delete p).1 = tr)) ∧
    (∀ t' found, ts.delete fuel p = some (t', found) →
      (found = true → p ∈ ts.toList ∧
        (↑t'.toList : Multiset (Pt d α))
          = (↑ts.toList : Multiset (Pt d α)).erase p) ∧
      (found = false → t' = ts ∧ p ∉ ts.toList)) := by
  refine ⟨?_, ?_, ?_, ?_⟩
  · obtain ⟨_, h2, h3, h4⟩ := deleteQ_spec (p := p) hwq
    refine ⟨h2, h3, ?_⟩
    intro hf
    show (⟨tq.box, tq.cap, (deleteQ tq.box tq.root p).1⟩ : QTree d α) = tq
    rw [h4 hf]
  · obtain ⟨_, h2, h3, h4⟩ := KTree.delete_specK hwk p
    exact ⟨h2, h3, h4⟩
  · obtain ⟨_, h2, h3, h4⟩ := RTree.delete_specR hcr hwr p
    exact ⟨h2, h3, h4⟩
  · obtain ⟨hpre, hmain⟩ := RSTree.delete_specS hcs hds hws fuel p
    intro t' found h
    refine ⟨?_, (hmain t' found h).2⟩
    intro ht
    subst ht
    exact ⟨hpre (Or.inl ⟨t', h⟩), ((hmain t' true h).1 rfl).2⟩

theorem claim_C4_witness :
    (wfQ wQT.box wQT.root = true ∧ wKT.Wf ∧ 1 ≤ wRT.cap ∧ 1 ≤ wST.cap ∧
      0 < 2 ∧ wfRN wRT.root = true ∧ wfRN wST.root = true) ∧
    (((wQT.delete ⟨wq, 0⟩).2 = true ↔ (⟨wq, 0⟩ : Pt 2 ℕ) ∈ wQT.toList) ∧
     ((wQT.delete ⟨wq, 0⟩).2 = true →
       (↑(wQT.delete ⟨wq, 0⟩).1.toList : Multiset (Pt 2 ℕ))
         = (↑wQT.toList : Multiset (Pt 2 ℕ)).erase ⟨wq, 0⟩) ∧
     ((wQT.delete ⟨wq, 0⟩).2 = false → (wQT.delete ⟨wq, 0⟩).1 = wQT)) ∧
    (((wKT.delete ⟨wq, 0⟩).2 = true ↔ (⟨wq, 0⟩ : Pt 2 ℕ) ∈ wKT.toList) ∧
     ((wKT.delete ⟨wq, 0⟩).2 = true →
       (↑(wKT.delete ⟨wq, 0⟩).1.toList : Multiset (Pt 2 ℕ))
         = (↑wKT.toList : Multiset (Pt 2 ℕ)).erase ⟨wq, 0⟩) ∧
     ((wKT.delete ⟨wq, 0⟩).2 = false → (wKT.delete ⟨wq, 0⟩).1 = wKT)) ∧
    (((wRT.delete ⟨wq, 0⟩).2 = true ↔ (⟨wq, 0⟩ : Pt 2 ℕ) ∈ wRT.toList) ∧
     ((wRT.delete ⟨wq, 0⟩).2 = true →
       (↑(wRT.delete ⟨wq, 0⟩).1.toList : Multiset (Pt 2 ℕ))
         = (↑wRT.toList : Multiset (Pt 2 ℕ)).erase ⟨wq, 0⟩) ∧
     ((wRT.delete ⟨wq, 0⟩).2 = false → (wRT.delete ⟨wq, 0⟩).1 = wRT)) ∧
    (∀ t' found, wST.delete 1 ⟨wq, 0⟩ = some (t', found) →
      (found = true → (⟨wq, 0⟩ : Pt 2 ℕ) ∈ wST.toList ∧
        (↑t'.toList : Multiset (Pt 2 ℕ))
          = (↑wST.toList : Multiset (Pt 2 ℕ)).erase ⟨wq, 0⟩) ∧
      (found = false → t' = wST ∧ (⟨wq, 0⟩ : Pt 2 ℕ) ∉ wST.toList)) :=
  ⟨⟨wQT_wf, trivial, le_refl 1, le_refl 1, by norm_num, wfRN_leaf [],
      wfRN_leaf []⟩,
   claim_C4 ⟨wq, 0⟩ 1 wQT wQT_wf wKT trivial wRT (le_refl 1) (wfRN_leaf [])
     wST (le_refl 1) (by norm_num) (wfRN_leaf [])⟩

/-- The totality bundle shared by all families: empty tree gives empty
results, `k = 0` gives an empty result, `k` at least the population
returns everything, and radius `0` returns exactly the coordinate-equal
points. -/
theorem totality_pack {d : ℕ} {α : Type} [DecidableEq α] (q : Coords d)
    (k : ℕ) (all : List (Pt d α)) (knn : ℕ → List (Pt d α))
    (rng : ℚ → List (Pt d α))
    (hK : ∀ w, IsKBest (fun p => d2 q p.coords) w (knn w) ↑all)
    (hR : ∀ r, rng r = all.filter (fun p => decide (d2 q p.coords ≤ r * r))) :
    (all = [] → knn k = [] ∧ ∀ r, rng r = []) ∧
    knn 0 = [] ∧
    (all.length ≤ k → (↑(knn k) : Multiset (Pt d α)) = ↑all) ∧
    (∀ p, p ∈ rng 0 ↔ p ∈ all ∧ p.coords = q) := by
  refine ⟨?_, ?_, ?_, ?_⟩
  · intro h
    subst h
    exact ⟨isKBest_all_nil (hK k), fun r => by rw [hR r]; rfl⟩
  · exact isKBest_k_zero (hK 0)
  · intro hlen
    exact (hK k).perm_of_le_card (by simpa using hlen)
  · intro p
    rw [hR 0]
    exact mem_filter_zero_iff q all p

/-- Claim C5: for every tree family, query operations are total on every
legal input: `knn_search` and `range_search` on an empty tree return an
empty sequence, `knn_search` with `k = 0` returns an empty sequence,
`knn_search` with `k` at least the tree's population returns all stored
points, and `range_search` with `r = 0` returns exactly the stored points
whose coordinates equal the query's. -/
theorem claim_C5 {d : ℕ} {α : Type} [DecidableEq α] (q : Coords d) (k : ℕ)
    (tq : QTree d α) (hwq : wfQ tq.box tq.root = true)
    (tk : KTree d α) (hwk : tk.Wf)
    (tr : RTree d α) (hwr : wfRN tr.root = true)
    (ts : RSTree d α) (hws : wfRN ts.root = true) :
    ((tq.toList = [] → tq.knn_search q k = [] ∧
        ∀ r, tq.range_search q r = []) ∧
     tq.knn_search q 0 = [] ∧
     (tq.population ≤ k →
       (↑(tq.knn_search q k) : Multiset (Pt d α)) = ↑tq.toList) ∧
     (∀ p, p ∈ tq.range_search q 0 ↔ p ∈ tq.toList ∧ p.coords = q)) ∧
    ((tk.toList = [] → tk.knn_search q k = [] ∧
        ∀ r, tk.range_search q r = []) ∧
     tk.knn_search q 0 = [] ∧
     (tk.population ≤ k →
       (↑(tk.knn_search q k) : Multiset (Pt d α)) = ↑tk.toList) ∧
     (∀ p, p ∈ tk.range_search q 0 ↔ p ∈ tk.toList ∧ p.coords = q)) ∧
    ((tr.toList = [] → tr.knn_search q k = [] ∧
        ∀ r, tr.range_search q r = []) ∧
     tr.knn_search q 0 = [] ∧
     (tr.population ≤ k →
       (↑(tr.knn_search q k) : Multiset (Pt d α)) = ↑tr.toList) ∧
     (∀ p, p ∈ tr.range_search q 0 ↔ p ∈ tr.toList ∧ p.coords = q)) ∧
    ((ts.toList = [] → ts.knn_search q k = [] ∧
        ∀ r, ts.range_search q r = []) ∧
     ts.knn_search q 0 = [] ∧
     (ts.population ≤ k →
       (↑(ts.knn_search q k) : Multiset (Pt d α)) = ↑ts.toList) ∧
     (∀ p, p ∈ ts.range_search q 0 ↔ p ∈ ts.toList ∧ p.coords = q)) := by
  refine ⟨?_, ?_, ?_, ?_⟩
  · exact totality_pack q k tq.toList (fun w => tq.knn_search q w)
      (fun r => tq.range_search q r)
      (fun w => QTree.knn_search_isKBestQ tq hwq q w)
      (fun r => rangeQ_eq_filter q r hwq)
  · exact totality_pack q k tk.toList (fun w => tk.knn_search q w)
      (fun r => tk.range_search q r)
      (fun w => KTree.knn_search_isKBestK hwk q w)
      (fun r => KTree.range_search_eq_filterK hwk q r)
  · exact totality_pack q k tr.toList (fun w => tr.knn_search q w)
      (fun r => tr.range_search q r)
      (fun w => RTree.knn_search_isKBestR hwr q w)
      (fun r => RTree.range_search_eq_filterR hwr q r)
  · exact totality_pack q k ts.toList (fun w => ts.knn_search q w)
      (fun r => ts.range_search q r)
      (fun w => RSTree.knn_search_isKBestS hws q w)
      (fun r => RSTree.range_search_eq_filterS hws q r)

theorem claim_C5_witness :
    (wfQ wQT.box wQT.root = true ∧ wKT.Wf ∧
      wfRN wRT.root = true ∧ wfRN wST.root = true) ∧
    ((wQT.toList = [] → wQT.knn_search wq 2 = [] ∧
        ∀ r, wQT.range_search wq r = []) ∧
     wQT.knn_search wq 0 = [] ∧
     (wQT.population ≤ 2 →
       (↑(wQT.knn_search wq 2) : Multiset (Pt 2 ℕ)) = ↑wQT.toList) ∧
     (∀ p, p ∈ wQT.range_search wq 0 ↔ p ∈ wQT.toList ∧ p.coords = wq)) ∧
    ((wKT.toList = [] → wKT.knn_search wq 2 = [] ∧
        ∀ r, wKT.range_search wq r = []) ∧
     wKT.knn_search wq 0 = [] ∧
     (wKT.population ≤ 2 →
       (↑(wKT.knn_search wq 2) : Multiset (Pt 2 ℕ)) = ↑wKT.toList) ∧
     (∀ p, p ∈ wKT.range_search wq 0 ↔ p ∈ wKT.toList ∧ p.coords = wq)) ∧
    ((wRT.toList = [] → wRT.knn_search wq 2 = [] ∧
        ∀ r, wRT.range_search wq r = []) ∧
     wRT.knn_search wq 0 = [] ∧
     (wRT.population ≤ 2 →
       (↑(wRT.knn_search wq 2) : Multiset (Pt 2 ℕ)) = ↑wRT.toList) ∧
     (∀ p, p ∈ wRT.range_search wq 0 ↔ p ∈ wRT.toList ∧ p.coords = wq)) ∧
    ((wST.toList = [] → wST.knn_search wq 2 = [] ∧
        ∀ r, wST.range_search wq r = []) ∧
     wST.knn_search wq 0 = [] ∧
     (wST.population ≤ 2 →
       (↑(wST.knn_search wq 2) : Multiset (Pt 2 ℕ)) = ↑wST.toList) ∧
     (∀ p, p ∈ wST.range_search wq 0 ↔ p ∈ wST.toList ∧ p.coords = wq)) :=
  ⟨⟨wQT_wf, trivial, wfRN_leaf [], wfRN_leaf []⟩,
   claim_C5 wq 2 wQT wQT_wf wKT trivial wRT (wfRN_leaf [])
     wST (wfRN_leaf [])⟩

/-- Claim C6: for every capacity-carrying tree family (quad/octree and
the R/R* families), constructing a tree with capacity `0` fails with an
argument error, and construction with capacity `≥ 1` (and, for the
quad/octree, a well-formed boundary descriptor) yields a new empty
tree. -/
theorem claim_C6 {d : ℕ} (α : Type) (bd : Bdry d) (hbd : bd.Wellformed)
    {cap : ℕ} (hcap : 1 ≤ cap) :
    (∃ msg, mkQuadOct d α bd 0 = .error msg) ∧
    (∃ msg, mkR d α 0 = .error msg) ∧
    (∃ msg, mkRStar d α 0 = .error msg) ∧
    (∃ t, mkQuadOct d α bd cap = .ok t ∧ t.toList = [] ∧ t.cap = cap) ∧
    (∃ t, mkR d α cap = .ok t ∧ t.toList = [] ∧ t.cap = cap) ∧
    (∃ t, mkRStar d α cap = .ok t ∧ t.toList = [] ∧ t.cap = cap) := by
  refine ⟨⟨_, by rw [mkQuadOct]; rfl⟩, ⟨_, by rw [mkR]; rfl⟩,
    ⟨_, by rw [mkRStar]; rfl⟩, ?_, ?_, ?_⟩
  · refine ⟨⟨bd.toBox, cap, .leaf []⟩, ?_, rfl, rfl⟩
    rw [mkQuadOct, if_neg (by omega), if_neg (not_not_intro hbd)]
  · refine ⟨RTree.empty d α cap, ?_, RTree.toList_emptyR d α cap, rfl⟩
    rw [mkR, if_neg (by omega)]
  · refine ⟨RSTree.empty d α cap, ?_, RTree.toList_emptyR d α cap, rfl⟩
    rw [mkRStar, if_neg (by omega)]

/-- The witness boundary descriptor. -/
def wBd : Bdry 2 := ⟨![0, 0], ![1, 1]⟩

theorem claim_C6_witness :
    (wBd.Wellformed ∧ 1 ≤ 1) ∧
    ((∃ msg, mkQuadOct 2 ℕ wBd 0 = .error msg) ∧
     (∃ msg, mkR 2 ℕ 0 = .error msg) ∧
     (∃ msg, mkRStar 2 ℕ 0 = .error msg) ∧
     (∃ t, mkQuadOct 2 ℕ wBd 1 = .ok t ∧ t.toList = [] ∧ t.cap = 1) ∧
     (∃ t, mkR 2 ℕ 1 = .ok t ∧ t.toList = [] ∧ t.cap = 1) ∧
     (∃ t, mkRStar 2 ℕ 1 = .ok t ∧ t.toList = [] ∧ t.cap = 1)) :=
  ⟨⟨by intro i; fin_cases i <;> norm_num [wBd], le_refl 1⟩,
   claim_C6 ℕ wBd (by intro i; fin_cases i <;> norm_num [wBd]) (le_refl 1)⟩

/-- Claim C7: for every quadtree or octree and every point `p` outside the
tree's root boundary, `insert(p)` returns `false` rather than raising an
error, and the tree is unchanged (so subsequent searches find no trace of
`p`). -/
theorem claim_C7 {d : ℕ} {α : Type} [DecidableEq α] (t : QTree d α)
    (p : Pt d α) {fuel : ℕ} (hf : fuel ≠ 0)
    (hout : ¬ t.box.memB p.coords) :
    t.insert fuel p = some (t, false) := by
  rw [QTree.insert, insertQAux_outside t.cap hf t.box t.root p hout]

theorem claim_C7_witness :
    ((1 : ℕ) ≠ 0 ∧ ¬ wQT.box.memB (![2, 2] : Coords 2)) ∧
    wQT.insert 1 ⟨![2, 2], 0⟩ = some (wQT, false) :=
  ⟨⟨by norm_num, by decide⟩, claim_C7 wQT ⟨![2, 2], 0⟩ (by norm_num)
    (by decide)⟩

/-- Claim C9: a point is inside a quad/octree boundary descriptor iff on
each axis it lies (inclusively) between the origin and origin plus extent;
inclusion is closed on all sides, so inserting a point lying exactly on
the root boundary's surface — on any edge, face or corner, i.e. every
coordinate within the closed range and at least one coordinate exactly at
an endpoint — into a freshly constructed tree returns `true` (and stores
the point). -/
theorem claim_C9 {d : ℕ} {α : Type} [DecidableEq α] (bd : Bdry d)
    (cap : ℕ) (t : QTree d α) (hmk : mkQuadOct d α bd cap = .ok t)
    (p : Pt d α)
    (hbdry : (∀ i, bd.pos i ≤ p.coords i ∧
        p.coords i ≤ bd.pos i + bd.size i) ∧
      ∃ i, p.coords i = bd.pos i ∨ p.coords i = bd.pos i + bd.size i)
    {fuel : ℕ} (hf : 1 ≤ fuel) :
    (∀ c : Coords d, bd.insideB c ↔
      ∀ i, bd.pos i ≤ c i ∧ c i ≤ bd.pos i + bd.size i) ∧
    (∀ c : Coords d, bd.insideB c ↔ bd.toBox.memB c) ∧
    t.insert fuel p = some (⟨t.box, t.cap, .leaf [p]⟩, true) := by
  rw [mkQuadOct] at hmk
  by_cases h1 : cap = 0
  · rw [if_pos h1] at hmk; exact Except.noConfusion hmk
  rw [if_neg h1] at hmk
  by_cases h2 : ¬ bd.Wellformed
  · rw [if_pos h2] at hmk; exact Except.noConfusion hmk
  rw [if_neg h2] at hmk
  simp only [Except.ok.injEq] at hmk
  subst hmk
  refine ⟨fun c => Iff.rfl, fun c => Iff.rfl, ?_⟩
  obtain ⟨f, rfl⟩ : ∃ f, fuel = f + 1 := ⟨fuel - 1, by omega⟩
  have hin : (Bdry.toBox bd).memB p.coords := fun i => hbdry.1 i
  show QTree.insert _ _ _ = _
  rw [QTree.insert]
  have haux : insertQAux cap (f + 1) bd.toBox (.leaf []) p
      = some (.leaf [p], true) := by
    rw [insertQAux.eq_def]
    dsimp only
    rw [if_pos hin, if_pos (by simpa using Nat.pos_of_ne_zero h1)]
    rfl
  rw [haux]

theorem claim_C9_witness :
    (mkQuadOct 2 ℕ wBd 1
       = .ok ⟨wBd.toBox, 1, .leaf []⟩ ∧
     ((∀ i, wBd.pos i ≤ (![1/2, 0] : Coords 2) i ∧
        (![1/2, 0] : Coords 2) i ≤ wBd.pos i + wBd.size i) ∧
      ∃ i, (![1/2, 0] : Coords 2) i = wBd.pos i ∨
        (![1/2, 0] : Coords 2) i = wBd.pos i + wBd.size i) ∧
     (1 : ℕ) ≤ 1) ∧
    ((∀ c : Coords 2, wBd.insideB c ↔
       ∀ i, wBd.pos i ≤ c i ∧ c i ≤ wBd.pos i + wBd.size i) ∧
     (∀ c : Coords 2, wBd.insideB c ↔ wBd.toBox.memB c) ∧
     (⟨wBd.toBox, 1, .leaf []⟩ : QTree 2 ℕ).insert 1 ⟨![1/2, 0], 0⟩
       = some (⟨wBd.toBox, 1, .leaf [⟨![1/2, 0], 0⟩]⟩, true)) := by
  have hmk : mkQuadOct 2 ℕ wBd 1 = .ok ⟨wBd.toBox, 1, .leaf []⟩ := by
    rw [mkQuadOct, if_neg (by norm_num),
      if_neg (not_not_intro (by intro i; fin_cases i <;> norm_num [wBd]))]
  have hbdry : (∀ i, wBd.pos i ≤ (![1/2, 0] : Coords 2) i ∧
      (![1/2, 0] : Coords 2) i ≤ wBd.pos i + wBd.size i) ∧
      ∃ i, (![1/2, 0] : Coords 2) i = wBd.pos i ∨
        (![1/2, 0] : Coords 2) i = wBd.pos i + wBd.size i := by
    refine ⟨fun i => ?_, ⟨1, Or.inl (by norm_num [wBd])⟩⟩
    fin_cases i <;> norm_num [wBd]
  exact ⟨⟨hmk, hbdry, le_refl 1⟩,
    claim_C9 wBd 1 ⟨wBd.toBox, 1, .leaf []⟩ hmk ⟨![1/2, 0], 0⟩ hbdry
      (le_refl 1)⟩

/-! Claim C8 concerns bulk insertion.  The quad/octree and R/R* bulk
insertions are literally sequential insertion, but the k-d bulk insertion
is a balanced rebuild: it stores the same points, yet the rebuilt tree can
break distance ties between equidistant points differently from the
sequentially built tree, so the query *sequences* can differ. -/

theorem perm_pair_cases {β : Type} {l : List β} {a b : β}
    (h : l.Perm [a, b]) : l = [a, b] ∨ l = [b, a] := by
  have hlen := h.length_eq
  match l, hlen with
  | [x, y], _ =>
      have hx : x ∈ [a, b] := h.mem_iff.mp (by simp)
      rcases List.mem_pair.mp hx with rfl | rfl
      · left
        have h2 : [y].Perm [b] := h.cons_inv
        rw [List.perm_singleton.mp h2]
      · right
        have h2 : [y].Perm [a] := (h.trans (List.Perm.swap _ _ [])).cons_inv
        rw [List.perm_singleton.mp h2]

theorem ksort_singleton {d : ℕ} {α : Type} (dep : ℕ) (a : Pt d α) :
    ksort dep [a] = [a] :=
  List.perm_singleton.mp (ksort_perm dep [a])

theorem ksort_pair_lt {d : ℕ} {α : Type} {dep : ℕ} {a b : Pt d α}
    (h : cAt a.coords dep < cAt b.coords dep) : ksort dep [a, b] = [a, b] := by
  rcases perm_pair_cases (ksort_perm dep [a, b]) with he | he
  · exact he
  · have hs := ksort_sorted dep [a, b]
    rw [he, List.pairwise_cons] at hs
    have := hs.1 a (by simp)
    linarith

/-- Equal stored multisets give the same sorted distance profile. -/
theorem sortedD2_congr {d : ℕ} {α : Type} (q : Coords d)
    {l1 l2 : List (Pt d α)} (h : (↑l1 : Multiset (Pt d α)) = ↑l2) :
    sortedD2 q l1 = sortedD2 q l2 := by
  rw [sortedD2_eq_sort, sortedD2_eq_sort, h]

theorem length_of_cons_coe {β : Type} {l1 l2 : List β} {x : β}
    (h : (↑l1 : Multiset β) = x ::ₘ ↑l2) : l1.length = l2.length + 1 := by
  have := congrArg Multiset.card h
  simpa using this

/-- The k-d counterexample fixture: two points tied in distance to the
query `(1,0)`. -/
def cp1 : Pt 2 ℕ := ⟨![0, 0], 0⟩

def cp2 : Pt 2 ℕ := ⟨![2, 0], 1⟩

def cq : Coords 2 := ![1, 0]

theorem buildK_cp_pair :
    buildK [cp1, cp2] 0 = .node cp2 (.node cp1 .nil .nil) .nil := by
  have hsort : ksort 0 [cp1, cp2] = [cp1, cp2] :=
    ksort_pair_lt (by decide)
  have hkhigh : khigh 0 [cp1, cp2] cp1 = [cp2] := by
    rw [khigh, kmed, hsort]
    decide
  have hklow : klow 0 [cp1, cp2] cp1 = [cp1] := by
    rw [klow, kmed, hsort]
    decide
  rw [buildK_cons hkhigh, hklow]
  have hsort1 : ksort 1 [cp1] = [cp1] := ksort_singleton 1 cp1
  have hkhigh1 : khigh 1 [cp1] cp1 = [cp1] := by
    rw [khigh, kmed, hsort1]
    decide
  have hklow1 : klow 1 [cp1] cp1 = [] := by
    rw [klow, kmed, hsort1]
    decide
  rw [buildK_cons hkhigh1, hklow1]
  have hnil : ∀ dep, buildK ([] : List (Pt 2 ℕ)) dep = .nil := by
    intro dep
    simp [buildK]
  rw [hnil, hnil]

/-- Claim C8 fails as stated: for the k-d tree, `insert_bulk` rebuilds the
tree, and on distance ties the rebuilt tree's kNN result differs from the
sequentially built tree's. -/
theorem claim_C8_counterexample :
    (((KTree.empty 2 ℕ).insert cp1).insert cp2).knn_search cq 1
      ≠ ((KTree.empty 2 ℕ).insert_bulk [cp1, cp2]).knn_search cq 1 := by
  have hL : (((KTree.empty 2 ℕ).insert cp1).insert cp2).knn_search cq 1
      = [cp1] := by
    norm_num [KTree.knn_search, KTree.insert, KTree.empty, insertK, knnK,
      pushBest, insKey, pushOk, d2, cAt, cp1, cp2, cq, Fin.sum_univ_two]
  have hroot : ((KTree.empty 2 ℕ).insert_bulk [cp1, cp2]).root
      = .node cp2 (.node cp1 .nil .nil) .nil := by
    show buildK (toListK (.nil : KNode 2 ℕ) ++ [cp1, cp2]) 0 = _
    rw [show toListK (.nil : KNode 2 ℕ) ++ [cp1, cp2] = [cp1, cp2] from rfl,
      buildK_cp_pair]
  have hR : ((KTree.empty 2 ℕ).insert_bulk [cp1, cp2]).knn_search cq 1
      = [cp2] := by
    rw [KTree.knn_search, hroot]
    norm_num [knnK, pushBest, insKey, pushOk, d2, cAt, cp1, cp2, cq,
      Fin.sum_univ_two]
  rw [hL, hR]
  decide

/-- Claim C8 (amended): for the quad/octree and the R/R* families bulk
insertion is literally the sequential fold of single inserts; for the k-d
tree the rebuilt tree agrees with the sequentially built one on the
population, the stored multiset, every kNN distance profile, and every
range result up to order — but not necessarily on result order at
distance ties. -/
theorem claim_C8_amended {d : ℕ} {α : Type} [DecidableEq α]
    (ps : List (Pt d α)) (fuel : ℕ)
    (tq : QTree d α) (tk : KTree d α) (hwk : tk.Wf)
    (tr : RTree d α) (ts : RSTree d α) :
    tq.insert_bulk fuel ps
      = ps.foldlM (fun a p => (a.insert fuel p).map Prod.fst) tq ∧
    tr.insert_bulk ps = ps.foldl (fun a p => a.insert p) tr ∧
    ts.insert_bulk fuel ps = ps.foldlM (fun a p => a.insert fuel p) ts ∧
    ((tk.insert_bulk ps).population
        = (ps.foldl (fun a p => a.insert p) tk).population ∧
     (↑(tk.insert_bulk ps).toList : Multiset (Pt d α))
        = ↑(ps.foldl (fun a p => a.insert p) tk).toList ∧
     (∀ q k, ((tk.insert_bulk ps).knn_search q k).map
          (fun p => edist q p.coords)
        = (((ps.foldl (fun a p => a.insert p) tk).knn_search q k)).map
          (fun p => edist q p.coords)) ∧
     (∀ q r, (↑((tk.insert_bulk ps).range_search q r) : Multiset (Pt d α))
        = ↑((ps.foldl (fun a p => a.insert p) tk).range_search q r))) := by
  obtain ⟨hseqw, hseqm⟩ := KTree.foldl_insert_spec ps tk hwk
  have hbw : (tk.insert_bulk ps).Wf := KTree.insert_bulk_wf tk ps
  have htl : (↑(tk.insert_bulk ps).toList : Multiset (Pt d α))
      = ↑(ps.foldl (fun a p => a.insert p) tk).toList := by
    rw [KTree.toList_insert_bulk, hseqm]
  refine ⟨rfl, rfl, rfl, ?_, htl, ?_, ?_⟩
  · show (tk.insert_bulk ps).toList.length
      = (ps.foldl (fun a p => a.insert p) tk).toList.length
    have := congrArg Multiset.card htl
    simpa using this
  · intro q k
    have h1 := (knnStmt_of_isKBest
      (KTree.knn_search_isKBestK hbw q k)).2.2.2
    have h2 := (knnStmt_of_isKBest
      (KTree.knn_search_isKBestK hseqw q k)).2.2.2
    rw [h1, h2, sortedD2_congr q htl]
  · intro q r
    rw [KTree.range_search_eq_filterK hbw q r,
      KTree.range_search_eq_filterK hseqw q r]
    rw [← Multiset.filter_coe, ← Multiset.filter_coe, htl]

theorem claim_C8_amended_witness :
    wKT.Wf ∧
    (wQT.insert_bulk 1 [cp1]
      = [cp1].foldlM (fun a p => (a.insert 1 p).map Prod.fst) wQT ∧
    wRT.insert_bulk [cp1] = [cp1].foldl (fun a p => a.insert p) wRT ∧
    wST.insert_bulk 1 [cp1] = [cp1].foldlM (fun a p => a.insert 1 p) wST ∧
    ((wKT.insert_bulk [cp1]).population
        = ([cp1].foldl (fun a p => a.insert p) wKT).population ∧
     (↑(wKT.insert_bulk [cp1]).toList : Multiset (Pt 2 ℕ))
        = ↑([cp1].foldl (fun a p => a.insert p) wKT).toList ∧
     (∀ q k, ((wKT.insert_bulk [cp1]).knn_search q k).map
          (fun p => edist q p.coords)
        = ((([cp1].foldl (fun a p => a.insert p) wKT).knn_search q k)).map
          (fun p => edist q p.coords)) ∧
     (∀ q r, (↑((wKT.insert_bulk [cp1]).range_search q r) : Multiset (Pt 2 ℕ))
        = ↑(([cp1].foldl (fun a p => a.insert p) wKT).range_search q r)))) :=
  ⟨trivial, claim_C8_amended [cp1] 1 wQT wKT trivial wRT wST⟩

/-! Claim C10 concerns duplicate points.  The k-d and R/R* inserts always
succeed and never deduplicate.  The quad/octree insert never deduplicates
either, but a leaf overflowing its capacity with coincident points
subdivides forever (every child region receives all of the coincident
points again), so the insert exhausts any depth budget instead of storing
the duplicate: the claim fails as stated for the quad/octree. -/

/-- Claim C10 fails as stated: a capacity-1 quadtree holding one point
cannot store a second coincident copy — the subdivision recursion never
terminates (modelled by the depth budget, here 1000, being exhausted). -/
theorem claim_C10_counterexample :
    (⟨wBox, 1, .leaf [⟨wq, 0⟩]⟩ : QTree 2 ℕ).insert 1000 ⟨wq, 0⟩
      = none := by
  rw [QTree.insert]
  rw [insertQAux_coincident_none 1 1000 wBox [⟨wq, 0⟩] ⟨wq, 0⟩ (by decide)
    (by intro x hx; rcases List.mem_singleton.mp hx with rfl; rfl)
    (le_refl 1)]

/-- Claim C10 (amended): no tree family ever deduplicates — every
successful insert adds exactly one copy (even of an already stored,
fully identical point), growing the population by exactly one, and
`knn_search` with `k` at least the population returns every stored copy.
For the k-d and R/R* families every insert succeeds; for the quad/octree
an insert of a point coincident with a full leaf's points exhausts any
depth budget instead of succeeding. -/
theorem claim_C10_amended {d : ℕ} {α : Type} [DecidableEq α] (p : Pt d α)
    (q0 : Coords d) (fuel k : ℕ)
    (tq : QTree d α) (hwq : wfQ tq.box tq.root = true)
    (tk : KTree d α) (hwk : tk.Wf)
    (tr : RTree d α) (hcr : 1 ≤ tr.cap) (hwr : wfRN tr.root = true)
    (ts : RSTree d α) (hcs : 1 ≤ ts.cap) (hds : 0 < d)
    (hws : wfRN ts.root = true) :
    (∀ t' ok, tq.insert fuel p = some (t', ok) → ok = true →
      (↑t'.toList : Multiset (Pt d α)) = p ::ₘ ↑tq.toList ∧
      t'.population = tq.population + 1) ∧
    ((↑(tk.insert p).toList : Multiset (Pt d α)) = p ::ₘ ↑tk.toList ∧
      (tk.insert p).population = tk.population + 1) ∧
    ((↑(tr.insert p).toList : Multiset (Pt d α)) = p ::ₘ ↑tr.toList ∧
      (tr.insert p).population = tr.population + 1) ∧
    (∀ t', ts.insert fuel p = some t' →
      (↑t'.toList : Multiset (Pt d α)) = p ::ₘ ↑ts.toList ∧
      t'.population = ts.population + 1) ∧
    (∀ (b : Box d) (pts : List (Pt d α)) (cap fuel2 : ℕ),
      b.memB p.coords → (∀ x ∈ pts, x.coords = p.coords) →
      1 ≤ cap → cap ≤ pts.length →
      (⟨b, cap, .leaf pts⟩ : QTree d α).insert fuel2 p = none) ∧
    ((tq.population ≤ k →
      (↑(tq.knn_search q0 k) : Multiset (Pt d α)) = ↑tq.toList) ∧
     (tk.population ≤ k →
      (↑(tk.knn_search q0 k) : Multiset (Pt d α)) = ↑tk.toList) ∧
     (tr.population ≤ k →
      (↑(tr.knn_search q0 k) : Multiset (Pt d α)) = ↑tr.toList) ∧
     (ts.population ≤ k →
      (↑(ts.knn_search q0 k) : Multiset (Pt d α)) = ↑ts.toList)) := by
  refine ⟨?_, ?_, ?_, ?_, ?_, ?_, ?_, ?_, ?_⟩
  · intro t' ok h hok
    subst hok
    rw [QTree.insert] at h
    cases haux : insertQAux tq.cap fuel tq.box tq.root p with
    | none => rw [haux] at h; exact Option.noConfusion h
    | some pr =>
        rw [haux] at h
        obtain ⟨nd, ok2⟩ := pr
        have h' : ((⟨tq.box, tq.cap, nd⟩ : QTree d α), ok2) = (t', true) :=
          Option.some.inj h
        obtain ⟨h1, h2⟩ := Prod.mk.injEq .. ▸ h'
        subst h1
        subst h2
        obtain ⟨_, htrue, _⟩ := insertQAux_spec tq.cap p fuel hwq haux
        obtain ⟨_, hm⟩ := htrue rfl
        exact ⟨hm, length_of_cons_coe hm⟩
  · have hm := KTree.toList_insert hwk p
    exact ⟨hm, length_of_cons_coe hm⟩
  · have hm := (RTree.insert_specR hcr hwr p).2.2
    exact ⟨hm, length_of_cons_coe hm⟩
  · intro t' h
    have hm := (RSTree.insert_specS hcs hds hws h).2.2
    exact ⟨hm, length_of_cons_coe hm⟩
  · intro b pts cap fuel2 hin hco hc1 hlen
    rw [QTree.insert]
    rw [insertQAux_coincident_none cap fuel2 b pts p hin hco hlen]
  · intro hk
    exact (QTree.knn_search_isKBestQ tq hwq q0 k).perm_of_le_card
      (by simpa using hk)
  · intro hk
    exact (KTree.knn_search_isKBestK hwk q0 k).perm_of_le_card
      (by simpa using hk)
  · intro hk
    exact (RTree.knn_search_isKBestR hwr q0 k).perm_of_le_card
      (by simpa using hk)
  · intro hk
    exact (RSTree.knn_search_isKBestS hws q0 k).perm_of_le_card
      (by simpa using hk)

theorem claim_C10_amended_witness :
    (wfQ wQT.box wQT.root = true ∧ wKT.Wf ∧ 1 ≤ wRT.cap ∧ 1 ≤ wST.cap ∧
      0 < 2 ∧ wfRN wRT.root = true ∧ wfRN wST.root = true) ∧
    ((∀ t' ok, wQT.insert 1 cp1 = some (t', ok) → ok = true →
      (↑t'.toList : Multiset (Pt 2 ℕ)) = cp1 ::ₘ ↑wQT.toList ∧
      t'.population = wQT.population + 1) ∧
    ((↑(wKT.insert cp1).toList : Multiset (Pt 2 ℕ)) = cp1 ::ₘ ↑wKT.toList ∧
      (wKT.insert cp1).population = wKT.population + 1) ∧
    ((↑(wRT.insert cp1).toList : Multiset (Pt 2 ℕ)) = cp1 ::ₘ ↑wRT.toList ∧
      (wRT.insert cp1).population = wRT.population + 1) ∧
    (∀ t', wST.insert 1 cp1 = some t' →
      (↑t'.toList : Multiset (Pt 2 ℕ)) = cp1 ::ₘ ↑wST.toList ∧
      t'.population = wST.population + 1) ∧
    (∀ (b : Box 2) (pts : List (Pt 2 ℕ)) (cap fuel2 : ℕ),
      b.memB cp1.coords → (∀ x ∈ pts, x.coords = cp1.coords) →
      1 ≤ cap → cap ≤ pts.length →
      (⟨b, cap, .leaf pts⟩ : QTree 2 ℕ).insert fuel2 cp1 = none) ∧
    ((wQT.population ≤ 3 →
      (↑(wQT.knn_search wq 3) : Multiset (Pt 2 ℕ)) = ↑wQT.toList) ∧
     (wKT.population ≤ 3 →
      (↑(wKT.knn_search wq 3) : Multiset (Pt 2 ℕ)) = ↑wKT.toList) ∧
     (wRT.population ≤ 3 →
      (↑(wRT.knn_search wq 3) : Multiset (Pt 2 ℕ)) = ↑wRT.toList) ∧
     (wST.population ≤ 3 →
      (↑(wST.knn_search wq 3) : Multiset (Pt 2 ℕ)) = ↑wST.toList))) :=
  ⟨⟨wQT_wf, trivial, le_refl 1, le_refl 1, by norm_num, wfRN_leaf [],
      wfRN_leaf []⟩,
   claim_C10_amended cp1 wq 1 3 wQT wQT_wf wKT trivial wRT (le_refl 1)
     (wfRN_leaf []) wST (le_refl 1) (by norm_num) (wfRN_leaf [])⟩

end Spart
